import Mathlib

/-!
Conflict detection over Darshan DXT traces

A shallow embedding of `darshan_dxt_conflicts.hh` / `darshan_dxt_conflicts.cc`.

* `int64_t` and `int` values are modelled by `Int`. Signed overflow is undefined
  behaviour in C++, so the model describes the executions in which every
  intermediate value fits its machine type: the theorems that relate the overlap
  tests and the block ends to sets of bytes carry the hypotheses `Event.InRange`,
  `Event.InBlockRange`, `IsInt64` or `IsInt32` that say so. Under these hypotheses the
  tests evaluated in wrapping `int64_t` arithmetic agree with the model
  (`overlapsMachine_eq`, `overlapsBlocksMachine_eq`); without them they differ
  (`overlapsMachine_overflow`, `overlapsBlocksMachine_overflow`).
* The C++ remainder `%` truncates towards zero; it is `Int.tmod`.
* A `double` timestamp is modelled by the rational number that it is; `std::stod`
  rounds the decimal text to the nearest `double` (`doubleOfRatio`).
* The static member `Event::block_size` is an explicit parameter `b`.
* The input stream is the list of its lines, a line the list of its characters. The
  three `std::regex` patterns are anchored at the start of the line and their groups
  are separated by characters outside the class of the group, so each search is
  embedded as a left-to-right matcher taking the longest run for every `+`.
* An exception thrown by `std::stoi`, `std::stoll` or `std::stod` is a result of its
  own: nothing in the program catches it.
-/

namespace Dxt

/-- The access kind, `enum Mode {READ, WRITE}`. -/
inductive Mode where
  | READ
  | WRITE
deriving DecidableEq, Repr

/-- The instrumented layer, `enum API {POSIX, MPI}`. -/
inductive API where
  | POSIX
  | MPI
deriving DecidableEq, Repr

/-- One recorded access, `class Event`. -/
structure Event where
  rank : Int
  mode : Mode
  api : API
  offset : Int
  length : Int
  start_time : ℚ
  end_time : ℚ
deriving DecidableEq, Repr

namespace Event

/-- The method `Event::overlaps`: the raw byte-range test of the header. -/
def overlaps (a other : Event) : Bool :=
  decide (a.offset < other.offset + other.length)
    && decide (a.offset + a.length > other.offset)

/-- The function `Event::blockStart`: round an offset down to the beginning of its block. -/
def blockStart (b : Int) (offset : Int) : Int :=
  offset - Int.tmod offset b

/-- The function `Event::blockEnd`: round an offset up to the end of its block. -/
def blockEnd (b : Int) (offset : Int) : Int :=
  blockStart b offset + b - 1

/-- The method `Event::overlapsBlocks`: the same test on the block-quantized ranges. -/
def overlapsBlocks (b : Int) (a other : Event) : Bool :=
  let this_start := blockStart b a.offset
  let this_end := blockEnd b (a.offset + a.length - 1)
  let other_start := blockStart b other.offset
  let other_end := blockEnd b (other.offset + other.length - 1)
  decide (this_start < other_end) && decide (this_end > other_start)

/-- The comparison `Event::operator<`: order by offset and then start time. -/
def lt (a that : Event) : Bool :=
  if a.offset = that.offset then decide (a.start_time < that.start_time)
  else decide (a.offset < that.offset)

/-- The block-quantized start offset of an event, `blockStart(offset)`. -/
def quantStart (b : Int) (e : Event) : Int :=
  blockStart b e.offset

/-- The block-quantized end offset of an event, `blockEnd(offset + length - 1)`. -/
def quantEnd (b : Int) (e : Event) : Int :=
  blockEnd b (e.offset + e.length - 1)

/-- The derived inclusive end offset, `offset + length - 1` (as printed by `Event::str`). -/
def end_offset (e : Event) : Int :=
  e.offset + e.length - 1

end Event

/-- The container `File::EventSetType`, a `std::set<Event>` ordered by `Event::operator<`,
represented by the list of its elements in iteration order. -/
abbrev EventSetType := List Event

/-- The insertion `std::set<Event>::insert`: the element goes before the first element it is less than;
an element equivalent to a stored one (neither is less than the other) is not inserted. -/
def EventSetType.insert (e : Event) : EventSetType → EventSetType
  | [] => [e]
  | x :: xs =>
    if e.lt x then e :: x :: xs
    else if x.lt e then x :: EventSetType.insert e xs
    else x :: xs

/-- One file under analysis, `class File`. -/
structure File where
  id : String
  name : String
  events : EventSetType
deriving DecidableEq, Repr

/-- What the scan emits: a conflict of `e` with an active event `o` and the overlapping
byte span, a false-sharing pair and the overlapping block range, or a same-rank merge
anomaly. Whether the two events of a conflict also overlap in time is determined by the
two events the report names and is not a field of its own. -/
inductive Report where
  | conflict (e o : Event) (lo hi : Int)
  | falseSharing (e o : Event) (lo hi : Int)
  | anomaly (e o : Event)
deriving DecidableEq, Repr

/-- Modelled from the spec: the class `OverlapSet` used by `scanForConflicts` is not part
of the sources; this is the active-window tracker of the design, the active events kept
in ascending order of quantized end offset. -/
structure OverlapSet where
  active : List Event
deriving Repr

namespace OverlapSet

/-- Modelled from the spec: `OverlapSet::removeOldEvents` (absent from the sources).
Expire: remove every active event whose quantized end offset is strictly less than the
threshold, the quantized start offset of the incoming event. -/
def removeOldEvents (b : Int) (os : OverlapSet) (threshold : Int) : OverlapSet :=
  ⟨os.active.filter (fun o => !decide (Event.quantEnd b o < threshold))⟩

/-- Modelled from the spec: the expected shape of a same-rank overlap (the check is part
of the absent `OverlapSet::mergeEventsSameRank`): the active event `o` is a byte-range,
time-range and operation-kind (write ⊇ read) superset of `e`. -/
def isSuperset (o e : Event) : Bool :=
  decide (o.offset ≤ e.offset) && decide (e.offset + e.length ≤ o.offset + o.length)
    && decide (o.start_time ≤ e.start_time) && decide (e.end_time ≤ o.end_time)
    && (decide (o.mode = Mode.WRITE) || decide (e.mode = Mode.READ))

/-- Modelled from the spec: `OverlapSet::mergeEventsSameRank` (absent from the sources).
Same-rank merge: when an active event of the rank of `e` raw-overlaps `e` the merge is
handled (`true`) and `e` is to be discarded; an overlapping active event that is not a
superset of `e` is reported as an anomaly. -/
def mergeEventsSameRank (os : OverlapSet) (e : Event) : Bool × List Report :=
  let hits := os.active.filter (fun o => decide (o.rank = e.rank) && o.overlaps e)
  (!hits.isEmpty, (hits.filter (fun o => !isSuperset o e)).map (fun o => Report.anomaly e o))

/-- The test of the cross-rank overlap report, the conflict definition of the file
header: different ranks, raw-overlapping byte ranges, at least one write. -/
def isConflict (e o : Event) : Bool :=
  decide (e.rank ≠ o.rank) && e.overlaps o
    && (decide (e.mode = Mode.WRITE) || decide (o.mode = Mode.WRITE))

/-- Modelled from the spec: `OverlapSet::reportOverlaps` (absent from the sources).
Cross-rank overlap report: one conflict report for every active event `o` of a different
rank that raw-overlaps `e` where one of the two is a write, with the byte span
`max(e.offset,o.offset) .. min(e.end_offset,o.end_offset)`. -/
def reportOverlaps (os : OverlapSet) (e : Event) : List Report :=
  (os.active.filter (fun o => isConflict e o)).map
    (fun o => Report.conflict e o (max e.offset o.offset) (min e.end_offset o.end_offset))

/-- Modelled from the spec: `OverlapSet::reportBlockOverlaps` (absent from the sources).
Block-level false sharing: only when no active event of a different rank raw-overlaps `e`,
the block size is above 1 and `e` is a write, one report for every active write of a
different rank whose quantized range overlaps that of `e`. -/
def reportBlockOverlaps (b : Int) (os : OverlapSet) (e : Event) : List Report :=
  if os.active.any (fun o => decide (o.rank ≠ e.rank) && e.overlaps o) then []
  else if decide (b > 1) && decide (e.mode = Mode.WRITE) then
    (os.active.filter (fun o => decide (o.rank ≠ e.rank) && decide (o.mode = Mode.WRITE)
        && e.overlapsBlocks b o && !e.overlaps o)).map
      (fun o => Report.falseSharing e o
        (max (Event.quantStart b e) (Event.quantStart b o))
        (min (Event.quantEnd b e) (Event.quantEnd b o)))
  else []

/-- Modelled from the spec: `OverlapSet::addEvent` (absent from the sources).
Admit: insert `e` into the active set, keyed by ascending quantized end offset. -/
def addEvent (b : Int) (os : OverlapSet) (e : Event) : OverlapSet :=
  ⟨List.orderedInsert (fun x y => Event.quantEnd b x ≤ Event.quantEnd b y) e os.active⟩

end OverlapSet

/-- The sweep loop of `scanForConflicts`, `for (const Event &e : f->events)`, threading
the tracker through the events and collecting what is reported. -/
def scanLoop (b : Int) : OverlapSet → List Event → List Report
  | _, [] => []
  | os, e :: rest =>
    -- throw out events that end before the first block of event e
    let os1 := os.removeOldEvents b (Event.blockStart b e.offset)
    -- if e overlaps any events and is the same rank, combine the two
    let m := os1.mergeEventsSameRank e
    if m.1 then m.2 ++ scanLoop b os1 rest
    else
      os1.reportOverlaps e ++ os1.reportBlockOverlaps b e
        ++ scanLoop b (os1.addEvent b e) rest

/-- The function `scanForConflicts(File *f)`: the reports of one file, in emission order. -/
def scanForConflicts (b : Int) (f : File) : List Report :=
  scanLoop b ⟨[]⟩ f.events

/-- The pairs `(e, o)` of the conflict reports among a list of reports. -/
def conflictPairs : List Report → List (Event × Event)
  | [] => []
  | Report.conflict e o _ _ :: rs => (e, o) :: conflictPairs rs
  | _ :: rs => conflictPairs rs

/-- Every unordered pair of positions of a list, once, as `(later, earlier)`. -/
def eventPairs : List Event → List (Event × Event)
  | [] => []
  | a :: rest => rest.map (fun e => (e, a)) ++ eventPairs rest

/-- One data line of the sample trace of the file header, an `X_POSIX` access; the two
timestamps are given in units of 0.0001 s (`4.8324` is `mkRat 48324 10000`). -/
def sampleLine (rank : Int) (mode : Mode) (offset length : Int) (t0 t1 : Int) : Event :=
  ⟨rank, mode, API.POSIX, offset, length, mkRat t0 10000, mkRat t1 10000⟩

/-- The data lines of the sample trace, in trace order: the section of rank 0 (ten
writes), then the section of rank 1 (ten reads). -/
def sampleTrace : List Event :=
  [
   sampleLine 0 Mode.WRITE 0 1048576 48324 48436,
   sampleLine 0 Mode.WRITE 1048576 1048576 48436 48534,
   sampleLine 0 Mode.WRITE 2097152 1048576 48534 48637,
   sampleLine 0 Mode.WRITE 3145728 1048576 48638 48706,
   sampleLine 0 Mode.WRITE 4194304 1048576 48706 48769,
   sampleLine 0 Mode.WRITE 5242880 1048576 48769 48832,
   sampleLine 0 Mode.WRITE 6291456 1048576 48832 48892,
   sampleLine 0 Mode.WRITE 7340032 1048576 48892 48944,
   sampleLine 0 Mode.WRITE 8388608 1048576 48944 49000,
   sampleLine 0 Mode.WRITE 9437184 1048576 49000 49059,
   sampleLine 1 Mode.READ 0 1048576 68327 68392,
   sampleLine 1 Mode.READ 1048576 1048576 68392 68434,
   sampleLine 1 Mode.READ 2097152 1048576 68434 68473,
   sampleLine 1 Mode.READ 3145728 1048576 68473 68513,
   sampleLine 1 Mode.READ 4194304 1048576 68513 68553,
   sampleLine 1 Mode.READ 5242880 1048576 68553 68601,
   sampleLine 1 Mode.READ 6291456 1048576 68601 68639,
   sampleLine 1 Mode.READ 7340032 1048576 68639 68673,
   sampleLine 1 Mode.READ 8388608 1048576 68673 68709,
   sampleLine 1 Mode.READ 9437184 1048576 68709 68747
  ]

/-- The file of the sample trace: its events inserted in trace order. -/
def sampleFile : File :=
  ⟨"8515199880342690440", "/mnt/c/Ed/UI/Research/Darshan/conflict_app.out.RAW.POSIX.NONE",
    sampleTrace.foldl (fun s e => EventSetType.insert e s) []⟩

/-- An event covering the byte range `[offset, offset+length)`; the other fields are
irrelevant to the overlap tests. -/
def bytes (rank : Int) (offset length : Int) : Event :=
  ⟨rank, Mode.WRITE, API.POSIX, offset, length, 0, 0⟩

/-- Each event of `rest` paired with each event of `act`, as `(event of rest, event of
act)`. -/
def pairsWith (act : List Event) : List Event → List (Event × Event)
  | [] => []
  | e :: rest => act.map (fun o => (e, o)) ++ pairsWith act rest

/-- The conflict definition on a pair of events. -/
def conflictPair (p : Event × Event) : Bool :=
  OverlapSet.isConflict p.1 p.2

/-- Scenario B: rank 0 writes bytes `[0,100)`, rank 1 writes bytes `[50,150)`. -/
def scenarioB : File :=
  ⟨"1", "scenarioB", [bytes 0 0 100, bytes 1 50 100]⟩

/-- The operations of the tracker that `scanForConflicts` calls on `overlap_set`, over
any type of tracker state. -/
structure TrackerOps (σ : Type) where
  removeOldEvents : σ → Int → σ
  mergeEventsSameRank : σ → Event → Bool × σ
  reportOverlaps : σ → Event → σ
  reportBlockOverlaps : σ → Event → σ
  addEvent : σ → Event → σ

/-- The sweep loop of `scanForConflicts` over any tracker: the same statements as
`scanLoop`, the tracker being a parameter and its output part of its state. -/
def scanLoopWith {σ : Type} (ops : TrackerOps σ) (b : Int) : σ → List Event → σ
  | s, [] => s
  | s, e :: rest =>
    let s1 := ops.removeOldEvents s (Event.blockStart b e.offset)
    let m := ops.mergeEventsSameRank s1 e
    if m.1 then scanLoopWith ops b m.2 rest
    else
      scanLoopWith ops b
        (ops.addEvent (ops.reportBlockOverlaps (ops.reportOverlaps m.2 e) e) e) rest

/-- The tracker modelled from the spec as an instance of the tracker operations, its
state the active set and the reports emitted so far. -/
def overlapSetOps (b : Int) : TrackerOps (OverlapSet × List Report) where
  removeOldEvents s t := (s.1.removeOldEvents b t, s.2)
  mergeEventsSameRank s e :=
    ((s.1.mergeEventsSameRank e).1, (s.1, s.2 ++ (s.1.mergeEventsSameRank e).2))
  reportOverlaps s e := (s.1, s.2 ++ s.1.reportOverlaps e)
  reportBlockOverlaps s e := (s.1, s.2 ++ s.1.reportBlockOverlaps b e)
  addEvent s e := (s.1.addEvent b e, s.2)

/-- One call of a tracker operation by the sweep, with its argument (and, for the merge,
its answer). -/
inductive TrackerCall where
  | removeOldEvents (threshold : Int)
  | mergeEventsSameRank (e : Event) (handled : Bool)
  | reportOverlaps (e : Event)
  | reportBlockOverlaps (e : Event)
  | addEvent (e : Event)
deriving DecidableEq, Repr

/-- A tracker that records the calls made on it; the answer of its merge step is any
function `handled` of the calls made before and of the event. -/
def loggingOps (handled : List TrackerCall → Event → Bool) :
    TrackerOps (List TrackerCall) where
  removeOldEvents s t := s ++ [TrackerCall.removeOldEvents t]
  mergeEventsSameRank s e :=
    (handled s e, s ++ [TrackerCall.mergeEventsSameRank e (handled s e)])
  reportOverlaps s e := s ++ [TrackerCall.reportOverlaps e]
  reportBlockOverlaps s e := s ++ [TrackerCall.reportBlockOverlaps e]
  addEvent s e := s ++ [TrackerCall.addEvent e]

/-- The calls the sweep makes for one event `e`, given the answer of the merge step. -/
def callsFor (b : Int) (e : Event) (handled : Bool) : List TrackerCall :=
  if handled then
    [TrackerCall.removeOldEvents (Event.blockStart b e.offset),
     TrackerCall.mergeEventsSameRank e true]
  else
    [TrackerCall.removeOldEvents (Event.blockStart b e.offset),
     TrackerCall.mergeEventsSameRank e false,
     TrackerCall.reportOverlaps e,
     TrackerCall.reportBlockOverlaps e,
     TrackerCall.addEvent e]

/-- The calls for a sequence of events and the answers of their merge steps. -/
def callsForAll (b : Int) : List Event → List Bool → List TrackerCall
  | e :: es, d :: ds => callsFor b e d ++ callsForAll b es ds
  | _, _ => []

/-- The expiry thresholds among a sequence of tracker calls. -/
def thresholds : List TrackerCall → List Int
  | [] => []
  | TrackerCall.removeOldEvents t :: cs => t :: thresholds cs
  | _ :: cs => thresholds cs

/-! Trace ingestion: `readDarshanDxtInput` and `parseEventLine`. -/

/-- A line of text as `getline` returns it: its characters, without the newline. -/
abbrev Line := List Char

/-- The exceptions that `std::stoi`, `std::stoll` and `std::stod` throw. Nothing in the
program catches them. -/
inductive Exn where
  | invalid_argument
  | out_of_range
deriving DecidableEq, Repr

/-- The character class `[0-9]`. -/
def isDigitChar (c : Char) : Bool := c.isDigit

/-- The character class `[a-z]`. -/
def isLowerChar (c : Char) : Bool := c.isLower

/-- The character class `[-0-9]`. -/
def isOffsetChar (c : Char) : Bool := c == '-' || c.isDigit

/-- The character class `[0-9.]`. -/
def isTimeChar (c : Char) : Bool := c.isDigit || c == '.'

/-- The literal space of the patterns. -/
def isSpaceChar (c : Char) : Bool := c == ' '

/-- A regex line terminator, which `.` does not match. -/
def isLineTerminator (c : Char) : Bool := c == '\n' || c == '\r'

/-- A greedy `X+` at the start of the text: the longest run of characters of the class,
which must not be empty, and the text after it. In the patterns of the program the
character after a `+` group is never of the class of the group, so that no shorter run
can lead to a match. -/
def plus (p : Char → Bool) (s : Line) : Option (Line × Line) :=
  if s.takeWhile p = [] then none else some (s.takeWhile p, s.dropWhile p)

/-- A literal at the start of the text: the text after it. -/
def stripLit : Line → Line → Option Line
  | [], s => some s
  | _ :: _, [] => none
  | c :: w, d :: s => if c = d then stripLit w s else none

/-- The piece ` +X+` of a pattern: one or more spaces, then a greedy group. -/
def sepField (p : Char → Bool) (s : Line) : Option (Line × Line) :=
  (plus isSpaceChar s).bind (fun x => plus p x.2)

/-- The value of a string of decimal digits. -/
def natOfDigits (ds : Line) : Nat :=
  ds.foldl (fun n c => 10 * n + (c.toNat - 48)) 0

/-- The conversion `std::stoll` on a text without leading blank or `+` (the captured
texts hold digits and `-` only): an optional `-`, then the longest run of digits;
`invalid_argument` without a digit, `out_of_range` outside of `long long`. -/
def stoll (s : Line) : Except Exn Int :=
  let neg := s.head? = some '-'
  let t := if neg then s.drop 1 else s
  let ds := t.takeWhile isDigitChar
  if ds = [] then Except.error Exn.invalid_argument
  else
    let v : Int := if neg then -(natOfDigits ds : Int) else (natOfDigits ds : Int)
    if v < -(2 ^ 63) ∨ 2 ^ 63 - 1 < v then Except.error Exn.out_of_range
    else Except.ok v

/-- The conversion `std::stoi`: as `stoll`, within the range of `int`. -/
def stoi (s : Line) : Except Exn Int :=
  let neg := s.head? = some '-'
  let t := if neg then s.drop 1 else s
  let ds := t.takeWhile isDigitChar
  if ds = [] then Except.error Exn.invalid_argument
  else
    let v : Int := if neg then -(natOfDigits ds : Int) else (natOfDigits ds : Int)
    if v < -(2 ^ 31) ∨ 2 ^ 31 - 1 < v then Except.error Exn.out_of_range
    else Except.ok v

/-- The number of binary digits of a natural number, by halving; the first argument
bounds the number of halvings. -/
def bitLengthAux : Nat → Nat → Nat
  | 0, _ => 0
  | fuel + 1, n => if n = 0 then 0 else bitLengthAux fuel (n / 2) + 1

/-- The number of binary digits of a natural number: `bitLength 0 = 0`, and
`2 ^ (bitLength n - 1) ≤ n < 2 ^ bitLength n` for `0 < n`. -/
def bitLength (n : Nat) : Nat := bitLengthAux n n

/-- The binary exponent of the positive ratio `n / d`: the `e` with
`2 ^ e ≤ n / d < 2 ^ (e + 1)`. The difference of the bit lengths is `e` or `e + 1`. -/
def binaryExponent (n d : Nat) : Int :=
  let e0 : Int := (bitLength n : Int) - (bitLength d : Int)
  if d * 2 ^ e0.toNat ≤ n * 2 ^ (-e0).toNat then e0 else e0 - 1

/-- The ratio `n / d` rounded to a multiple of the unit `2 ^ p`: the number `m` of units
nearest to it, the even one on a tie. -/
def roundToUnit (n d : Nat) (p : Int) : Nat :=
  let N : Nat := n * 2 ^ (-p).toNat
  let D : Nat := d * 2 ^ p.toNat
  if D < 2 * (N % D) ∨ (D = 2 * (N % D) ∧ (N / D) % 2 = 1) then N / D + 1 else N / D

/-- Whether the ratio `n / d` is a multiple of the unit `2 ^ p`. -/
def exactAtUnit (n d : Nat) (p : Int) : Bool :=
  (n * 2 ^ (-p).toNat) % (d * 2 ^ p.toNat) = 0

/-- The conversion of the decimal value `n / d` to `double` that `strtod` makes for
`std::stod`, in the default rounding mode. With `e` the binary exponent of `n / d`, the
result is the multiple `m * 2 ^ p` of the unit `2 ^ p`, `p = max e (-1022) - 52`, that
is nearest to `n / d`, the even `m` on a tie (binary64: 53 bits of mantissa, exponents
from -1022 to 1023, subnormal numbers below). `strtod` reports `ERANGE`, and `std::stod`
throws `out_of_range`, when the result is not finite (the rounded value reaches
`2 ^ 1024`), and when the value is below the smallest normal number `2 ^ (-1022)` and the
result is not exact (underflow, as glibc reports it, tininess taken before rounding).
Whether a value below `2 ^ (-1022)` is a range error depends on the C library; the
theorems on accepted lines are stated for the values of `InDoubleRange`, where none
reports one. -/
def doubleOfRatio (n d : Nat) : Except Exn ℚ :=
  if n = 0 then Except.ok 0
  else
    let e : Int := binaryExponent n d
    let p : Int := max e (-1022) - 52
    let m : Nat := roundToUnit n d p
    if 1023 < e ∨ (e = 1023 ∧ 2 ^ 53 ≤ m) then Except.error Exn.out_of_range
    else if e < -1022 ∧ exactAtUnit n d p = false then Except.error Exn.out_of_range
    else Except.ok (mkRat (Int.ofNat (m * 2 ^ p.toNat)) (2 ^ (-p).toNat))

instance : DecidableEq (Except Exn ℚ)
  | Except.ok a, Except.ok b =>
    if h : a = b then isTrue (congrArg Except.ok h)
    else isFalse (fun h2 => h (Except.ok.inj h2))
  | Except.error a, Except.error b =>
    if h : a = b then isTrue (congrArg Except.error h)
    else isFalse (fun h2 => h (Except.error.inj h2))
  | Except.ok _, Except.error _ => isFalse (fun h => Except.noConfusion h)
  | Except.error _, Except.ok _ => isFalse (fun h => Except.noConfusion h)

/-- The conversion `std::stod` on a text of digits and `.` (the captured texts hold
nothing else): the longest prefix `digits`, `digits.digits`, `digits.` or `.digits`,
`invalid_argument` when it has no digit; the value is the `double` nearest to the decimal
number, `out_of_range` when that is not finite or underflows (`doubleOfRatio`). -/
def stod (s : Line) : Except Exn ℚ :=
  let ds := s.takeWhile isDigitChar
  let r := s.dropWhile isDigitChar
  let fs := if r.head? = some '.' then (r.drop 1).takeWhile isDigitChar else []
  if ds = [] ∧ fs = [] then Except.error Exn.invalid_argument
  else doubleOfRatio (natOfDigits (ds ++ fs)) (10 ^ fs.length)

/-- The captured texts of `io_event_re`, named as in the comment above it. -/
structure EventMatch where
  library : Line
  rank : Line
  direction : Line
  offset : Line
  length : Line
  start_time : Line
  end_time : Line
deriving DecidableEq, Repr

/-- The alternation `(X_MPIIO|X_POSIX)` at the start of the text. -/
def libraryGroup (s : Line) : Option (Line × Line) :=
  match stripLit "X_MPIIO".toList s with
  | some r => some ("X_MPIIO".toList, r)
  | none =>
    match stripLit "X_POSIX".toList s with
    | some r => some ("X_POSIX".toList, r)
    | none => none

/-- The search of `io_event_re` in a line,
`^ *(X_MPIIO|X_POSIX) +([0-9]+) +([a-z]+) +[0-9]+ +([-0-9]+) +([0-9]+) +([0-9.]+) +([0-9.]+)`:
the pattern is anchored at the start of the line and open at its end. -/
def io_event_re (line : Line) : Option EventMatch := do
  let (library, s1) ← libraryGroup (line.dropWhile isSpaceChar)
  let (rank, s2) ← sepField isDigitChar s1
  let (direction, s3) ← sepField isLowerChar s2
  let (_, s4) ← sepField isDigitChar s3
  let (offset, s5) ← sepField isOffsetChar s4
  let (length, s6) ← sepField isDigitChar s5
  let (start_time, s7) ← sepField isTimeChar s6
  let (end_time, _) ← sepField isTimeChar s7
  some ⟨library, rank, direction, offset, length, start_time, end_time⟩

/-- What a call of `parseEventLine` does: it returns `true` with the event filled in,
returns `false`, or leaves by an exception of a conversion. -/
inductive ParseResult where
  | accepted (e : Event)
  | rejected
  | thrown (x : Exn)
deriving DecidableEq, Repr

/-- Whether the call left by an exception. -/
def ParseResult.isThrown : ParseResult → Bool
  | ParseResult.thrown _ => true
  | _ => false

/-- The function `parseEventLine`, in the order of its statements. The test
`re_matches.size() != 8` never holds, the pattern having seven groups. -/
def parseEventLine (line : Line) : ParseResult :=
  match io_event_re line with
  | none => ParseResult.rejected
  | some m =>
    if m.library ≠ "X_POSIX".toList ∧ m.library ≠ "X_MPIIO".toList then ParseResult.rejected
    else
      let api := if m.library = "X_POSIX".toList then API.POSIX else API.MPI
      match stoi m.rank with
      | Except.error x => ParseResult.thrown x
      | Except.ok rank =>
        if m.direction ≠ "read".toList ∧ m.direction ≠ "write".toList then
          ParseResult.rejected
        else
          let mode := if m.direction = "read".toList then Mode.READ else Mode.WRITE
          match stoll m.offset with
          | Except.error x => ParseResult.thrown x
          | Except.ok offset =>
            match stoll m.length with
            | Except.error x => ParseResult.thrown x
            | Except.ok length =>
              match stod m.start_time with
              | Except.error x => ParseResult.thrown x
              | Except.ok start_time =>
                match stod m.end_time with
                | Except.error x => ParseResult.thrown x
                | Except.ok end_time =>
                  ParseResult.accepted ⟨rank, mode, api, offset, length, start_time, end_time⟩

/-- The search of `section_header_re`, `^# DXT, file_id: ([0-9]+), file_name: (.*)$`:
the file id and the file name. The name runs to the end of the line and holds no line
terminator. -/
def section_header_re (line : Line) : Option (Line × Line) := do
  let s1 ← stripLit "# DXT, file_id: ".toList line
  let (file_id, s2) ← plus isDigitChar s1
  let file_name ← stripLit ", file_name: ".toList s2
  if file_name.any isLineTerminator then none else some (file_id, file_name)

/-- The search of `rank_line_re`, `^# DXT, rank: ([0-9]+),`: the rank. -/
def rank_line_re (line : Line) : Option Line := do
  let s1 ← stripLit "# DXT, rank: ".toList line
  let (rank, s2) ← plus isDigitChar s1
  let _ ← stripLit ",".toList s2
  some rank

/-- The table `FileTableType`, an `unordered_map` from file id to `File`: the files, in
the order of their creation. -/
abbrev FileTableType := List File

/-- The lookup `file_table.find(file_id_str)`. -/
def FileTableType.find (file_table : FileTableType) (file_id : String) : Option File :=
  List.find? (fun f => f.id == file_id) file_table

/-- The call `current_file->addEvent(event)` on the file of the given id. `File::addEvent`
is not in the header; the event goes into `File::events`, the `std::set<Event>` of the
header (the statement `current_file->events.insert(*event)` that the call replaced). -/
def FileTableType.addEvent (file_table : FileTableType) (file_id : String) (e : Event) :
    FileTableType :=
  file_table.map
    (fun f => if f.id == file_id then { f with events := EventSetType.insert e f.events } else f)

/-- Where `readDarshanDxtInput` is in its loops: skipping to a section header, looking
for the rank line of the section of `current_file`, or reading the data lines of that
section. -/
inductive Phase where
  | seekHeader
  | seekRank (current_file : String)
  | body (current_file : String)
deriving DecidableEq, Repr

/-- What a run of `readDarshanDxtInput` ends in: its return with the file table filled,
or an exception that ends the program. -/
inductive ReadResult where
  | done (file_table : FileTableType)
  | thrown (x : Exn)
deriving DecidableEq, Repr

/-- The loops of `readDarshanDxtInput` over the lines still to read. Each `getline` takes
the next line; at the end of input every loop is left and the function returns. -/
def readLoop : Phase → FileTableType → List Line → ReadResult
  | _, file_table, [] => ReadResult.done file_table
  -- skip until the beginning of a section is found
  | Phase.seekHeader, file_table, line :: rest =>
    match section_header_re line with
    | none => readLoop Phase.seekHeader file_table rest
    | some (file_id, file_name) =>
      match file_table.find (String.mk file_id) with
      | none =>
        readLoop (Phase.seekRank (String.mk file_id))
          (file_table ++ [⟨String.mk file_id, String.mk file_name, []⟩]) rest
      | some _ => readLoop (Phase.seekRank (String.mk file_id)) file_table rest
  -- find the line with the rank id
  | Phase.seekRank current_file, file_table, line :: rest =>
    match rank_line_re line with
    | none => readLoop (Phase.seekRank current_file) file_table rest
    | some rank =>
      match stoi rank with
      | Except.error x => ReadResult.thrown x
      | Except.ok _ => readLoop (Phase.body current_file) file_table rest
  -- read until a blank line at the end of the section or EOF
  | Phase.body current_file, file_table, line :: rest =>
    if line.length = 0 then readLoop Phase.seekHeader file_table rest
    else if line.head? = some '#' then readLoop (Phase.body current_file) file_table rest
    else
      match parseEventLine line with
      | ParseResult.thrown x => ReadResult.thrown x
      | ParseResult.rejected => readLoop (Phase.body current_file) file_table rest
      | ParseResult.accepted e =>
        readLoop (Phase.body current_file) (file_table.addEvent current_file e) rest

/-- The function `readDarshanDxtInput(in, file_table)` on the lines of the input. -/
def readDarshanDxtInput (input : List Line) (file_table : FileTableType) : ReadResult :=
  readLoop Phase.seekHeader file_table input

/-- A run of `n` spaces. -/
def spaces (n : Nat) : Line := List.replicate n ' '

/-- A non-negative decimal integer as written in a trace: a non-empty string of digits. -/
def IsNumber (x : Line) : Prop := x ≠ [] ∧ ∀ c ∈ x, isDigitChar c = true

instance (x : Line) : Decidable (IsNumber x) := by
  unfold IsNumber; exact inferInstance

/-- The text of a non-negative decimal number: integer digits, with or without a
fraction `.digits`. -/
def decimalText (ds : Line) (fs : Option Line) : Line :=
  match fs with
  | none => ds
  | some f => ds ++ '.' :: f

/-- The value of the decimal number `decimalText ds fs`. -/
def decimalValue (ds : Line) (fs : Option Line) : ℚ :=
  mkRat (natOfDigits (ds ++ fs.getD [])) (10 ^ (fs.getD []).length)

/-- The `double` nearest to the decimal number `decimalText ds fs`, or the exception of
`std::stod` when the number is outside of the range of `double`. -/
def decimalDouble (ds : Line) (fs : Option Line) : Except Exn ℚ :=
  doubleOfRatio (natOfDigits (ds ++ fs.getD [])) (10 ^ (fs.getD []).length)

/-- A value in the range that every `strtod` converts without a range error: zero, or at
least the smallest normal double `2 ^ (-1022)`; and below `2 ^ 1024 - 2 ^ 970`, the
midpoint between the largest double and `2 ^ 1024`. -/
def InDoubleRange (q : ℚ) : Prop :=
  (q = 0 ∨ (2 : ℚ) ^ (-1022 : Int) ≤ q) ∧ q < (2 : ℚ) ^ (1024 : Int) - (2 : ℚ) ^ (970 : Int)

/-- The number `t` is the double nearest to the value `q` of `InDoubleRange`: zero for
zero; else, with `2 ^ (p + 52) ≤ q < 2 ^ (p + 53)`, so that `2 ^ p` is the spacing of the
doubles of the binade of `q`, a multiple `m * 2 ^ p` within half a spacing of `q`, with `m`
even on a tie, and finite. -/
def IsNearestDouble (q t : ℚ) : Prop :=
  (q = 0 ∧ t = 0)
    ∨ ∃ (m : Nat) (p : Int), -1074 ≤ p ∧ p ≤ 971
        ∧ (2 : ℚ) ^ (p + 52) ≤ q ∧ q < (2 : ℚ) ^ (p + 53)
        ∧ t = (m : ℚ) * 2 ^ p
        ∧ 2 * |t - q| ≤ 2 ^ p
        ∧ (2 * |t - q| = 2 ^ p → m % 2 = 0)
        ∧ t < (2 : ℚ) ^ (1024 : Int)

/-- The name of a library in a data line. -/
def libraryText (posix : Bool) : Line :=
  if posix then "X_POSIX".toList else "X_MPIIO".toList

/-- The name of an access kind in a data line. -/
def directionText (read : Bool) : Line :=
  if read then "read".toList else "write".toList

/-- A data line `<library> <rank> <read|write> <segment> <offset> <length> <start_time>
<end_time>`: `lead` leading spaces, the fields separated by `g + 1` spaces, and the text
`tail` after the last field. -/
def dataLine (lead : Nat) (library rank direction segment offset length t0 t1 : Line)
    (g1 g2 g3 g4 g5 g6 g7 : Nat) (tail : Line) : Line :=
  spaces lead ++ (library ++ (spaces (g1 + 1) ++ (rank ++ (spaces (g2 + 1) ++ (direction
    ++ (spaces (g3 + 1) ++ (segment ++ (spaces (g4 + 1) ++ (offset ++ (spaces (g5 + 1)
    ++ (length ++ (spaces (g6 + 1) ++ (t0 ++ (spaces (g7 + 1) ++ (t1 ++ tail)))))))))))))))

/-- A section header and rank line of a file with id 1 and name `a`, for the examples. -/
def headerOne : List Line :=
  ["# DXT, file_id: 1, file_name: a".toList, "# DXT, rank: 0, hostname: h".toList]

/-- A well-formed data line: rank 0 writes 100 bytes at offset 0 from 1.0 s to 2.0 s. -/
def goodLine : Line := " X_POSIX 0 write 0 0 100 1.0 2.0".toList

/-- The event of `goodLine`. -/
def goodEvent : Event := ⟨0, Mode.WRITE, API.POSIX, 0, 100, 1, 2⟩

/-- One section of a trace: the file id and name of its header line, the lines between
the header and the rank line, the rank and the rest of the rank line, and the lines from
the rank line to the blank line that ends the section. -/
structure TraceSection where
  file_id : Line
  file_name : Line
  metadata : List Line
  rank : Line
  rank_rest : Line
  body : List Line
deriving DecidableEq, Repr

/-- The header line of a section. -/
def TraceSection.headerLine (s : TraceSection) : Line :=
  "# DXT, file_id: ".toList ++ (s.file_id ++ (", file_name: ".toList ++ s.file_name))

/-- The rank line of a section. -/
def TraceSection.rankLine (s : TraceSection) : Line :=
  "# DXT, rank: ".toList ++ (s.rank ++ (",".toList ++ s.rank_rest))

/-- The lines of a section, the blank line that ends it included. -/
def TraceSection.lines (s : TraceSection) : List Line :=
  s.headerLine :: (s.metadata ++ (s.rankLine :: (s.body ++ [[]])))

/-- A section as the trace format has it: the file id is a number, the file name holds no
line terminator, the lines between the header and the rank line are `#` lines that are
neither a section header nor a rank line, the rank is a number that fits an `int`, and
each body line is non-empty, is no section header, and is a `#` line or a line on which
`parseEventLine` returns. -/
def TraceSection.WellFormed (s : TraceSection) : Prop :=
  IsNumber s.file_id
    ∧ (∀ c ∈ s.file_name, isLineTerminator c = false)
    ∧ (∀ l ∈ s.metadata,
        l.head? = some '#' ∧ section_header_re l = none ∧ rank_line_re l = none)
    ∧ IsNumber s.rank ∧ (natOfDigits s.rank : Int) ≤ 2 ^ 31 - 1
    ∧ ∀ l ∈ s.body, l ≠ [] ∧ section_header_re l = none
        ∧ (l.head? = some '#' ∨ (parseEventLine l).isThrown = false)

instance (s : TraceSection) : Decidable s.WellFormed := by
  unfold TraceSection.WellFormed; exact inferInstance

/-- The lines of a trace made of sections. -/
def traceLines : List TraceSection → List Line
  | [] => []
  | s :: rest => s.lines ++ traceLines rest

/-- The events of the data lines among the body lines of a section, in order. -/
def bodyEvents : List Line → List Event
  | [] => []
  | l :: rest =>
    if l.head? = some '#' then bodyEvents rest
    else
      match parseEventLine l with
      | ParseResult.accepted e => e :: bodyEvents rest
      | _ => bodyEvents rest

/-- The file table after the events `evs` were added, in order, to the file of an id. -/
def addEvents (file_table : FileTableType) (file_id : String) (evs : List Event) :
    FileTableType :=
  evs.foldl (fun t e => t.addEvent file_id e) file_table

/-- The file table after a lookup of the id that creates the file when it is absent. -/
def ensureFile (file_table : FileTableType) (file_id file_name : String) : FileTableType :=
  match file_table.find file_id with
  | none => file_table ++ [⟨file_id, file_name, []⟩]
  | some _ => file_table

/-- The effect of one section on the file table. -/
def applySection (file_table : FileTableType) (s : TraceSection) : FileTableType :=
  addEvents (ensureFile file_table (String.mk s.file_id) (String.mk s.file_name))
    (String.mk s.file_id) (bodyEvents s.body)

/-- The events of the sections of a file id, in the order of the trace. -/
def eventsOfId (secs : List TraceSection) (file_id : String) : List Event :=
  match secs with
  | [] => []
  | s :: rest =>
    if String.mk s.file_id = file_id then bodyEvents s.body ++ eventsOfId rest file_id
    else eventsOfId rest file_id

/-- The name in the first section of a file id. -/
def firstName (secs : List TraceSection) (file_id : String) : Option String :=
  match secs with
  | [] => none
  | s :: rest =>
    if String.mk s.file_id = file_id then some (String.mk s.file_name)
    else firstName rest file_id

/-- A trace of three sections: two of file id 1, under the names `a` and `b`, and one of
file id 2 under the name `a`. -/
def threeSections : List TraceSection :=
  [⟨"1".toList, "a".toList, [], "0".toList, " hostname: h".toList,
      [" X_POSIX 0 write 0 0 100 1.0 2.0".toList]⟩,
   ⟨"1".toList, "b".toList, ["# DXT, write_count: 1, read_count: 0".toList], "1".toList,
      " hostname: h".toList,
      ["# Module    Rank  Wt/Rd".toList, " X_POSIX 1 write 0 50 100 1.5 2.5".toList]⟩,
   ⟨"2".toList, "a".toList, [], "0".toList, " hostname: h".toList,
      [" X_MPIIO 0 read 0 0 10 3.0 4.0".toList]⟩]

/-! Ranges of the machine integers. -/

/-- An integer that an `int64_t` holds. -/
def IsInt64 (x : Int) : Prop := -(2 ^ 63) ≤ x ∧ x ≤ 2 ^ 63 - 1

instance (x : Int) : Decidable (IsInt64 x) := by
  unfold IsInt64; exact inferInstance

/-- An integer that an `int` holds; `Event::block_size` is an `int`. -/
def IsInt32 (x : Int) : Prop := -(2 ^ 31) ≤ x ∧ x ≤ 2 ^ 31 - 1

instance (x : Int) : Decidable (IsInt32 x) := by
  unfold IsInt32; exact inferInstance

/-- The arithmetic of `Event::overlaps` on the event stays within `int64_t`: its offset,
its length and the sum `offset + length` are `int64_t` values. -/
def Event.InRange (e : Event) : Prop :=
  IsInt64 e.offset ∧ IsInt64 e.length ∧ IsInt64 (e.offset + e.length)

instance (e : Event) : Decidable e.InRange := by
  unfold Event.InRange; exact inferInstance

/-- The arithmetic of `Event::overlapsBlocks` on the event stays within `int64_t` under the
block size `b`, an `int`: beyond `InRange`, the last byte `offset + length - 1`, the sum
`blockStart + block_size` that `blockEnd` forms for it, and its quantized end are
`int64_t` values. -/
def Event.InBlockRange (b : Int) (e : Event) : Prop :=
  IsInt32 b ∧ e.InRange ∧ IsInt64 (e.offset + e.length - 1)
    ∧ IsInt64 (Event.blockStart b (e.offset + e.length - 1) + b)
    ∧ IsInt64 (Event.blockEnd b (e.offset + e.length - 1))

instance (b : Int) (e : Event) : Decidable (e.InBlockRange b) := by
  unfold Event.InBlockRange; exact inferInstance

/-- The value that two's-complement `int64_t` arithmetic gives for the integer `x`: `x`
itself within the range, wrapped around outside of it. Signed overflow is undefined
behaviour in C++; wrapping around is what the usual targets do. The definitions with
`Machine` in their name evaluate the source in this arithmetic, to show what the range
hypotheses exclude. -/
def wrapInt64 (x : Int) : Int := (x + 2 ^ 63) % 2 ^ 64 - 2 ^ 63

/-- The method `Event::overlaps` with every sum taken in `int64_t`. -/
def Event.overlapsMachine (a other : Event) : Bool :=
  decide (a.offset < wrapInt64 (other.offset + other.length))
    && decide (wrapInt64 (a.offset + a.length) > other.offset)

/-- The function `Event::blockStart` with the difference taken in `int64_t`. -/
def Event.blockStartMachine (b : Int) (offset : Int) : Int :=
  wrapInt64 (offset - Int.tmod offset b)

/-- The function `Event::blockEnd` with the sum and the difference taken in `int64_t`. -/
def Event.blockEndMachine (b : Int) (offset : Int) : Int :=
  wrapInt64 (wrapInt64 (Event.blockStartMachine b offset + b) - 1)

/-- The method `Event::overlapsBlocks` with every sum and difference taken in `int64_t`. -/
def Event.overlapsBlocksMachine (b : Int) (a other : Event) : Bool :=
  let this_start := Event.blockStartMachine b a.offset
  let this_end := Event.blockEndMachine b (wrapInt64 (wrapInt64 (a.offset + a.length) - 1))
  let other_start := Event.blockStartMachine b other.offset
  let other_end :=
    Event.blockEndMachine b (wrapInt64 (wrapInt64 (other.offset + other.length) - 1))
  decide (this_start < other_end) && decide (this_end > other_start)

end Dxt

namespace Dxt

/-! ## The raw overlap predicate -/

theorem overlaps_iff (a o : Event) :
    a.overlaps o = true ↔ a.offset < o.offset + o.length ∧ a.offset + a.length > o.offset := by
  simp [Event.overlaps]

theorem overlaps_comm (a o : Event) : a.overlaps o = o.overlaps a := by
  rw [Bool.eq_iff_iff, overlaps_iff, overlaps_iff]
  constructor <;> rintro ⟨h1, h2⟩ <;> exact ⟨h2, h1⟩

/-- C3: for events of positive length whose `offset + length` is an `int64_t` value, so
that the sums of the source do not overflow, `Event::overlaps` holds exactly when the
half-open byte ranges `[offset, offset+length)` share a byte position. -/
theorem overlaps_iff_common_byte (A B : Event) (hA : 0 < A.length) (hB : 0 < B.length)
    (hAr : A.InRange) (hBr : B.InRange) :
    A.overlaps B = true ↔
      ∃ x : Int, (A.offset ≤ x ∧ x < A.offset + A.length)
        ∧ (B.offset ≤ x ∧ x < B.offset + B.length) := by
  rw [overlaps_iff]
  constructor
  · rintro ⟨h1, h2⟩
    refine ⟨max A.offset B.offset, ⟨le_max_left _ _, ?_⟩, ⟨le_max_right _ _, ?_⟩⟩
    · rcases max_cases A.offset B.offset with ⟨h, _⟩ | ⟨h, _⟩ <;> rw [h] <;> omega
    · rcases max_cases A.offset B.offset with ⟨h, _⟩ | ⟨h, _⟩ <;> rw [h] <;> omega
  · rintro ⟨x, ⟨h1, h2⟩, ⟨h3, h4⟩⟩
    constructor <;> omega

/-- The examples of C3: `[0,100)` and `[50,150)` overlap and share byte 50, `[0,100)` and
`[200,300)` do not overlap, the adjacent `[0,100)` and `[100,200)` do not overlap. -/
theorem overlaps_iff_common_byte_witness :
    ((bytes 0 0 100).overlaps (bytes 1 50 100) = true ↔
      ∃ x : Int, ((bytes 0 0 100).offset ≤ x ∧ x < (bytes 0 0 100).offset + (bytes 0 0 100).length)
        ∧ ((bytes 1 50 100).offset ≤ x
          ∧ x < (bytes 1 50 100).offset + (bytes 1 50 100).length))
    ∧ (bytes 0 0 100).overlaps (bytes 1 50 100) = true
    ∧ (bytes 0 0 100).overlaps (bytes 1 200 100) = false
    ∧ (bytes 0 0 100).overlaps (bytes 1 100 100) = false :=
  ⟨overlaps_iff_common_byte (bytes 0 0 100) (bytes 1 50 100) (by decide) (by decide)
      (by decide) (by decide),
    by decide, by decide, by decide⟩

/-- C4: the raw overlap predicate is symmetric, for any offsets and lengths. -/
theorem overlaps_symmetric (A B : Event) : A.overlaps B = B.overlaps A :=
  overlaps_comm A B

/-- C5 as stated fails: the empty range at offset 5 and the range `[0,10)` overlap, in
both argument orders. -/
theorem overlaps_empty_counterexample :
    (bytes 0 5 0).length = 0
      ∧ (bytes 0 5 0).overlaps (bytes 1 0 10) = true
      ∧ (bytes 1 0 10).overlaps (bytes 0 5 0) = true := by
  decide

/-- C5 amended: for an event `Z` of length 0, `overlaps(Z, B)` and `overlaps(B, Z)` agree
and hold exactly when the offset of `Z` lies strictly inside the range of `B`
(`B.offset < Z.offset < B.offset + B.length`); otherwise both are false. -/
theorem overlaps_empty (Z B : Event) (hZ : Z.length = 0) :
    (Z.overlaps B = true ↔ B.offset < Z.offset ∧ Z.offset < B.offset + B.length)
      ∧ B.overlaps Z = Z.overlaps B := by
  refine ⟨?_, overlaps_comm B Z⟩
  rw [overlaps_iff]
  constructor <;> rintro ⟨h1, h2⟩ <;> constructor <;> omega

/-- The amended C5 at the empty range at offset 0 against `[0,10)`: no overlap. -/
theorem overlaps_empty_witness :
    ((bytes 0 0 0).overlaps (bytes 1 0 10) = true ↔
        (bytes 1 0 10).offset < (bytes 0 0 0).offset
          ∧ (bytes 0 0 0).offset < (bytes 1 0 10).offset + (bytes 1 0 10).length)
      ∧ (bytes 1 0 10).overlaps (bytes 0 0 0) = (bytes 0 0 0).overlaps (bytes 1 0 10) :=
  overlaps_empty (bytes 0 0 0) (bytes 1 0 10) rfl

/-! ## Block quantization -/

theorem blockStart_eq_emod {b x : Int} (hb : 1 ≤ b) (hx : 0 ≤ x) :
    Event.blockStart b x = x - x % b := by
  unfold Event.blockStart
  rw [Int.tmod_eq_emod hx (by omega)]

theorem blockStart_eq_mul_ediv {b x : Int} (hb : 1 ≤ b) (hx : 0 ≤ x) :
    Event.blockStart b x = b * (x / b) := by
  rw [blockStart_eq_emod hb hx, Int.emod_def]
  ring

theorem blockEnd_eq_mul_ediv {b x : Int} (hb : 1 ≤ b) (hx : 0 ≤ x) :
    Event.blockEnd b x = b * (x / b) + b - 1 := by
  unfold Event.blockEnd
  rw [blockStart_eq_mul_ediv hb hx]

theorem mul_ediv_le {b : Int} (hb : 1 ≤ b) (x : Int) : b * (x / b) ≤ x := by
  have h := Int.emod_nonneg x (show b ≠ 0 by omega)
  have h2 := Int.emod_def x b
  omega

theorem lt_mul_ediv_add {b : Int} (hb : 1 ≤ b) (x : Int) : x < b * (x / b) + b := by
  have h := Int.emod_lt_of_pos x (show 0 < b by omega)
  have h2 := Int.emod_def x b
  omega

/-- C9: for a block size `b ≥ 1` of `int` and an offset `x ≥ 0` of `int64_t` for which
the sum `blockStart(x) + b` that `blockEnd` forms is an `int64_t` value, `blockStart(x)` is the
largest multiple of `b` that is at most `x`, `blockEnd(x) = blockStart(x) + b - 1` is at
least `x`, `blockEnd(x) + 1` is a multiple of `b`, and `x - blockStart(x) < b`; both
results are `int64_t` values. -/
theorem blockStart_blockEnd_round_outward (b x : Int) (hb : 1 ≤ b) (hx : 0 ≤ x)
    (hbr : IsInt32 b) (hxr : IsInt64 x) (hsum : IsInt64 (Event.blockStart b x + b)) :
    (IsInt64 (Event.blockStart b x) ∧ IsInt64 (Event.blockEnd b x))
      ∧ (b ∣ Event.blockStart b x ∧ Event.blockStart b x ≤ x
        ∧ ∀ m : Int, b ∣ m → m ≤ x → m ≤ Event.blockStart b x)
      ∧ Event.blockEnd b x = Event.blockStart b x + b - 1
      ∧ x ≤ Event.blockEnd b x
      ∧ b ∣ Event.blockEnd b x + 1
      ∧ x - Event.blockStart b x < b := by
  have h1 := mul_ediv_le hb x
  have h2 := lt_mul_ediv_add hb x
  have hs := blockStart_eq_mul_ediv hb hx
  have he := blockEnd_eq_mul_ediv hb hx
  have h0 : 0 ≤ b * (x / b) :=
    Int.mul_nonneg (by omega) (Int.ediv_nonneg hx (by omega))
  refine ⟨?_, ⟨?_, ?_, ?_⟩, rfl, ?_, ?_, ?_⟩
  · unfold IsInt64 at hxr hsum ⊢
    rw [he]
    rw [hs] at hsum ⊢
    constructor <;> constructor <;> omega
  · rw [hs]; exact Dvd.intro _ rfl
  · omega
  · rintro m ⟨c, rfl⟩ hm
    rw [hs]
    have hc : c ≤ x / b := by
      rw [Int.le_ediv_iff_mul_le (by omega)]
      linarith [mul_comm b c]
    exact Int.mul_le_mul_of_nonneg_left hc (by omega)
  · omega
  · rw [he]
    exact ⟨x / b + 1, by ring⟩
  · omega

/-- C9 at block size 100 and offset 250: the block is `200..299`. -/
theorem blockStart_blockEnd_round_outward_witness :
    ((IsInt64 (Event.blockStart 100 250) ∧ IsInt64 (Event.blockEnd 100 250))
      ∧ ((100 : Int) ∣ Event.blockStart 100 250 ∧ Event.blockStart 100 250 ≤ 250
        ∧ ∀ m : Int, (100 : Int) ∣ m → m ≤ 250 → m ≤ Event.blockStart 100 250)
      ∧ Event.blockEnd 100 250 = Event.blockStart 100 250 + 100 - 1
      ∧ 250 ≤ Event.blockEnd 100 250
      ∧ (100 : Int) ∣ Event.blockEnd 100 250 + 1
      ∧ 250 - Event.blockStart 100 250 < 100)
    ∧ Event.blockStart 100 250 = 200 ∧ Event.blockEnd 100 250 = 299 :=
  ⟨blockStart_blockEnd_round_outward 100 250 (by decide) (by decide) (by decide) (by decide)
      (by decide),
    by decide, by decide⟩

/-! ## The range hypotheses and the machine arithmetic -/

theorem wrapInt64_eq {x : Int} (h : IsInt64 x) : wrapInt64 x = x := by
  unfold IsInt64 at h
  unfold wrapInt64
  omega

/-- Under `Event.InRange` the sums of `Event::overlaps` do not overflow: the test in
`int64_t` is the test on the integers. -/
theorem overlapsMachine_eq (A B : Event) (hA : A.InRange) (hB : B.InRange) :
    A.overlapsMachine B = A.overlaps B := by
  unfold Event.overlapsMachine Event.overlaps
  rw [wrapInt64_eq hA.2.2, wrapInt64_eq hB.2.2]

/-- Without the range hypothesis the test in `int64_t` differs: the byte at offset
`2 ^ 63 - 2` and the four bytes from that offset have a byte in common, and the sum
`offset + length` of the second wraps around. -/
theorem overlapsMachine_overflow :
    Event.overlaps ⟨0, Mode.WRITE, API.POSIX, 2 ^ 63 - 2, 1, 0, 0⟩
        ⟨1, Mode.WRITE, API.POSIX, 2 ^ 63 - 2, 4, 0, 0⟩ = true
      ∧ Event.overlapsMachine ⟨0, Mode.WRITE, API.POSIX, 2 ^ 63 - 2, 1, 0, 0⟩
        ⟨1, Mode.WRITE, API.POSIX, 2 ^ 63 - 2, 4, 0, 0⟩ = false := by
  decide

theorem blockStartMachine_eq (b x : Int) (hb : 1 ≤ b) (hx : 0 ≤ x) (hxr : IsInt64 x) :
    Event.blockStartMachine b x = Event.blockStart b x := by
  have h1 := mul_ediv_le hb x
  have h0 : 0 ≤ b * (x / b) := Int.mul_nonneg (by omega) (Int.ediv_nonneg hx (by omega))
  have hs := blockStart_eq_mul_ediv hb hx
  unfold Event.blockStartMachine
  have : Event.blockStart b x = x - Int.tmod x b := rfl
  rw [← this]
  apply wrapInt64_eq
  unfold IsInt64 at hxr ⊢
  rw [hs]
  omega

theorem blockEndMachine_eq (b x : Int) (hb : 1 ≤ b) (hx : 0 ≤ x) (hxr : IsInt64 x)
    (hsum : IsInt64 (Event.blockStart b x + b)) :
    Event.blockEndMachine b x = Event.blockEnd b x := by
  have h0 : 0 ≤ b * (x / b) := Int.mul_nonneg (by omega) (Int.ediv_nonneg hx (by omega))
  have hs := blockStart_eq_mul_ediv hb hx
  unfold Event.blockEndMachine Event.blockEnd
  rw [blockStartMachine_eq b x hb hx hxr, wrapInt64_eq hsum]
  apply wrapInt64_eq
  unfold IsInt64 at hsum ⊢
  rw [hs] at hsum ⊢
  omega

/-- Under `Event.InBlockRange` no sum or difference of `Event::overlapsBlocks` overflows:
for a block size of at least 1 and events with offset at least 0 and positive length, the
test in `int64_t` is the test on the integers. -/
theorem overlapsBlocksMachine_eq (b : Int) (A B : Event) (hb : 1 ≤ b)
    (hAo : 0 ≤ A.offset) (hAl : 0 < A.length) (hBo : 0 ≤ B.offset) (hBl : 0 < B.length)
    (hA : A.InBlockRange b) (hB : B.InBlockRange b) :
    Event.overlapsBlocksMachine b A B = Event.overlapsBlocks b A B := by
  obtain ⟨_, ⟨hA1, _, hA2⟩, hA3, hA4, _⟩ := hA
  obtain ⟨_, ⟨hB1, _, hB2⟩, hB3, hB4, _⟩ := hB
  unfold Event.overlapsBlocksMachine Event.overlapsBlocks
  simp only []
  rw [wrapInt64_eq hA2, wrapInt64_eq hA3, wrapInt64_eq hB2, wrapInt64_eq hB3,
    blockStartMachine_eq b A.offset hb hAo hA1, blockStartMachine_eq b B.offset hb hBo hB1,
    blockEndMachine_eq b _ hb (by omega) hA3 hA4,
    blockEndMachine_eq b _ hb (by omega) hB3 hB4]

/-- Without the range hypothesis the block test in `int64_t` differs: with block size 3
the four bytes from offset `2 ^ 63 - 5` end in the block whose end is `2 ^ 63`, so that the
sum of `blockEnd` wraps around and the overlap with the byte at `2 ^ 63 - 4` is missed. -/
theorem overlapsBlocksMachine_overflow :
    Event.overlapsBlocks 3 ⟨0, Mode.WRITE, API.POSIX, 2 ^ 63 - 5, 4, 0, 0⟩
        ⟨1, Mode.WRITE, API.POSIX, 2 ^ 63 - 4, 1, 0, 0⟩ = true
      ∧ Event.overlapsBlocksMachine 3 ⟨0, Mode.WRITE, API.POSIX, 2 ^ 63 - 5, 4, 0, 0⟩
        ⟨1, Mode.WRITE, API.POSIX, 2 ^ 63 - 4, 1, 0, 0⟩ = false := by
  decide

theorem mul_lt_mul_add_iff {b : Int} (hb : 1 < b) (k m : Int) :
    b * k < b * m + b - 1 ↔ k ≤ m := by
  constructor
  · intro h
    by_contra hc
    have hk : m + 1 ≤ k := by omega
    have := Int.mul_le_mul_of_nonneg_left hk (show 0 ≤ b by omega)
    rw [mul_add, mul_one] at this
    omega
  · intro h
    have := Int.mul_le_mul_of_nonneg_left h (show 0 ≤ b by omega)
    omega

theorem mul_le_mul_add_iff {b : Int} (hb : 1 ≤ b) (k m : Int) :
    b * k ≤ b * m + b - 1 ↔ k ≤ m := by
  constructor
  · intro h
    by_contra hc
    have hk : m + 1 ≤ k := by omega
    have := Int.mul_le_mul_of_nonneg_left hk (show 0 ≤ b by omega)
    rw [mul_add, mul_one] at this
    omega
  · intro h
    have := Int.mul_le_mul_of_nonneg_left h (show 0 ≤ b by omega)
    omega

/-- For a block size above 1, `overlapsBlocks` compares block indices: the first block of
each event is at or before the last block of the other. -/
theorem overlapsBlocks_iff_index {b : Int} (hb : 1 < b) (A B : Event)
    (hA : 0 ≤ A.offset) (hAl : 0 < A.length) (hB : 0 ≤ B.offset) (hBl : 0 < B.length) :
    A.overlapsBlocks b B = true ↔
      A.offset / b ≤ (B.offset + B.length - 1) / b
        ∧ B.offset / b ≤ (A.offset + A.length - 1) / b := by
  have hb1 : 1 ≤ b := by omega
  simp only [Event.overlapsBlocks, Bool.and_eq_true, decide_eq_true_eq, gt_iff_lt]
  rw [blockStart_eq_mul_ediv hb1 hA, blockStart_eq_mul_ediv hb1 hB,
    blockEnd_eq_mul_ediv hb1 (show 0 ≤ A.offset + A.length - 1 by omega),
    blockEnd_eq_mul_ediv hb1 (show 0 ≤ B.offset + B.length - 1 by omega),
    mul_lt_mul_add_iff hb, mul_lt_mul_add_iff hb]

/-- At block size 1 the quantized ranges are the inclusive byte ranges, which
`overlapsBlocks` compares strictly. -/
theorem overlapsBlocks_one (A B : Event) :
    A.overlapsBlocks 1 B = true ↔
      A.offset < B.offset + B.length - 1 ∧ B.offset < A.offset + A.length - 1 := by
  simp [Event.overlapsBlocks, Event.blockStart, Event.blockEnd]

theorem index_le_of_overlaps {b : Int} (hb : 1 ≤ b) (A B : Event)
    (h : A.overlaps B = true) :
    A.offset / b ≤ (B.offset + B.length - 1) / b := by
  rw [overlaps_iff] at h
  exact Int.ediv_le_ediv (by omega) (by omega)

/-- For a block size above 1, a raw overlap is a block overlap. -/
theorem overlapsBlocks_of_overlaps {b : Int} (hb : 1 < b) (A B : Event)
    (hA : 0 ≤ A.offset) (hAl : 0 < A.length) (hB : 0 ≤ B.offset) (hBl : 0 < B.length)
    (h : A.overlaps B = true) : A.overlapsBlocks b B = true := by
  rw [overlapsBlocks_iff_index hb A B hA hAl hB hBl]
  exact ⟨index_le_of_overlaps (by omega) A B h,
    index_le_of_overlaps (by omega) B A (by rw [overlaps_comm]; exact h)⟩

/-- C6 fails at the default block size 1: two accesses of the single byte 0 raw-overlap
but `overlapsBlocks` is false, and so it is for `[0,2)` and `[1,3)`, which share byte 1. -/
theorem overlapsBlocks_misses_overlap_at_block_size_one :
    ((bytes 0 0 1).overlaps (bytes 1 0 1) = true
        ∧ (bytes 0 0 1).overlapsBlocks 1 (bytes 1 0 1) = false)
      ∧ ((bytes 0 0 2).overlaps (bytes 1 1 2) = true
        ∧ (bytes 0 0 2).overlapsBlocks 1 (bytes 1 1 2) = false) := by
  decide

/-- C7: for a block size above 1 and events of non-negative offset and positive length
whose quantized end is an `int64_t` value, so that the sums of the source do not
overflow, `Event::overlapsBlocks` holds exactly when the inclusive quantized ranges
`[blockStart(offset), blockEnd(offset+length-1)]` share a byte, and exactly when some
block holds a byte of each access. -/
theorem overlapsBlocks_iff_common_block (b : Int) (A B : Event) (hb : 1 < b)
    (hA : 0 ≤ A.offset) (hAl : 0 < A.length) (hB : 0 ≤ B.offset) (hBl : 0 < B.length)
    (hAr : A.InBlockRange b) (hBr : B.InBlockRange b) :
    (A.overlapsBlocks b B = true ↔
        ∃ x : Int,
          (Event.blockStart b A.offset ≤ x ∧ x ≤ Event.blockEnd b (A.offset + A.length - 1))
          ∧ (Event.blockStart b B.offset ≤ x
            ∧ x ≤ Event.blockEnd b (B.offset + B.length - 1)))
      ∧ (A.overlapsBlocks b B = true ↔
        ∃ k : Int,
          (∃ x : Int, A.offset ≤ x ∧ x < A.offset + A.length ∧ x / b = k)
          ∧ (∃ y : Int, B.offset ≤ y ∧ y < B.offset + B.length ∧ y / b = k)) := by
  have hb1 : 1 ≤ b := by omega
  have hb0 : 0 < b := by omega
  have hAe : 0 ≤ A.offset + A.length - 1 := by omega
  have hBe : 0 ≤ B.offset + B.length - 1 := by omega
  have hkA : A.offset / b ≤ (A.offset + A.length - 1) / b :=
    Int.ediv_le_ediv hb0 (by omega)
  have hkB : B.offset / b ≤ (B.offset + B.length - 1) / b :=
    Int.ediv_le_ediv hb0 (by omega)
  constructor
  · rw [overlapsBlocks_iff_index hb A B hA hAl hB hBl, blockStart_eq_mul_ediv hb1 hA,
      blockStart_eq_mul_ediv hb1 hB, blockEnd_eq_mul_ediv hb1 hAe,
      blockEnd_eq_mul_ediv hb1 hBe]
    constructor
    · rintro ⟨h1, h2⟩
      have e1 := (mul_le_mul_add_iff hb1 _ _).2 h1
      have e2 := (mul_le_mul_add_iff hb1 _ _).2 h2
      have e3 := (mul_le_mul_add_iff hb1 _ _).2 hkA
      have e4 := (mul_le_mul_add_iff hb1 _ _).2 hkB
      rcases le_total (b * (A.offset / b)) (b * (B.offset / b)) with h | h
      · exact ⟨b * (B.offset / b), ⟨h, e2⟩, ⟨le_refl _, e4⟩⟩
      · exact ⟨b * (A.offset / b), ⟨le_refl _, e3⟩, ⟨h, e1⟩⟩
    · rintro ⟨x, ⟨h1, h2⟩, ⟨h3, h4⟩⟩
      exact ⟨(mul_le_mul_add_iff hb1 _ _).1 (le_trans h1 h4),
        (mul_le_mul_add_iff hb1 _ _).1 (le_trans h3 h2)⟩
  · rw [overlapsBlocks_iff_index hb A B hA hAl hB hBl]
    constructor
    · rintro ⟨h1, h2⟩
      -- the later of the two first blocks is touched by both accesses
      have key : ∀ (o l k : Int), 0 < l → o / b ≤ k → k ≤ (o + l - 1) / b →
          ∃ x : Int, o ≤ x ∧ x < o + l ∧ x / b = k := by
        intro o l k hl hk1 hk2
        have a1 := mul_ediv_le hb1 (o + l - 1)
        have a2 := lt_mul_ediv_add hb1 o
        have a3 := Int.mul_le_mul_of_nonneg_left hk1 (show 0 ≤ b by omega)
        have a4 := Int.mul_le_mul_of_nonneg_left hk2 (show 0 ≤ b by omega)
        refine ⟨max o (b * k), le_max_left _ _, ?_, ?_⟩
        · rcases max_cases o (b * k) with ⟨h, _⟩ | ⟨h, _⟩ <;> rw [h] <;> omega
        · apply le_antisymm
          · have : max o (b * k) < (k + 1) * b := by
              rcases max_cases o (b * k) with ⟨h, _⟩ | ⟨h, _⟩ <;> rw [h] <;> linarith
            have := (Int.ediv_lt_iff_lt_mul hb0).2 this
            omega
          · rw [Int.le_ediv_iff_mul_le hb0]
            linarith [le_max_right o (b * k)]
      rcases le_total (A.offset / b) (B.offset / b) with h | h
      · refine ⟨B.offset / b, key A.offset A.length _ hAl h h2,
          key B.offset B.length _ hBl (le_refl _) hkB⟩
      · refine ⟨A.offset / b, key A.offset A.length _ hAl (le_refl _) hkA,
          key B.offset B.length _ hBl h h1⟩
    · rintro ⟨k, ⟨x, hx1, hx2, hxk⟩, ⟨y, hy1, hy2, hyk⟩⟩
      have m1 : A.offset / b ≤ x / b := Int.ediv_le_ediv hb0 hx1
      have m2 : x / b ≤ (A.offset + A.length - 1) / b := Int.ediv_le_ediv hb0 (by omega)
      have m3 : B.offset / b ≤ y / b := Int.ediv_le_ediv hb0 hy1
      have m4 : y / b ≤ (B.offset + B.length - 1) / b := Int.ediv_le_ediv hb0 (by omega)
      constructor <;> omega

/-- C7 at block size 100: `[0,4)` and `[96,100)` do not raw-overlap but block-overlap,
and the common quantized range is `[0,99]`. -/
theorem overlapsBlocks_iff_common_block_witness :
    ((bytes 0 0 4).overlaps (bytes 1 96 4) = false
      ∧ (bytes 0 0 4).overlapsBlocks 100 (bytes 1 96 4) = true
      ∧ max (Event.blockStart 100 (bytes 0 0 4).offset)
          (Event.blockStart 100 (bytes 1 96 4).offset) = 0
      ∧ min (Event.blockEnd 100 ((bytes 0 0 4).offset + (bytes 0 0 4).length - 1))
          (Event.blockEnd 100 ((bytes 1 96 4).offset + (bytes 1 96 4).length - 1)) = 99)
    ∧ ∃ k : Int,
        (∃ x : Int, (bytes 0 0 4).offset ≤ x ∧ x < (bytes 0 0 4).offset + (bytes 0 0 4).length
          ∧ x / 100 = k)
        ∧ (∃ y : Int, (bytes 1 96 4).offset ≤ y
          ∧ y < (bytes 1 96 4).offset + (bytes 1 96 4).length ∧ y / 100 = k) :=
  ⟨by decide,
    (overlapsBlocks_iff_common_block 100 (bytes 0 0 4) (bytes 1 96 4) (by decide)
      (by decide) (by decide) (by decide) (by decide) (by decide) (by decide)).2.1
      (by decide)⟩

/-- Block indices under a block size `b` order block indices under a multiple of `b`. -/
theorem ediv_mul_le_ediv_mul {b c x y : Int} (hb : 0 < b) (hc : 0 < c)
    (h : x / b ≤ y / b) : x / (b * c) ≤ y / (b * c) := by
  have hbc : 0 < b * c := Int.mul_pos hb hc
  by_contra hlt
  have hq : y / (b * c) + 1 ≤ x / (b * c) := by omega
  have a1 := mul_ediv_le (show 1 ≤ b * c by omega) x
  have a2 := lt_mul_ediv_add (show 1 ≤ b * c by omega) y
  have a3 := Int.mul_le_mul_of_nonneg_left hq (show 0 ≤ b * c by omega)
  rw [mul_add, mul_one] at a3
  have a4 : y / b < c * (x / (b * c)) := by
    rw [Int.ediv_lt_iff_lt_mul hb]
    linarith [mul_assoc b c (x / (b * c)), mul_comm (c * (x / (b * c))) b]
  have a5 : c * (x / (b * c)) ≤ x / b := by
    rw [Int.le_ediv_iff_mul_le hb]
    linarith [mul_assoc b c (x / (b * c)), mul_comm (c * (x / (b * c))) b]
  omega

/-- C8 as stated fails: with block size 2 the bytes 2 and 3 lie in one block, with the
larger block size 3 they lie in different blocks. -/
theorem overlapsBlocks_not_monotone_counterexample :
    (1 : Int) ≤ 2 ∧ (2 : Int) ≤ 3
      ∧ (0 ≤ (bytes 0 2 1).offset ∧ 0 < (bytes 0 2 1).length)
      ∧ (0 ≤ (bytes 1 3 1).offset ∧ 0 < (bytes 1 3 1).length)
      ∧ (bytes 0 2 1).overlapsBlocks 2 (bytes 1 3 1) = true
      ∧ (bytes 0 2 1).overlapsBlocks 3 (bytes 1 3 1) = false := by
  decide

/-- Divisibility is needed: when `b1` does not divide `b2`, the last byte before offset
`b2` and the byte at `b2` share a block of size `b1` but no block of size `b2`. -/
theorem overlapsBlocks_not_mono_of_not_dvd (b1 b2 : Int) (h1 : 1 ≤ b1) (h12 : b1 ≤ b2)
    (hdvd : ¬ b1 ∣ b2) :
    (bytes 0 (b2 - 1) 1).overlapsBlocks b1 (bytes 1 b2 1) = true
      ∧ (bytes 0 (b2 - 1) 1).overlapsBlocks b2 (bytes 1 b2 1) = false := by
  have l1 : 1 < b1 := by
    rcases eq_or_lt_of_le h1 with e | l
    · exact absurd (e ▸ one_dvd b2) hdvd
    · exact l
  have l2 : 1 < b2 := by omega
  constructor
  · rw [overlapsBlocks_iff_index l1 _ _ (by simp [bytes]; omega) (by simp [bytes])
      (by simp [bytes]; omega) (by simp [bytes])]
    simp only [bytes]
    constructor
    · exact Int.ediv_le_ediv (by omega) (by omega)
    · rw [Int.le_ediv_iff_mul_le (by omega)]
      have hr : b2 % b1 ≠ 0 := fun h => hdvd (Int.dvd_of_emod_eq_zero h)
      have hr0 := Int.emod_nonneg b2 (show b1 ≠ 0 by omega)
      have hd := Int.emod_def b2 b1
      have hc := mul_comm (b2 / b1) b1
      omega
  · rw [Bool.eq_false_iff, Ne,
      overlapsBlocks_iff_index l2 _ _ (by simp [bytes]; omega) (by simp [bytes])
        (by simp [bytes]; omega) (by simp [bytes])]
    simp only [bytes]
    rintro ⟨_, h⟩
    rw [Int.ediv_self (by omega)] at h
    have : (b2 - 1 + 1 - 1) / b2 = 0 := Int.ediv_eq_zero_of_lt (by omega) (by omega)
    omega

/-- C8 amended: when the block size grows from `b1` to a multiple `b2` of `b1`, a block
overlap under `b1` is a block overlap under `b2`, for events whose quantized ends under
both block sizes are `int64_t` values, so that the sums of the source do not overflow. -/
theorem overlapsBlocks_mono_of_dvd (b1 b2 : Int) (A B : Event) (h1 : 1 ≤ b1)
    (h12 : b1 ≤ b2) (hdvd : b1 ∣ b2)
    (hA : 0 ≤ A.offset) (hAl : 0 < A.length) (hB : 0 ≤ B.offset) (hBl : 0 < B.length)
    (hA1 : A.InBlockRange b1) (hB1 : B.InBlockRange b1)
    (hA2 : A.InBlockRange b2) (hB2 : B.InBlockRange b2)
    (h : A.overlapsBlocks b1 B = true) : A.overlapsBlocks b2 B = true := by
  rcases eq_or_lt_of_le (show 1 ≤ b2 by omega) with e2 | l2
  · have e1 : b1 = 1 := by omega
    rw [← e2, ← e1]; exact h
  rw [overlapsBlocks_iff_index l2 A B hA hAl hB hBl]
  rcases eq_or_lt_of_le h1 with e1 | l1
  · rw [← e1, overlapsBlocks_one] at h
    exact ⟨Int.ediv_le_ediv (by omega) (by omega), Int.ediv_le_ediv (by omega) (by omega)⟩
  · rw [overlapsBlocks_iff_index l1 A B hA hAl hB hBl] at h
    obtain ⟨c, rfl⟩ := hdvd
    have hc : 0 < c := by
      by_contra hc
      have : b1 * c ≤ 0 := Int.mul_nonpos_of_nonneg_of_nonpos (by omega) (by omega)
      omega
    exact ⟨ediv_mul_le_ediv_mul (by omega) hc h.1, ediv_mul_le_ediv_mul (by omega) hc h.2⟩

/-- The amended C8 from block size 2 to block size 4, on the bytes 2 and 3. -/
theorem overlapsBlocks_mono_of_dvd_witness :
    (bytes 0 2 1).overlapsBlocks 2 (bytes 1 3 1) = true
      ∧ (bytes 0 2 1).overlapsBlocks 4 (bytes 1 3 1) = true :=
  ⟨by decide,
    overlapsBlocks_mono_of_dvd 2 4 (bytes 0 2 1) (bytes 1 3 1) (by decide) (by decide)
      (by decide) (by decide) (by decide) (by decide) (by decide) (by decide) (by decide)
      (by decide) (by decide) (by decide)⟩

/-! ## The canonical order -/

theorem lt_iff (A B : Event) :
    A.lt B = true ↔
      A.offset < B.offset ∨ (A.offset = B.offset ∧ A.start_time < B.start_time) := by
  unfold Event.lt
  by_cases h : A.offset = B.offset
  · simp [h]
  · simp only [h, if_false, decide_eq_true_eq, false_and, or_false]

theorem lt_irreflexive (A : Event) : A.lt A = false := by
  rw [Bool.eq_false_iff, Ne, lt_iff]
  rintro (h | ⟨_, h⟩)
  · omega
  · exact lt_irrefl _ h

theorem lt_transitive (A B C : Event) (hab : A.lt B = true) (hbc : B.lt C = true) :
    A.lt C = true := by
  rw [lt_iff] at hab hbc ⊢
  rcases hab with h1 | ⟨h1, h1t⟩ <;> rcases hbc with h2 | ⟨h2, h2t⟩
  · left; omega
  · left; omega
  · left; omega
  · right; exact ⟨by omega, lt_trans h1t h2t⟩

theorem lt_asymmetric (A B : Event) (hab : A.lt B = true) : B.lt A = false := by
  rw [Bool.eq_false_iff]
  intro hba
  have := lt_transitive A B A hab hba
  rw [lt_irreflexive] at this
  exact Bool.false_ne_true this

theorem lt_trichotomous (A B : Event) :
    (A.lt B = true ∧ B.lt A = false
        ∧ ¬ (A.offset = B.offset ∧ A.start_time = B.start_time))
      ∨ (A.lt B = false ∧ B.lt A = true
        ∧ ¬ (A.offset = B.offset ∧ A.start_time = B.start_time))
      ∨ (A.lt B = false ∧ B.lt A = false
        ∧ (A.offset = B.offset ∧ A.start_time = B.start_time)) := by
  rcases lt_trichotomy A.offset B.offset with h | h | h
  · have hab : A.lt B = true := (lt_iff A B).2 (Or.inl h)
    exact Or.inl ⟨hab, lt_asymmetric A B hab, fun hh => by omega⟩
  · rcases lt_trichotomy A.start_time B.start_time with ht | ht | ht
    · have hab : A.lt B = true := (lt_iff A B).2 (Or.inr ⟨h, ht⟩)
      exact Or.inl ⟨hab, lt_asymmetric A B hab, fun hh => absurd hh.2 (ne_of_lt ht)⟩
    · refine Or.inr (Or.inr ⟨?_, ?_, h, ht⟩)
      · rw [Bool.eq_false_iff, Ne, lt_iff]
        rintro (h2 | ⟨_, h2⟩)
        · omega
        · exact absurd ht (ne_of_lt h2)
      · rw [Bool.eq_false_iff, Ne, lt_iff]
        rintro (h2 | ⟨_, h2⟩)
        · omega
        · exact absurd ht.symm (ne_of_lt h2)
    · have hba : B.lt A = true := (lt_iff B A).2 (Or.inr ⟨h.symm, ht⟩)
      exact Or.inr (Or.inl ⟨lt_asymmetric B A hba, hba,
        fun hh => absurd hh.2.symm (ne_of_lt ht)⟩)
  · have hba : B.lt A = true := (lt_iff B A).2 (Or.inl h)
    exact Or.inr (Or.inl ⟨lt_asymmetric B A hba, hba, fun hh => by omega⟩)

/-- C10: `Event::operator<` orders by offset ascending with ties broken by start time
ascending; it is irreflexive and transitive, and of `A < B`, `B < A` and "same offset
and same start time" exactly one holds. -/
theorem lt_strict_total_order :
    (∀ A B : Event, A.lt B = true ↔
        A.offset < B.offset ∨ (A.offset = B.offset ∧ A.start_time < B.start_time))
      ∧ (∀ A : Event, A.lt A = false)
      ∧ (∀ A B C : Event, A.lt B = true → B.lt C = true → A.lt C = true)
      ∧ (∀ A B : Event,
          (A.lt B = true ∧ B.lt A = false
              ∧ ¬ (A.offset = B.offset ∧ A.start_time = B.start_time))
            ∨ (A.lt B = false ∧ B.lt A = true
              ∧ ¬ (A.offset = B.offset ∧ A.start_time = B.start_time))
            ∨ (A.lt B = false ∧ B.lt A = false
              ∧ (A.offset = B.offset ∧ A.start_time = B.start_time))) :=
  ⟨lt_iff, lt_irreflexive, lt_transitive, lt_trichotomous⟩

/-! ## The event container -/

theorem mem_insert {e y : Event} {evs : EventSetType}
    (h : y ∈ EventSetType.insert e evs) : y = e ∨ y ∈ evs := by
  induction evs with
  | nil =>
    simp only [EventSetType.insert, List.mem_singleton] at h
    exact Or.inl h
  | cons x xs ih =>
    unfold EventSetType.insert at h
    split at h
    · rcases List.mem_cons.1 h with h | h
      · exact Or.inl h
      · exact Or.inr h
    · split at h
      · rcases List.mem_cons.1 h with h | h
        · exact Or.inr (h ▸ List.mem_cons_self _ _)
        · rcases ih h with h | h
          · exact Or.inl h
          · exact Or.inr (List.mem_cons_of_mem _ h)
      · exact Or.inr h

/-- Insertion keeps the container strictly ascending in `Event::operator<`. -/
theorem insert_sorted (e : Event) (evs : EventSetType)
    (h : evs.Pairwise (fun x y => x.lt y = true)) :
    (EventSetType.insert e evs).Pairwise (fun x y => x.lt y = true) := by
  induction evs with
  | nil => simp [EventSetType.insert]
  | cons x xs ih =>
    rw [List.pairwise_cons] at h
    unfold EventSetType.insert
    split
    · rename_i hex
      refine List.Pairwise.cons ?_ (List.Pairwise.cons h.1 h.2)
      intro y hy
      rcases List.mem_cons.1 hy with rfl | hy
      · exact hex
      · exact lt_transitive _ _ _ hex (h.1 y hy)
    · split
      · rename_i hxe
        refine List.Pairwise.cons ?_ (ih h.2)
        intro y hy
        rcases mem_insert hy with rfl | hy
        · exact hxe
        · exact h.1 y hy
      · exact List.Pairwise.cons h.1 h.2

/-- Whatever the insertion order, the container iterates in canonical order: no element
is less than an element before it. -/
theorem foldl_insert_canonical (l : List Event) :
    (l.foldl (fun s e => EventSetType.insert e s) []).Pairwise
      (fun x y => y.lt x = false) := by
  have hs : ∀ (l : List Event) (acc : EventSetType),
      acc.Pairwise (fun x y => x.lt y = true) →
      (l.foldl (fun s e => EventSetType.insert e s) acc).Pairwise
        (fun x y => x.lt y = true) := by
    intro l
    induction l with
    | nil => intro acc h; exact h
    | cons e l ih => intro acc h; exact ih _ (insert_sorted e acc h)
  exact (hs l [] List.Pairwise.nil).imp (fun {x y} h => lt_asymmetric x y h)

/-! ## The sweep of `scanForConflicts` -/

theorem isConflict_iff (A B : Event) :
    OverlapSet.isConflict A B = true ↔
      A.rank ≠ B.rank
        ∧ (A.offset < B.offset + B.length ∧ A.offset + A.length > B.offset)
        ∧ (A.mode = Mode.WRITE ∨ B.mode = Mode.WRITE) := by
  simp [OverlapSet.isConflict, Event.overlaps, and_assoc]

theorem isConflict_comm (A B : Event) :
    OverlapSet.isConflict A B = OverlapSet.isConflict B A := by
  rw [Bool.eq_iff_iff, isConflict_iff, isConflict_iff]
  constructor
  · rintro ⟨h1, ⟨h2, h3⟩, h4⟩
    exact ⟨Ne.symm h1, ⟨h3, h2⟩, h4.symm⟩
  · rintro ⟨h1, ⟨h2, h3⟩, h4⟩
    exact ⟨Ne.symm h1, ⟨h3, h2⟩, h4.symm⟩

theorem conflictPairs_append (r1 r2 : List Report) :
    conflictPairs (r1 ++ r2) = conflictPairs r1 ++ conflictPairs r2 := by
  induction r1 with
  | nil => rfl
  | cons r rs ih => cases r <;> simp [conflictPairs, ih]

theorem conflictPairs_map_conflict (e : Event) (f g : Event → Int) (l : List Event) :
    conflictPairs (l.map (fun o => Report.conflict e o (f o) (g o)))
      = l.map (fun o => (e, o)) := by
  induction l with
  | nil => rfl
  | cons o l ih => simp [conflictPairs, ih]

theorem conflictPairs_map_falseSharing (e : Event) (f g : Event → Int) (l : List Event) :
    conflictPairs (l.map (fun o => Report.falseSharing e o (f o) (g o))) = [] := by
  induction l with
  | nil => rfl
  | cons o l ih => simp [conflictPairs, ih]

theorem conflictPairs_map_anomaly (e : Event) (l : List Event) :
    conflictPairs (l.map (fun o => Report.anomaly e o)) = [] := by
  induction l with
  | nil => rfl
  | cons o l ih => simp [conflictPairs, ih]

theorem mem_conflictPairs (A B : Event) (rs : List Report) :
    (A, B) ∈ conflictPairs rs ↔ ∃ lo hi, Report.conflict A B lo hi ∈ rs := by
  induction rs with
  | nil => simp [conflictPairs]
  | cons r rs ih =>
    cases r with
    | conflict e o lo hi =>
      simp only [conflictPairs, List.mem_cons, ih, Prod.mk.injEq, Report.conflict.injEq]
      constructor
      · rintro (⟨rfl, rfl⟩ | ⟨lo', hi', h⟩)
        · exact ⟨lo, hi, Or.inl ⟨rfl, rfl, rfl, rfl⟩⟩
        · exact ⟨lo', hi', Or.inr h⟩
      · rintro ⟨lo', hi', (⟨rfl, rfl, _, _⟩ | h)⟩
        · exact Or.inl ⟨rfl, rfl⟩
        · exact Or.inr ⟨lo', hi', h⟩
    | falseSharing e o lo hi => simp [conflictPairs, ih]
    | anomaly e o => simp [conflictPairs, ih]

theorem conflictPairs_reportOverlaps (os : OverlapSet) (e : Event) :
    conflictPairs (os.reportOverlaps e)
      = (os.active.filter (fun o => OverlapSet.isConflict e o)).map (fun o => (e, o)) := by
  unfold OverlapSet.reportOverlaps
  exact conflictPairs_map_conflict e _ _ _

theorem conflictPairs_reportBlockOverlaps (b : Int) (os : OverlapSet) (e : Event) :
    conflictPairs (os.reportBlockOverlaps b e) = [] := by
  unfold OverlapSet.reportBlockOverlaps
  split
  · rfl
  · split
    · exact conflictPairs_map_falseSharing e _ _ _
    · rfl

theorem conflictPairs_mergeEventsSameRank (os : OverlapSet) (e : Event) :
    conflictPairs (os.mergeEventsSameRank e).2 = [] := by
  unfold OverlapSet.mergeEventsSameRank
  exact conflictPairs_map_anomaly e _

theorem mem_removeOldEvents {b : Int} {os : OverlapSet} {t : Int} {o : Event}
    (h : o ∈ (os.removeOldEvents b t).active) : o ∈ os.active := by
  unfold OverlapSet.removeOldEvents at h
  exact (List.mem_filter.1 h).1

theorem mem_addEvent {b : Int} {os : OverlapSet} {e o : Event} :
    o ∈ (os.addEvent b e).active ↔ o = e ∨ o ∈ os.active := by
  unfold OverlapSet.addEvent
  simp [List.mem_orderedInsert]

theorem scanLoop_cons (b : Int) (os : OverlapSet) (e : Event) (rest : List Event) :
    scanLoop b os (e :: rest) =
      if ((os.removeOldEvents b (Event.blockStart b e.offset)).mergeEventsSameRank e).1 then
        ((os.removeOldEvents b (Event.blockStart b e.offset)).mergeEventsSameRank e).2
          ++ scanLoop b (os.removeOldEvents b (Event.blockStart b e.offset)) rest
      else
        (os.removeOldEvents b (Event.blockStart b e.offset)).reportOverlaps e
          ++ (os.removeOldEvents b (Event.blockStart b e.offset)).reportBlockOverlaps b e
          ++ scanLoop b
            ((os.removeOldEvents b (Event.blockStart b e.offset)).addEvent b e) rest := rfl

/-- Every pair the sweep reports as a conflict is an incoming event with an event that
was active or came earlier, and satisfies the conflict definition. -/
theorem scanLoop_pairs_sound (b : Int) (rest : List Event) :
    ∀ (os : OverlapSet) (A B : Event), (A, B) ∈ conflictPairs (scanLoop b os rest) →
      A ∈ rest ∧ (B ∈ os.active ∨ B ∈ rest) ∧ OverlapSet.isConflict A B = true := by
  induction rest with
  | nil => intro os A B h; simp [scanLoop, conflictPairs] at h
  | cons e rest ih =>
    intro os A B h
    rw [scanLoop_cons] at h
    split at h
    · rw [conflictPairs_append, conflictPairs_mergeEventsSameRank, List.nil_append] at h
      obtain ⟨h1, h2, h3⟩ := ih _ A B h
      refine ⟨List.mem_cons_of_mem _ h1, ?_, h3⟩
      rcases h2 with h2 | h2
      · exact Or.inl (mem_removeOldEvents h2)
      · exact Or.inr (List.mem_cons_of_mem _ h2)
    · rw [conflictPairs_append, conflictPairs_append, conflictPairs_reportOverlaps,
        conflictPairs_reportBlockOverlaps, List.append_nil, List.mem_append] at h
      rcases h with h | h
      · rw [List.mem_map] at h
        obtain ⟨o, ho, heq⟩ := h
        rw [Prod.mk.injEq] at heq
        obtain ⟨rfl, rfl⟩ := heq
        rw [List.mem_filter] at ho
        exact ⟨List.mem_cons_self _ _, Or.inl (mem_removeOldEvents ho.1), ho.2⟩
      · obtain ⟨h1, h2, h3⟩ := ih _ A B h
        refine ⟨List.mem_cons_of_mem _ h1, ?_, h3⟩
        rcases h2 with h2 | h2
        · rcases mem_addEvent.1 h2 with rfl | h2
          · exact Or.inr (List.mem_cons_self _ _)
          · exact Or.inl (mem_removeOldEvents h2)
        · exact Or.inr (List.mem_cons_of_mem _ h2)

/-- C1: every conflict that `scanForConflicts` reports for a file is a pair of events of
that file with different ranks, raw-overlapping byte ranges and at least one write; no
read/read pair and no same-rank pair is reported. -/
theorem scanForConflicts_reports_only_conflicts (b : Int) (f : File) (A B : Event)
    (lo hi : Int) (h : Report.conflict A B lo hi ∈ scanForConflicts b f) :
    (A ∈ f.events ∧ B ∈ f.events)
      ∧ A.rank ≠ B.rank
      ∧ (A.offset < B.offset + B.length ∧ A.offset + A.length > B.offset)
      ∧ (A.mode = Mode.WRITE ∨ B.mode = Mode.WRITE)
      ∧ ¬ (A.mode = Mode.READ ∧ B.mode = Mode.READ) := by
  have hp : (A, B) ∈ conflictPairs (scanLoop b ⟨[]⟩ f.events) :=
    (mem_conflictPairs A B _).2 ⟨lo, hi, h⟩
  obtain ⟨h1, h2, h3⟩ := scanLoop_pairs_sound b f.events ⟨[]⟩ A B hp
  rw [isConflict_iff] at h3
  obtain ⟨hr, ho, hm⟩ := h3
  refine ⟨⟨h1, ?_⟩, hr, ho, hm, ?_⟩
  · rcases h2 with h2 | h2
    · simp at h2
    · exact h2
  · rintro ⟨ha, hb⟩
    rcases hm with hm | hm
    · rw [ha] at hm; exact Mode.noConfusion hm
    · rw [hb] at hm; exact Mode.noConfusion hm

/-- C1 on scenario B: the one conflict reported, of the write `[50,150)` of rank 1 with
the write `[0,100)` of rank 0 over the bytes `50..99`, satisfies the definition. -/
theorem scanForConflicts_reports_only_conflicts_witness :
    scanForConflicts 1 scenarioB = [Report.conflict (bytes 1 50 100) (bytes 0 0 100) 50 99]
      ∧ (bytes 1 50 100).rank ≠ (bytes 0 0 100).rank
      ∧ ((bytes 1 50 100).offset < (bytes 0 0 100).offset + (bytes 0 0 100).length
        ∧ (bytes 1 50 100).offset + (bytes 1 50 100).length > (bytes 0 0 100).offset)
      ∧ ((bytes 1 50 100).mode = Mode.WRITE ∨ (bytes 0 0 100).mode = Mode.WRITE) :=
  have h := scanForConflicts_reports_only_conflicts 1 scenarioB (bytes 1 50 100)
    (bytes 0 0 100) 50 99 (by decide)
  ⟨by decide, h.2.1, h.2.2.1, h.2.2.2.1⟩

/-! ## Completeness of the sweep -/

/-- The C++ remainder has the sign of the dividend and is smaller than the divisor. -/
theorem tmod_bounds {b : Int} (hb : 1 ≤ b) (a : Int) :
    (0 ≤ a → 0 ≤ Int.tmod a b ∧ Int.tmod a b ≤ a ∧ Int.tmod a b < b)
      ∧ (a ≤ 0 → a ≤ Int.tmod a b ∧ Int.tmod a b ≤ 0 ∧ -b < Int.tmod a b) := by
  obtain ⟨n, rfl⟩ := Int.eq_ofNat_of_zero_le (show 0 ≤ b by omega)
  have hn : 0 < n := by omega
  cases a with
  | ofNat m =>
    have e : Int.tmod (Int.ofNat m) (n : Int) = ((m % n : Nat) : Int) := rfl
    have h1 := Nat.mod_lt m hn
    have h2 := Nat.mod_le m n
    rw [e]
    constructor
    · intro _
      refine ⟨by omega, ?_, by omega⟩
      show ((m % n : Nat) : Int) ≤ ((m : Nat) : Int)
      omega
    · intro h
      have hm : m = 0 := by
        have : ((m : Nat) : Int) ≤ 0 := h
        omega
      subst hm
      simp
      omega
  | negSucc m =>
    have e : Int.tmod (Int.negSucc m) (n : Int) = -(((m + 1) % n : Nat) : Int) := rfl
    have h1 := Nat.mod_lt (m + 1) hn
    have h2 := Nat.mod_le (m + 1) n
    rw [e]
    constructor
    · intro h
      exact absurd h (by simp [Int.negSucc_lt_zero])
    · intro _
      refine ⟨?_, by omega, by omega⟩
      rw [Int.negSucc_eq]
      omega

/-- The block start of an offset never exceeds the block end of a later offset. -/
theorem blockStart_le_blockEnd_of_le {b : Int} (hb : 1 ≤ b) {z y : Int} (h : z ≤ y) :
    Event.blockStart b z ≤ Event.blockEnd b y := by
  unfold Event.blockEnd Event.blockStart
  have hz := tmod_bounds hb z
  have hy := tmod_bounds hb y
  omega

/-- An active event that raw-overlaps an event at or after the threshold offset is not
expired. -/
theorem not_expired_of_overlaps {b : Int} (hb : 1 ≤ b) (o x : Event) (t : Int)
    (ht : t ≤ x.offset) (h : x.overlaps o = true) :
    ¬ (Event.quantEnd b o < Event.blockStart b t) := by
  rw [overlaps_iff] at h
  have := blockStart_le_blockEnd_of_le hb (show t ≤ o.offset + o.length - 1 by omega)
  unfold Event.quantEnd
  omega

theorem filter_isConflict_removeOldEvents {b : Int} (hb : 1 ≤ b) (os : OverlapSet)
    (t : Int) (x : Event) (ht : t ≤ x.offset) :
    (os.removeOldEvents b (Event.blockStart b t)).active.filter
        (fun o => OverlapSet.isConflict x o)
      = os.active.filter (fun o => OverlapSet.isConflict x o) := by
  unfold OverlapSet.removeOldEvents
  rw [List.filter_filter]
  apply List.filter_congr
  intro o _
  by_cases hc : OverlapSet.isConflict x o = true
  · have hov : x.overlaps o = true := by
      simp only [OverlapSet.isConflict, Bool.and_eq_true] at hc
      exact hc.1.2
    have := not_expired_of_overlaps hb o x t ht hov
    simp [hc, this]
  · simp [hc]

theorem filter_map_pair (e : Event) (act : List Event) :
    (act.map (fun o => (e, o))).filter conflictPair
      = (act.filter (fun o => OverlapSet.isConflict e o)).map (fun o => (e, o)) := by
  rw [List.filter_map]
  rfl

theorem filter_pairsWith_removeOldEvents {b : Int} (hb : 1 ≤ b) (os : OverlapSet)
    (t : Int) (rest : List Event) (ht : ∀ x ∈ rest, t ≤ x.offset) :
    (pairsWith (os.removeOldEvents b (Event.blockStart b t)).active rest).filter conflictPair
      = (pairsWith os.active rest).filter conflictPair := by
  induction rest with
  | nil => rfl
  | cons x rest ih =>
    simp only [pairsWith, List.filter_append, filter_map_pair]
    rw [filter_isConflict_removeOldEvents hb os t x (ht x (List.mem_cons_self _ _)),
      ih (fun y hy => ht y (List.mem_cons_of_mem _ hy))]

theorem pairsWith_perm {act1 act2 : List Event} (h : act1.Perm act2) (rest : List Event) :
    (pairsWith act1 rest).Perm (pairsWith act2 rest) := by
  induction rest with
  | nil => exact List.Perm.refl _
  | cons x rest ih => exact List.Perm.append (h.map _) ih

theorem pairsWith_cons (e : Event) (act rest : List Event) :
    (pairsWith (e :: act) rest).Perm (rest.map (fun x => (x, e)) ++ pairsWith act rest) := by
  induction rest with
  | nil => exact List.Perm.refl _
  | cons x rest ih =>
    simp only [pairsWith, List.map_cons, List.cons_append]
    refine List.Perm.cons _ ?_
    refine (List.Perm.append_left _ ih).trans ?_
    rw [← List.append_assoc, ← List.append_assoc]
    exact List.Perm.append_right _ List.perm_append_comm

theorem pairsWith_nil (rest : List Event) : pairsWith [] rest = [] := by
  induction rest with
  | nil => rfl
  | cons x rest ih => simp [pairsWith, ih]

theorem merge_not_handled (os : OverlapSet) (e : Event)
    (h : ∀ o ∈ os.active, o.rank = e.rank → o.overlaps e = false) :
    (os.mergeEventsSameRank e).1 = false := by
  have : os.active.filter (fun o => decide (o.rank = e.rank) && o.overlaps e) = [] := by
    rw [List.filter_eq_nil_iff]
    intro o ho
    by_cases hr : o.rank = e.rank
    · simp [hr, h o ho hr]
    · simp [hr]
  simp [OverlapSet.mergeEventsSameRank, this]

/-- The sweep from a tracker state: when the remaining events come by ascending offset
and no event raw-overlaps another of its rank, the conflicts reported are the conflicting
pairs of a remaining event with an active event or with an earlier remaining event. -/
theorem scanLoop_conflictPairs_perm {b : Int} (hb : 1 ≤ b) (rest : List Event) :
    ∀ os : OverlapSet,
      rest.Pairwise (fun x y => x.offset ≤ y.offset) →
      rest.Pairwise (fun x y => x.rank = y.rank → x.overlaps y = false) →
      (∀ o ∈ os.active, ∀ x ∈ rest, o.rank = x.rank → o.overlaps x = false) →
      (conflictPairs (scanLoop b os rest)).Perm
        ((pairsWith os.active rest ++ eventPairs rest).filter conflictPair) := by
  induction rest with
  | nil => intro os _ _ _; exact List.Perm.refl _
  | cons e rest ih =>
    intro os hs hr ha
    rw [List.pairwise_cons] at hs hr
    have hm : ((os.removeOldEvents b (Event.blockStart b e.offset)).mergeEventsSameRank e).1
        = false :=
      merge_not_handled _ e
        (fun o ho => ha o (mem_removeOldEvents ho) e (List.mem_cons_self _ _))
    rw [scanLoop_cons, hm]
    simp only [Bool.false_eq_true, if_false]
    rw [conflictPairs_append, conflictPairs_append, conflictPairs_reportOverlaps,
      conflictPairs_reportBlockOverlaps, List.append_nil]
    have ih' := ih ((os.removeOldEvents b (Event.blockStart b e.offset)).addEvent b e)
      hs.2 hr.2 (by
        intro o ho x hx
        rcases mem_addEvent.1 ho with rfl | ho
        · exact hr.1 x hx
        · exact ha o (mem_removeOldEvents ho) x (List.mem_cons_of_mem _ hx))
    have hins : ((os.removeOldEvents b (Event.blockStart b e.offset)).addEvent b e).active.Perm
        (e :: (os.removeOldEvents b (Event.blockStart b e.offset)).active) := by
      unfold OverlapSet.addEvent
      exact List.perm_orderedInsert _ _ _
    have hp := ((pairsWith_perm hins rest).trans (pairsWith_cons e _ rest)).filter conflictPair
    rw [List.filter_append,
      filter_pairsWith_removeOldEvents hb os e.offset rest hs.1] at hp
    simp only [pairsWith, eventPairs, List.filter_append, filter_map_pair]
    rw [filter_isConflict_removeOldEvents hb os e.offset e (le_refl _)]
    rw [List.append_assoc]
    refine List.Perm.append_left _ ?_
    rw [List.filter_append] at ih'
    refine ih'.trans ?_
    refine (List.Perm.append_right _ hp).trans ?_
    rw [List.append_assoc]
    exact List.perm_append_comm_assoc _ _ _

/-- C2: for a file whose events are in canonical order, in which no two events of one
rank raw-overlap and whose events have quantized ends that are `int64_t` values, so that
the sums of the source do not overflow, the conflicts reported by `scanForConflicts` are,
each once, the pairs of events with different ranks, raw-overlapping byte ranges and at
least one write; timestamps play no part. -/
theorem scanForConflicts_reports_each_conflict_once (b : Int) (f : File) (hb : 1 ≤ b)
    (hcanon : f.events.Pairwise (fun x y => y.lt x = false))
    (hrank : f.events.Pairwise (fun x y => x.rank = y.rank → x.overlaps y = false))
    (hrange : ∀ e ∈ f.events, e.InBlockRange b) :
    (conflictPairs (scanForConflicts b f)).Perm
      ((eventPairs f.events).filter conflictPair) := by
  have hs : f.events.Pairwise (fun x y => x.offset ≤ y.offset) := by
    refine hcanon.imp ?_
    intro x y h
    rw [Bool.eq_false_iff, Ne, lt_iff] at h
    by_contra hc
    exact h (Or.inl (by omega))
  have := scanLoop_conflictPairs_perm hb f.events ⟨[]⟩ hs hrank (by simp)
  simpa [scanForConflicts, pairsWith_nil] using this

/-- C2 on the sample trace at the default block size: the file satisfies the hypotheses,
exactly 10 reports are emitted, all conflicts, one per segment: the read of rank 1 with
the write of rank 0 at the same offset. -/
theorem scanForConflicts_reports_each_conflict_once_witness :
    (conflictPairs (scanForConflicts 1 sampleFile)).Perm
        ((eventPairs sampleFile.events).filter conflictPair)
      ∧ (scanForConflicts 1 sampleFile).length = 10
      ∧ conflictPairs (scanForConflicts 1 sampleFile)
        = (sampleTrace.drop 10).zip (sampleTrace.take 10) :=
  ⟨scanForConflicts_reports_each_conflict_once 1 sampleFile (by decide) (by decide)
      (by decide) (by decide),
    by decide, by decide⟩

/-! ## Expiry -/

/-- The block start is monotone on non-negative offsets. -/
theorem blockStart_mono {b : Int} (hb : 1 ≤ b) {x y : Int} (hx : 0 ≤ x) (hxy : x ≤ y) :
    Event.blockStart b x ≤ Event.blockStart b y := by
  rw [blockStart_eq_mul_ediv hb hx, blockStart_eq_mul_ediv hb (le_trans hx hxy)]
  exact Int.mul_le_mul_of_nonneg_left (Int.ediv_le_ediv (by omega) hxy) (by omega)

theorem overlaps_eq_false_iff (a o : Event) :
    a.overlaps o = false ↔ ¬ (a.offset < o.offset + o.length ∧ a.offset + a.length > o.offset) := by
  rw [← overlaps_iff, Bool.not_eq_true]

theorem overlapsBlocks_iff (b : Int) (a o : Event) :
    a.overlapsBlocks b o = true ↔
      Event.blockStart b a.offset < Event.blockEnd b (o.offset + o.length - 1)
        ∧ Event.blockEnd b (a.offset + a.length - 1) > Event.blockStart b o.offset := by
  simp [Event.overlapsBlocks]

theorem overlapsBlocks_eq_false_iff (b : Int) (a o : Event) :
    a.overlapsBlocks b o = false ↔
      ¬ (Event.blockStart b a.offset < Event.blockEnd b (o.offset + o.length - 1)
        ∧ Event.blockEnd b (a.offset + a.length - 1) > Event.blockStart b o.offset) := by
  rw [← overlapsBlocks_iff, Bool.not_eq_true]

/-- C17: for a block size `b ≥ 1` and events whose quantized ends are `int64_t` values, so
that the sums of the source do not overflow, an event `A` whose quantized end offset is
strictly below `blockStart(e.offset)` neither raw-overlaps nor block-overlaps any event
`x` with `x.offset ≥ e.offset` (and so not `e` itself), in either argument order. Of the
sign conditions of the events only `e.offset ≥ 0` is used. -/
theorem expired_never_overlaps (b : Int) (A e x : Event) (hb : 1 ≤ b)
    (he : 0 ≤ e.offset) (hex : e.offset ≤ x.offset)
    (hAr : A.InBlockRange b) (her : e.InBlockRange b) (hxr : x.InBlockRange b)
    (hexp : Event.blockEnd b (A.offset + A.length - 1) < Event.blockStart b e.offset) :
    (A.overlaps x = false ∧ x.overlaps A = false)
      ∧ (A.overlapsBlocks b x = false ∧ x.overlapsBlocks b A = false) := by
  have hmono := blockStart_mono hb he hex
  have hraw : ¬ (x.offset < A.offset + A.length) := by
    intro h
    have := blockStart_le_blockEnd_of_le hb (show e.offset ≤ A.offset + A.length - 1 by omega)
    omega
  refine ⟨⟨?_, ?_⟩, ?_, ?_⟩
  · rw [overlaps_eq_false_iff]; rintro ⟨_, h⟩; omega
  · rw [overlaps_eq_false_iff]; rintro ⟨h, _⟩; omega
  · rw [overlapsBlocks_eq_false_iff]; rintro ⟨_, h⟩; omega
  · rw [overlapsBlocks_eq_false_iff]; rintro ⟨h, _⟩; omega

/-- C17 at block size 100: the access `[0,4)` ends in block `0..99`, before the block
`200..299` of the access at offset 250, and overlaps neither it nor the access at 300. -/
theorem expired_never_overlaps_witness :
    Event.blockEnd 100 ((bytes 0 0 4).offset + (bytes 0 0 4).length - 1)
        < Event.blockStart 100 (bytes 1 250 10).offset
      ∧ ((bytes 0 0 4).overlaps (bytes 1 300 10) = false
        ∧ (bytes 1 300 10).overlaps (bytes 0 0 4) = false)
      ∧ ((bytes 0 0 4).overlapsBlocks 100 (bytes 1 300 10) = false
        ∧ (bytes 1 300 10).overlapsBlocks 100 (bytes 0 0 4) = false) :=
  ⟨by decide,
    expired_never_overlaps 100 (bytes 0 0 4) (bytes 1 250 10) (bytes 1 300 10) (by decide)
      (by decide) (by decide) (by decide) (by decide) (by decide) (by decide)⟩

/-! ## The order of the tracker operations -/

/-- A merge step that does not handle the event emits nothing. -/
theorem merge_reports_nil_of_not_handled (os : OverlapSet) (e : Event)
    (h : (os.mergeEventsSameRank e).1 = false) : (os.mergeEventsSameRank e).2 = [] := by
  unfold OverlapSet.mergeEventsSameRank at h ⊢
  simp only [Bool.not_eq_false_eq_eq_true, List.isEmpty_iff] at h
  simp [h]

theorem scanLoopWith_cons {σ : Type} (ops : TrackerOps σ) (b : Int) (s : σ) (e : Event)
    (rest : List Event) :
    scanLoopWith ops b s (e :: rest) =
      if (ops.mergeEventsSameRank (ops.removeOldEvents s (Event.blockStart b e.offset)) e).1
      then
        scanLoopWith ops b
          (ops.mergeEventsSameRank (ops.removeOldEvents s (Event.blockStart b e.offset)) e).2
          rest
      else
        scanLoopWith ops b
          (ops.addEvent (ops.reportBlockOverlaps (ops.reportOverlaps
            (ops.mergeEventsSameRank (ops.removeOldEvents s (Event.blockStart b e.offset)) e).2
            e) e) e) rest := rfl

/-- The sweep over the tracker modelled from the spec is the generic sweep at that
tracker. -/
theorem scanLoopWith_overlapSetOps (b : Int) (evs : List Event) :
    ∀ (os : OverlapSet) (out : List Report),
      (scanLoopWith (overlapSetOps b) b (os, out) evs).2 = out ++ scanLoop b os evs := by
  induction evs with
  | nil => intro os out; simp [scanLoopWith, scanLoop]
  | cons e rest ih =>
    intro os out
    rw [scanLoop_cons, scanLoopWith_cons]
    have hc : ((overlapSetOps b).mergeEventsSameRank
        ((overlapSetOps b).removeOldEvents (os, out) (Event.blockStart b e.offset)) e).1
        = ((os.removeOldEvents b (Event.blockStart b e.offset)).mergeEventsSameRank e).1 :=
      rfl
    rw [hc]
    by_cases h : ((os.removeOldEvents b (Event.blockStart b e.offset)).mergeEventsSameRank e).1
        = true
    · rw [if_pos h, if_pos h]
      exact (ih _ _).trans (by simp [overlapSetOps])
    · rw [if_neg h, if_neg h]
      have hn := merge_reports_nil_of_not_handled _ e (by simpa using h)
      exact (ih _ _).trans (by simp [overlapSetOps, hn])

/-- When the merge step of the modelled tracker handles `e`, the sweep goes on from the
expired active set, without `e`, and the step emits anomalies only. -/
theorem scanLoop_cons_handled (b : Int) (os : OverlapSet) (e : Event) (rest : List Event)
    (h : ((os.removeOldEvents b (Event.blockStart b e.offset)).mergeEventsSameRank e).1
      = true) :
    scanLoop b os (e :: rest)
      = ((os.removeOldEvents b (Event.blockStart b e.offset)).mergeEventsSameRank e).2
        ++ scanLoop b (os.removeOldEvents b (Event.blockStart b e.offset)) rest := by
  rw [scanLoop_cons, if_pos h]

theorem scanLoopWith_logging (b : Int) (handled : List TrackerCall → Event → Bool)
    (evs : List Event) :
    ∀ L : List TrackerCall, ∃ ds : List Bool, ds.length = evs.length
      ∧ scanLoopWith (loggingOps handled) b L evs = L ++ callsForAll b evs ds := by
  induction evs with
  | nil => intro L; exact ⟨[], rfl, by simp [scanLoopWith, callsForAll]⟩
  | cons e rest ih =>
    intro L
    rw [scanLoopWith_cons]
    have hc : ((loggingOps handled).mergeEventsSameRank
        ((loggingOps handled).removeOldEvents L (Event.blockStart b e.offset)) e).1
        = handled (L ++ [TrackerCall.removeOldEvents (Event.blockStart b e.offset)]) e := rfl
    rw [hc]
    by_cases h : handled (L ++ [TrackerCall.removeOldEvents (Event.blockStart b e.offset)]) e
        = true
    · rw [if_pos h]
      obtain ⟨ds, hl, hds⟩ := ih ((loggingOps handled).mergeEventsSameRank
        ((loggingOps handled).removeOldEvents L (Event.blockStart b e.offset)) e).2
      refine ⟨true :: ds, by simp [hl], ?_⟩
      rw [hds]
      simp [loggingOps, callsForAll, callsFor, h]
    · rw [if_neg h]
      rw [Bool.not_eq_true] at h
      obtain ⟨ds, hl, hds⟩ := ih ((loggingOps handled).addEvent
        ((loggingOps handled).reportBlockOverlaps ((loggingOps handled).reportOverlaps
          ((loggingOps handled).mergeEventsSameRank
            ((loggingOps handled).removeOldEvents L (Event.blockStart b e.offset)) e).2
          e) e) e)
      refine ⟨false :: ds, by simp [hl], ?_⟩
      rw [hds]
      simp [loggingOps, callsForAll, callsFor, h]

/-- C18: whatever the tracker answers, the calls `scanForConflicts` makes on it are, event
after event in the order of the file, `removeOldEvents(blockStart(e.offset))` and
`mergeEventsSameRank(e)`, followed, only when the merge did not handle `e`, by
`reportOverlaps(e)`, `reportBlockOverlaps(e)` and `addEvent(e)` in this order; for a
handled event none of the last three is called. -/
theorem scanForConflicts_call_order (b : Int) (handled : List TrackerCall → Event → Bool)
    (evs : List Event) :
    (∃ ds : List Bool, ds.length = evs.length
        ∧ scanLoopWith (loggingOps handled) b [] evs = callsForAll b evs ds)
      ∧ (∀ e : Event,
          callsFor b e true
              = [TrackerCall.removeOldEvents (Event.blockStart b e.offset),
                 TrackerCall.mergeEventsSameRank e true]
            ∧ callsFor b e false
              = [TrackerCall.removeOldEvents (Event.blockStart b e.offset),
                 TrackerCall.mergeEventsSameRank e false,
                 TrackerCall.reportOverlaps e,
                 TrackerCall.reportBlockOverlaps e,
                 TrackerCall.addEvent e]) := by
  refine ⟨?_, fun e => ⟨rfl, rfl⟩⟩
  obtain ⟨ds, hl, hds⟩ := scanLoopWith_logging b handled evs []
  exact ⟨ds, hl, by simpa using hds⟩

/-! ## The order of the visit and of the expiry thresholds -/

theorem mem_foldl_insert (l : List Event) :
    ∀ (acc : EventSetType) (y : Event),
      y ∈ l.foldl (fun s e => EventSetType.insert e s) acc → y ∈ acc ∨ y ∈ l := by
  induction l with
  | nil => intro acc y h; exact Or.inl h
  | cons e l ih =>
    intro acc y h
    rcases ih _ y h with h | h
    · rcases mem_insert h with rfl | h
      · exact Or.inr (List.mem_cons_self _ _)
      · exact Or.inl h
    · exact Or.inr (List.mem_cons_of_mem _ h)

theorem thresholds_append (c1 c2 : List TrackerCall) :
    thresholds (c1 ++ c2) = thresholds c1 ++ thresholds c2 := by
  induction c1 with
  | nil => rfl
  | cons c cs ih => cases c <;> simp [thresholds, ih]

theorem thresholds_callsForAll (b : Int) (evs : List Event) :
    ∀ ds : List Bool, ds.length = evs.length →
      thresholds (callsForAll b evs ds) = evs.map (fun e => Event.blockStart b e.offset) := by
  induction evs with
  | nil => intro ds _; cases ds <;> rfl
  | cons e rest ih =>
    intro ds hl
    cases ds with
    | nil => simp at hl
    | cons d ds =>
      have hl2 : ds.length = rest.length := by simpa using hl
      cases d <;> simp [callsForAll, callsFor, thresholds_append, thresholds, ih ds hl2]

/-- C19: whatever the order in which the events were inserted into `File::events`, the
sweep visits them in canonical order, offsets non-decreasing; for a block size `b ≥ 1`
and offsets `≥ 0` the thresholds passed to `removeOldEvents` are the `blockStart` of the
visited offsets and are non-decreasing, `blockStart` being monotone; an event expired
under a threshold is expired under every larger one. -/
theorem visit_order_and_thresholds (b : Int) (ingested : List Event)
    (handled : List TrackerCall → Event → Bool) (hb : 1 ≤ b)
    (hoff : ∀ e ∈ ingested, 0 ≤ e.offset) :
    ((ingested.foldl (fun s e => EventSetType.insert e s) []).Pairwise
          (fun x y => y.lt x = false)
        ∧ (ingested.foldl (fun s e => EventSetType.insert e s) []).Pairwise
          (fun x y => x.offset ≤ y.offset))
      ∧ (thresholds (scanLoopWith (loggingOps handled) b []
            (ingested.foldl (fun s e => EventSetType.insert e s) []))
          = (ingested.foldl (fun s e => EventSetType.insert e s) []).map
            (fun e => Event.blockStart b e.offset)
        ∧ (thresholds (scanLoopWith (loggingOps handled) b []
            (ingested.foldl (fun s e => EventSetType.insert e s) []))).Pairwise
          (fun t1 t2 => t1 ≤ t2))
      ∧ (∀ x y : Int, 0 ≤ x → x ≤ y → Event.blockStart b x ≤ Event.blockStart b y)
      ∧ (∀ (o : Event) (t1 t2 : Int), t1 ≤ t2 →
          Event.quantEnd b o < t1 → Event.quantEnd b o < t2) := by
  have hcanon := foldl_insert_canonical ingested
  have hs : (ingested.foldl (fun s e => EventSetType.insert e s) []).Pairwise
      (fun x y => x.offset ≤ y.offset) := by
    refine hcanon.imp ?_
    intro x y h
    rw [Bool.eq_false_iff, Ne, lt_iff] at h
    by_contra hc
    exact h (Or.inl (by omega))
  have hth : thresholds (scanLoopWith (loggingOps handled) b []
      (ingested.foldl (fun s e => EventSetType.insert e s) []))
      = (ingested.foldl (fun s e => EventSetType.insert e s) []).map
        (fun e => Event.blockStart b e.offset) := by
    obtain ⟨ds, hl, hds⟩ := scanLoopWith_logging b handled
      (ingested.foldl (fun s e => EventSetType.insert e s) []) []
    rw [hds, List.nil_append, thresholds_callsForAll b _ ds hl]
  refine ⟨⟨hcanon, hs⟩, ⟨hth, ?_⟩, fun x y hx hxy => blockStart_mono hb hx hxy,
    fun o t1 t2 h12 h => lt_of_lt_of_le h h12⟩
  rw [hth, List.pairwise_map]
  refine hs.imp_of_mem ?_
  intro x y hx _ hxy
  have hx0 : 0 ≤ x.offset := by
    rcases mem_foldl_insert ingested [] x hx with h | h
    · simp at h
    · exact hoff x h
  exact blockStart_mono hb hx0 hxy

/-- C19 at block size 100, the accesses inserted by descending offset: they are visited
by ascending offset and the thresholds are 0, 200, 300. -/
theorem visit_order_and_thresholds_witness :
    [bytes 0 300 10, bytes 1 250 10, bytes 0 0 4].foldl
        (fun s e => EventSetType.insert e s) []
        = [bytes 0 0 4, bytes 1 250 10, bytes 0 300 10]
      ∧ thresholds (scanLoopWith (loggingOps (fun _ _ => false)) 100 []
          ([bytes 0 300 10, bytes 1 250 10, bytes 0 0 4].foldl
            (fun s e => EventSetType.insert e s) []))
        = [0, 200, 300]
      ∧ (thresholds (scanLoopWith (loggingOps (fun _ _ => false)) 100 []
          ([bytes 0 300 10, bytes 1 250 10, bytes 0 0 4].foldl
            (fun s e => EventSetType.insert e s) []))).Pairwise (fun t1 t2 => t1 ≤ t2) :=
  ⟨by decide, by decide,
    (visit_order_and_thresholds 100 [bytes 0 300 10, bytes 1 250 10, bytes 0 0 4]
      (fun _ _ => false) (by decide) (by decide)).2.1.2⟩

/-! ## Accesses with the same offset and start time -/

theorem lt_eq_false_of_same_key {a e : Event} (ho : a.offset = e.offset)
    (ht : a.start_time = e.start_time) : a.lt e = false ∧ e.lt a = false := by
  constructor
  · rw [Bool.eq_false_iff, Ne, lt_iff]
    rintro (h | ⟨_, h⟩)
    · omega
    · rw [ht] at h; exact lt_irrefl _ h
  · rw [Bool.eq_false_iff, Ne, lt_iff]
    rintro (h | ⟨_, h⟩)
    · omega
    · rw [ht] at h; exact lt_irrefl _ h

/-- Inserting into the container an access with the offset and start time of a stored
one leaves the container unchanged. -/
theorem insert_same_key (e : Event) (evs : EventSetType)
    (hs : evs.Pairwise (fun x y => x.lt y = true))
    (h : ∃ a ∈ evs, a.offset = e.offset ∧ a.start_time = e.start_time) :
    EventSetType.insert e evs = evs := by
  induction evs with
  | nil => obtain ⟨a, ha, _⟩ := h; simp at ha
  | cons x xs ih =>
    rw [List.pairwise_cons] at hs
    obtain ⟨a, ha, hao, hat⟩ := h
    have hae := lt_eq_false_of_same_key hao hat
    unfold EventSetType.insert
    have hex : e.lt x = false := by
      rcases List.mem_cons.1 ha with rfl | ha
      · exact hae.2
      · rw [Bool.eq_false_iff]
        intro hex
        have := lt_transitive e x a hex (hs.1 a ha)
        rw [hae.2] at this
        exact Bool.false_ne_true this
    rw [hex]
    simp only [Bool.false_eq_true, if_false]
    split
    · rename_i hxe
      rcases List.mem_cons.1 ha with rfl | ha
      · rw [hae.1] at hxe; exact absurd hxe Bool.false_ne_true
      · rw [ih hs.2 ⟨a, ha, hao, hat⟩]
    · rfl

/-- C11 fails on the container of the header: of the writes of ranks 0 and 1 to `[0,100)`
with the same start time, inserted one after the other, only the first is stored; the
sweep sees one event and reports nothing, although the pair satisfies the conflict
definition. -/
theorem insert_drops_access_with_same_key :
    bytes 0 0 100 ≠ bytes 1 0 100
      ∧ ((bytes 0 0 100).offset = (bytes 1 0 100).offset
        ∧ (bytes 0 0 100).start_time = (bytes 1 0 100).start_time)
      ∧ EventSetType.insert (bytes 1 0 100) (EventSetType.insert (bytes 0 0 100) [])
        = [bytes 0 0 100]
      ∧ scanForConflicts 1
          ⟨"1", "f", EventSetType.insert (bytes 1 0 100)
            (EventSetType.insert (bytes 0 0 100) [])⟩ = []
      ∧ OverlapSet.isConflict (bytes 1 0 100) (bytes 0 0 100) = true := by
  decide

/-! ## Parsing a data line -/

theorem takeWhile_append_of (p : Char → Bool) (a b : Line) (ha : ∀ c ∈ a, p c = true)
    (hb : ∀ c, b.head? = some c → p c = false) :
    (a ++ b).takeWhile p = a ∧ (a ++ b).dropWhile p = b := by
  induction a with
  | nil =>
    cases b with
    | nil => simp
    | cons c b => simp [List.takeWhile, List.dropWhile, hb c rfl]
  | cons c a ih =>
    have hc := ha c (List.mem_cons_self _ _)
    have := ih (fun d hd => ha d (List.mem_cons_of_mem _ hd))
    simp [List.takeWhile, List.dropWhile, hc, this.1, this.2]

theorem plus_append (p : Char → Bool) (a b : Line) (hne : a ≠ [])
    (ha : ∀ c ∈ a, p c = true) (hb : ∀ c, b.head? = some c → p c = false) :
    plus p (a ++ b) = some (a, b) := by
  obtain ⟨h1, h2⟩ := takeWhile_append_of p a b ha hb
  simp [plus, h1, h2, hne]

theorem spaces_succ (n : Nat) : spaces (n + 1) = ' ' :: spaces n := rfl

theorem mem_spaces {n : Nat} {c : Char} (h : c ∈ spaces n) : c = ' ' :=
  List.eq_of_mem_replicate h

theorem head_of_mem {a : Line} (hne : a ≠ []) : ∃ c, a.head? = some c ∧ c ∈ a := by
  cases a with
  | nil => exact absurd rfl hne
  | cons c a => exact ⟨c, rfl, List.mem_cons_self _ _⟩

theorem head_append_of_ne {a b : Line} (hne : a ≠ []) : (a ++ b).head? = a.head? := by
  cases a with
  | nil => exact absurd rfl hne
  | cons c a => rfl

/-- The piece ` +X+` on spaces, a field of the class, and a remainder that does not go
on with the class. -/
theorem sepField_append (p : Char → Bool) (g : Nat) (a b : Line) (hne : a ≠ [])
    (ha : ∀ c ∈ a, p c = true) (hsp : p ' ' = false)
    (hb : ∀ c, b.head? = some c → p c = false) :
    sepField p (spaces (g + 1) ++ (a ++ b)) = some (a, b) := by
  have h1 : plus isSpaceChar (spaces (g + 1) ++ (a ++ b)) = some (spaces (g + 1), a ++ b) := by
    apply plus_append
    · simp [spaces]
    · intro c hc; rw [mem_spaces hc]; rfl
    · intro c hc
      rw [head_append_of_ne hne] at hc
      obtain ⟨d, hd, hmem⟩ := head_of_mem hne
      rw [hd] at hc
      have hdc : d = c := by simpa using hc
      rw [hdc] at hmem
      by_contra hcon
      have : c = ' ' := by simpa [isSpaceChar] using hcon
      rw [this] at hmem
      rw [ha ' ' hmem] at hsp
      exact Bool.noConfusion hsp
  simp [sepField, h1, plus_append p a b hne ha hb]

theorem head_spaces_append (g : Nat) (r : Line) (c : Char)
    (h : (spaces (g + 1) ++ r).head? = some c) : c = ' ' := by
  rw [spaces_succ] at h
  simpa using h.symm

theorem stripLit_append (w r : Line) : stripLit w (w ++ r) = some r := by
  induction w with
  | nil => cases r <;> rfl
  | cons c w ih => simp [stripLit, ih]

theorem libraryGroup_libraryText (posix : Bool) (r : Line) :
    libraryGroup (libraryText posix ++ r) = some (libraryText posix, r) := by
  cases posix <;> rfl

theorem isDigitChar_ne_minus {c : Char} (h : isDigitChar c = true) : c ≠ '-' := by
  rintro rfl; exact absurd h (by decide)

theorem stoll_digits (x : Line) (hx : IsNumber x) (hr : (natOfDigits x : Int) ≤ 2 ^ 63 - 1) :
    stoll x = Except.ok (natOfDigits x : Int) := by
  obtain ⟨hne, hd⟩ := hx
  obtain ⟨c, hc, hmem⟩ := head_of_mem hne
  have hneg : ¬ (x.head? = some '-') := by
    rw [hc]; intro h; cases h; exact isDigitChar_ne_minus (hd _ hmem) rfl
  have ht : x.takeWhile isDigitChar = x := by
    have := (takeWhile_append_of isDigitChar x [] hd (by simp)).1
    simpa using this
  have hnn : (0 : Int) ≤ (natOfDigits x : Int) := Int.ofNat_nonneg _
  simp only [stoll, hneg, decide_False, Bool.false_eq_true, if_false, ht, hne]
  rw [if_neg (by omega)]

theorem stoi_digits (x : Line) (hx : IsNumber x) (hr : (natOfDigits x : Int) ≤ 2 ^ 31 - 1) :
    stoi x = Except.ok (natOfDigits x : Int) := by
  obtain ⟨hne, hd⟩ := hx
  obtain ⟨c, hc, hmem⟩ := head_of_mem hne
  have hneg : ¬ (x.head? = some '-') := by
    rw [hc]; intro h; cases h; exact isDigitChar_ne_minus (hd _ hmem) rfl
  have ht : x.takeWhile isDigitChar = x := by
    have := (takeWhile_append_of isDigitChar x [] hd (by simp)).1
    simpa using this
  have hnn : (0 : Int) ≤ (natOfDigits x : Int) := Int.ofNat_nonneg _
  simp only [stoi, hneg, decide_False, Bool.false_eq_true, if_false, ht, hne]
  rw [if_neg (by omega)]

theorem stod_decimalText (ds : Line) (fs : Option Line) (hds : IsNumber ds)
    (hfs : ∀ f, fs = some f → ∀ c ∈ f, isDigitChar c = true) :
    stod (decimalText ds fs) = decimalDouble ds fs := by
  obtain ⟨hne, hd⟩ := hds
  cases fs with
  | none =>
    have h := takeWhile_append_of isDigitChar ds [] hd (by simp)
    simp only [List.append_nil] at h
    simp [stod, decimalText, decimalDouble, h.1, h.2, hne]
  | some f =>
    have hf := hfs f rfl
    have h := takeWhile_append_of isDigitChar ds ('.' :: f) hd
      (by intro c hc; simp at hc; rw [← hc]; decide)
    have h2 := takeWhile_append_of isDigitChar f [] hf (by simp)
    simp only [List.append_nil] at h2
    simp [stod, decimalText, decimalDouble, h.1, h.2, h2.1, hne]

theorem isTimeChar_of_isDigitChar {c : Char} (h : isDigitChar c = true) :
    isTimeChar c = true := by
  simp only [isDigitChar] at h
  simp [isTimeChar, h]

theorem isOffsetChar_of_isDigitChar {c : Char} (h : isDigitChar c = true) :
    isOffsetChar c = true := by
  simp only [isDigitChar] at h
  simp [isOffsetChar, h]

theorem decimalText_ne_nil (ds : Line) (fs : Option Line) (hds : IsNumber ds) :
    decimalText ds fs ≠ [] := by
  cases fs with
  | none => exact hds.1
  | some f => simp [decimalText]

theorem decimalText_isTimeChar (ds : Line) (fs : Option Line) (hds : IsNumber ds)
    (hfs : ∀ f, fs = some f → ∀ c ∈ f, isDigitChar c = true) :
    ∀ c ∈ decimalText ds fs, isTimeChar c = true := by
  cases fs with
  | none => exact fun c hc => isTimeChar_of_isDigitChar (hds.2 c hc)
  | some f =>
    intro c hc
    simp only [decimalText, List.mem_append, List.mem_cons] at hc
    rcases hc with hc | rfl | hc
    · exact isTimeChar_of_isDigitChar (hds.2 c hc)
    · decide
    · exact isTimeChar_of_isDigitChar (hfs f rfl c hc)

/-- The pattern `io_event_re` on a data line whose fields are of the classes of its
groups: the captured texts are the fields. -/
theorem io_event_re_dataLine (lead g1 g2 g3 g4 g5 g6 g7 : Nat) (posix : Bool)
    (rank direction segment offset length t0 t1 tail : Line)
    (hrank : rank ≠ [] ∧ ∀ c ∈ rank, isDigitChar c = true)
    (hdir : direction ≠ [] ∧ ∀ c ∈ direction, isLowerChar c = true)
    (hseg : segment ≠ [] ∧ ∀ c ∈ segment, isDigitChar c = true)
    (hoff : offset ≠ [] ∧ ∀ c ∈ offset, isOffsetChar c = true)
    (hlen : length ≠ [] ∧ ∀ c ∈ length, isDigitChar c = true)
    (ht0 : t0 ≠ [] ∧ ∀ c ∈ t0, isTimeChar c = true)
    (ht1 : t1 ≠ [] ∧ ∀ c ∈ t1, isTimeChar c = true)
    (htail : ∀ c, tail.head? = some c → isTimeChar c = false) :
    io_event_re (dataLine lead (libraryText posix) rank direction segment offset length
        t0 t1 g1 g2 g3 g4 g5 g6 g7 tail)
      = some ⟨libraryText posix, rank, direction, offset, length, t0, t1⟩ := by
  have hsp : ∀ (p : Char → Bool), p ' ' = false → ∀ (g : Nat) (r : Line) (c : Char),
      (spaces (g + 1) ++ r).head? = some c → p c = false := by
    intro p hp g r c hc
    rw [head_spaces_append g r c hc]; exact hp
  have hdrop : ∀ r : Line,
      (spaces lead ++ (libraryText posix ++ r)).dropWhile isSpaceChar
        = libraryText posix ++ r := by
    intro r
    refine (takeWhile_append_of isSpaceChar _ _ (fun c hc => ?_) (fun c hc => ?_)).2
    · rw [mem_spaces hc]; rfl
    · cases posix
      · have : c = 'X' := by simpa [libraryText] using hc.symm
        rw [this]; rfl
      · have : c = 'X' := by simpa [libraryText] using hc.symm
        rw [this]; rfl
  unfold dataLine io_event_re
  rw [hdrop, libraryGroup_libraryText]
  simp only [Option.bind_eq_bind, Option.some_bind]
  rw [sepField_append isDigitChar g1 rank _ hrank.1 hrank.2 rfl (hsp _ rfl _ _)]
  simp only [Option.some_bind]
  rw [sepField_append isLowerChar g2 direction _ hdir.1 hdir.2 rfl (hsp _ rfl _ _)]
  simp only [Option.some_bind]
  rw [sepField_append isDigitChar g3 segment _ hseg.1 hseg.2 rfl (hsp _ rfl _ _)]
  simp only [Option.some_bind]
  rw [sepField_append isOffsetChar g4 offset _ hoff.1 hoff.2 rfl (hsp _ rfl _ _)]
  simp only [Option.some_bind]
  rw [sepField_append isDigitChar g5 length _ hlen.1 hlen.2 rfl (hsp _ rfl _ _)]
  simp only [Option.some_bind]
  rw [sepField_append isTimeChar g6 t0 _ ht0.1 ht0.2 rfl (hsp _ rfl _ _)]
  simp only [Option.some_bind]
  rw [sepField_append isTimeChar g7 t1 _ ht1.1 ht1.2 rfl htail]
  simp only [Option.some_bind]

theorem directionText_isLowerChar (read : Bool) :
    directionText read ≠ [] ∧ ∀ c ∈ directionText read, isLowerChar c = true := by
  cases read <;> decide

theorem doubleOfRatio_eq (n d : Nat) (hn : n ≠ 0) :
    doubleOfRatio n d =
      if 1023 < binaryExponent n d
          ∨ (binaryExponent n d = 1023
            ∧ 2 ^ 53 ≤ roundToUnit n d (max (binaryExponent n d) (-1022) - 52)) then
        Except.error Exn.out_of_range
      else if binaryExponent n d < -1022
          ∧ exactAtUnit n d (max (binaryExponent n d) (-1022) - 52) = false then
        Except.error Exn.out_of_range
      else Except.ok (mkRat (Int.ofNat (roundToUnit n d (max (binaryExponent n d) (-1022) - 52)
          * 2 ^ (max (binaryExponent n d) (-1022) - 52).toNat))
        (2 ^ (-(max (binaryExponent n d) (-1022) - 52)).toNat)) := by
  unfold doubleOfRatio
  rw [if_neg hn]

/-- The bit length brackets a positive number between two powers of two. -/
theorem bitLengthAux_spec : ∀ (fuel n : Nat), n ≤ fuel → 0 < n →
    1 ≤ bitLengthAux fuel n ∧ 2 ^ (bitLengthAux fuel n - 1) ≤ n ∧ n < 2 ^ bitLengthAux fuel n := by
  intro fuel
  induction fuel with
  | zero => intro n h0 hn; omega
  | succ fuel ih =>
    intro n hle hn
    rw [bitLengthAux, if_neg (by omega)]
    by_cases h2 : n / 2 = 0
    · have h1 : n = 1 := by omega
      subst h1
      have : bitLengthAux fuel (1 / 2) = 0 := by
        cases fuel with
        | zero => rfl
        | succ f => rw [bitLengthAux]; simp
      rw [this]
      simp
    · obtain ⟨hk1, hlo, hhi⟩ := ih (n / 2) (by omega) (by omega)
      generalize bitLengthAux fuel (n / 2) = k at hk1 hlo hhi
      obtain ⟨j, rfl⟩ : ∃ j, k = j + 1 := ⟨k - 1, by omega⟩
      simp only [Nat.add_sub_cancel] at hlo ⊢
      rw [pow_succ] at hhi ⊢
      rw [pow_succ (n := j + 1), pow_succ]
      omega

theorem bitLength_spec (n : Nat) (hn : 0 < n) :
    1 ≤ bitLength n ∧ 2 ^ (bitLength n - 1) ≤ n ∧ n < 2 ^ bitLength n :=
  bitLengthAux_spec n n (le_refl _) hn

/-- A power of two with an integer exponent, as a quotient of natural powers. -/
theorem zpow_two_eq (k : Int) : (2 : ℚ) ^ k = (2 ^ k.toNat : Nat) / (2 ^ (-k).toNat : Nat) := by
  rcases le_or_lt 0 k with h | h
  · obtain ⟨j, rfl⟩ := Int.eq_ofNat_of_zero_le h
    have : (-(j : Int)).toNat = 0 := by omega
    simp [this]
  · obtain ⟨j, hj⟩ : ∃ j : Nat, k = -(j : Int) := ⟨(-k).toNat, by omega⟩
    subst hj
    have h1 : (-(j : Int)).toNat = 0 := by omega
    have h2 : (- -(j : Int)).toNat = j := by omega
    simp [h1, h2]

/-- The test on natural numbers that compares the ratio with a power of two. -/
theorem le_ratio_iff (n d : Nat) (hd : 0 < d) (k : Int) :
    d * 2 ^ k.toNat ≤ n * 2 ^ (-k).toNat ↔ (2 : ℚ) ^ k ≤ (n : ℚ) / d := by
  have hdq : (0 : ℚ) < d := by exact_mod_cast hd
  have hb : (0 : ℚ) < ((2 ^ (-k).toNat : Nat) : ℚ) := by positivity
  rw [zpow_two_eq, div_le_div_iff₀ hb hdq]
  constructor
  · intro h
    have : ((d * 2 ^ k.toNat : Nat) : ℚ) ≤ ((n * 2 ^ (-k).toNat : Nat) : ℚ) := by exact_mod_cast h
    push_cast at this ⊢
    linarith
  · intro h
    have : ((d * 2 ^ k.toNat : Nat) : ℚ) ≤ ((n * 2 ^ (-k).toNat : Nat) : ℚ) := by
      push_cast at h ⊢
      linarith
    exact_mod_cast this

/-- The binary exponent brackets the ratio between two powers of two. -/
theorem binaryExponent_spec (n d : Nat) (hn : 0 < n) (hd : 0 < d) :
    (2 : ℚ) ^ binaryExponent n d ≤ (n : ℚ) / d
      ∧ (n : ℚ) / d < (2 : ℚ) ^ (binaryExponent n d + 1) := by
  obtain ⟨ha1, hnlo, hnhi⟩ := bitLength_spec n hn
  obtain ⟨hc1, hdlo, hdhi⟩ := bitLength_spec d hd
  have hdq : (0 : ℚ) < d := by exact_mod_cast hd
  have hnq : (0 : ℚ) < n := by exact_mod_cast hn
  unfold binaryExponent
  generalize bitLength n = a at ha1 hnlo hnhi
  generalize bitLength d = c at hc1 hdlo hdhi
  obtain ⟨a, rfl⟩ : ∃ j, a = j + 1 := ⟨a - 1, by omega⟩
  obtain ⟨c, rfl⟩ : ∃ j, c = j + 1 := ⟨c - 1, by omega⟩
  simp only [Nat.add_sub_cancel] at hnlo hdlo
  have hnlo' : (2 : ℚ) ^ a ≤ n := by exact_mod_cast hnlo
  have hnhi' : (n : ℚ) < 2 ^ (a + 1) := by exact_mod_cast hnhi
  have hdlo' : (2 : ℚ) ^ c ≤ d := by exact_mod_cast hdlo
  have hdhi' : (d : ℚ) < 2 ^ (c + 1) := by exact_mod_cast hdhi
  have he0 : (((a + 1 : Nat) : Int) - ((c + 1 : Nat) : Int)) = (a : Int) - c := by
    push_cast; ring
  have h2 : (2 : ℚ) ≠ 0 := by norm_num
  have hpa : (0 : ℚ) < 2 ^ a := by positivity
  have hpc : (0 : ℚ) < 2 ^ c := by positivity
  -- the ratio lies strictly between 2 ^ (e0 - 1) and 2 ^ (e0 + 1)
  have hup : (n : ℚ) / d < (2 : ℚ) ^ ((a : Int) - c + 1) := by
    have : (2 : ℚ) ^ ((a : Int) - c + 1) = 2 ^ (a + 1) / 2 ^ c := by
      rw [show (a : Int) - c + 1 = ((a + 1 : Nat) : Int) - (c : Int) by push_cast; ring,
        zpow_sub₀ h2, zpow_natCast, zpow_natCast]
    rw [this, div_lt_div_iff₀ hdq hpc]
    calc (n : ℚ) * 2 ^ c < 2 ^ (a + 1) * 2 ^ c := by
          exact mul_lt_mul_of_pos_right hnhi' hpc
      _ ≤ 2 ^ (a + 1) * d := by
          exact mul_le_mul_of_nonneg_left hdlo' (by positivity)
  have hlow : (2 : ℚ) ^ ((a : Int) - c - 1) ≤ (n : ℚ) / d := by
    have : (2 : ℚ) ^ ((a : Int) - c - 1) = 2 ^ a / 2 ^ (c + 1) := by
      rw [show (a : Int) - c - 1 = (a : Int) - ((c + 1 : Nat) : Int) by push_cast; ring,
        zpow_sub₀ h2, zpow_natCast, zpow_natCast]
    rw [this, div_le_div_iff₀ (by positivity) hdq]
    calc (2 : ℚ) ^ a * d ≤ 2 ^ a * 2 ^ (c + 1) := by
          exact mul_le_mul_of_nonneg_left (le_of_lt hdhi') (by positivity)
      _ ≤ n * 2 ^ (c + 1) := by
          exact mul_le_mul_of_nonneg_right hnlo' (by positivity)
  rw [he0]
  simp only []
  split_ifs with ht
  · exact ⟨(le_ratio_iff n d hd _).1 ht, hup⟩
  · have hlt : (n : ℚ) / d < (2 : ℚ) ^ ((a : Int) - c) :=
      lt_of_not_le (fun h => ht ((le_ratio_iff n d hd _).2 h))
    refine ⟨hlow, ?_⟩
    rw [show (a : Int) - c - 1 + 1 = (a : Int) - c by ring]
    exact hlt

/-- Rounding to the nearest unit, on integers: the number of units is within half a unit
of the quotient, and is even on a tie. -/
theorem round_half_even (N D : Nat) (hD : 0 < D) :
    2 * |((if D < 2 * (N % D) ∨ (D = 2 * (N % D) ∧ (N / D) % 2 = 1) then N / D + 1
          else N / D : Nat) : Int) * D - N| ≤ D
      ∧ (2 * |((if D < 2 * (N % D) ∨ (D = 2 * (N % D) ∧ (N / D) % 2 = 1) then N / D + 1
          else N / D : Nat) : Int) * D - N| = D →
        (if D < 2 * (N % D) ∨ (D = 2 * (N % D) ∧ (N / D) % 2 = 1) then N / D + 1
          else N / D) % 2 = 0) := by
  have h1 := Nat.div_add_mod N D
  have h2 := Nat.mod_lt N hD
  generalize N / D = k at h1 ⊢
  generalize N % D = r at h1 h2 ⊢
  subst h1
  split_ifs with hc
  · have e : ((k + 1 : Nat) : Int) * D - ((D * k + r : Nat) : Int) = (D : Int) - r := by
      push_cast; ring
    rw [e, abs_of_nonneg (by omega)]
    constructor
    · omega
    · intro h; omega
  · have e : ((k : Nat) : Int) * D - ((D * k + r : Nat) : Int) = -(r : Int) := by
      push_cast; ring
    rw [e, abs_neg, abs_of_nonneg (by omega)]
    constructor
    · omega
    · intro h; omega

/-- The value `roundToUnit n d p` times the unit `2 ^ p` is within half a unit of the
ratio `n / d`, and the number of units is even on a tie. -/
theorem roundToUnit_spec (n d : Nat) (hd : 0 < d) (p : Int) :
    2 * |(roundToUnit n d p : ℚ) * 2 ^ p - (n : ℚ) / d| ≤ 2 ^ p
      ∧ (2 * |(roundToUnit n d p : ℚ) * 2 ^ p - (n : ℚ) / d| = 2 ^ p →
        roundToUnit n d p % 2 = 0) := by
  have hA : 0 < 2 ^ (-p).toNat := by positivity
  have hB : 0 < 2 ^ p.toNat := by positivity
  have hD : 0 < d * 2 ^ p.toNat := Nat.mul_pos hd hB
  have key := round_half_even (n * 2 ^ (-p).toNat) (d * 2 ^ p.toNat) hD
  unfold roundToUnit
  simp only []
  generalize (if d * 2 ^ p.toNat < 2 * (n * 2 ^ (-p).toNat % (d * 2 ^ p.toNat))
      ∨ (d * 2 ^ p.toNat = 2 * (n * 2 ^ (-p).toNat % (d * 2 ^ p.toNat))
        ∧ n * 2 ^ (-p).toNat / (d * 2 ^ p.toNat) % 2 = 1)
    then n * 2 ^ (-p).toNat / (d * 2 ^ p.toNat) + 1
    else n * 2 ^ (-p).toNat / (d * 2 ^ p.toNat)) = m at key ⊢
  have hdq : (0 : ℚ) < d := by exact_mod_cast hd
  have hAq : (0 : ℚ) < ((2 ^ (-p).toNat : Nat) : ℚ) := by exact_mod_cast hA
  have hdA : (0 : ℚ) < (d : ℚ) * ((2 ^ (-p).toNat : Nat) : ℚ) := mul_pos hdq hAq
  have hdiff : (m : ℚ) * 2 ^ p - (n : ℚ) / d
      = (((m : Int) * ((d * 2 ^ p.toNat : Nat) : Int) - ((n * 2 ^ (-p).toNat : Nat) : Int) : Int) : ℚ)
        / ((d : ℚ) * ((2 ^ (-p).toNat : Nat) : ℚ)) := by
    rw [zpow_two_eq]
    push_cast
    field_simp
    ring
  have hunit : (2 : ℚ) ^ p
      = (((d * 2 ^ p.toNat : Nat) : Int) : ℚ) / ((d : ℚ) * ((2 ^ (-p).toNat : Nat) : ℚ)) := by
    rw [zpow_two_eq]
    push_cast
    field_simp
    ring
  rw [hdiff, hunit, abs_div, abs_of_pos hdA, ← mul_div_assoc, div_le_div_iff_of_pos_right hdA,
    div_left_inj' (ne_of_gt hdA)]
  constructor
  · have := key.1
    have h2 : ((2 * |(m : Int) * ((d * 2 ^ p.toNat : Nat) : Int) - ((n * 2 ^ (-p).toNat : Nat) : Int)| : Int) : ℚ)
        ≤ (((d * 2 ^ p.toNat : Nat) : Int) : ℚ) := by exact_mod_cast this
    simpa using h2
  · intro h
    apply key.2
    have h2 : ((2 * |(m : Int) * ((d * 2 ^ p.toNat : Nat) : Int) - ((n * 2 ^ (-p).toNat : Nat) : Int)| : Int) : ℚ)
        = (((d * 2 ^ p.toNat : Nat) : Int) : ℚ) := by simpa using h
    exact_mod_cast h2

theorem mkRat_units (m : Nat) (p : Int) :
    mkRat (Int.ofNat (m * 2 ^ p.toNat)) (2 ^ (-p).toNat) = (m : ℚ) * 2 ^ p := by
  rw [Rat.mkRat_eq_div, zpow_two_eq]
  push_cast
  rw [Int.ofNat_eq_coe]
  push_cast
  ring

/-- A ratio that is a multiple of the unit is kept by the rounding. -/
theorem roundToUnit_exact (n d : Nat) (hd : 0 < d) (p : Int) (h : exactAtUnit n d p = true) :
    (roundToUnit n d p : ℚ) * 2 ^ p = (n : ℚ) / d := by
  have h0 := (roundToUnit_spec n d hd p).1
  have hB : 0 < 2 ^ p.toNat := by positivity
  have hD : 0 < d * 2 ^ p.toNat := Nat.mul_pos hd hB
  unfold exactAtUnit at h
  simp only [decide_eq_true_eq] at h
  have hm : roundToUnit n d p = n * 2 ^ (-p).toNat / (d * 2 ^ p.toNat) := by
    unfold roundToUnit
    simp only []
    rw [h, if_neg (by omega)]
  have hN := Nat.div_add_mod (n * 2 ^ (-p).toNat) (d * 2 ^ p.toNat)
  rw [h, Nat.add_zero, ← hm] at hN
  have hdq : (0 : ℚ) < d := by exact_mod_cast hd
  have hAq : (0 : ℚ) < ((2 ^ (-p).toNat : Nat) : ℚ) := by positivity
  have hNq : ((d * 2 ^ p.toNat * roundToUnit n d p : Nat) : ℚ)
      = ((n * 2 ^ (-p).toNat : Nat) : ℚ) := by rw [hN]
  rw [zpow_two_eq]
  push_cast at hNq ⊢
  field_simp
  linarith

/-- The result of `doubleOfRatio` is the double nearest to the ratio: a multiple `m * 2 ^ p`
of the spacing `2 ^ p` of the doubles of the binade of the ratio, within half a spacing of
it, with `m` even on a tie, and below `2 ^ 1024`; below the normal range the result is the
ratio itself. -/
theorem doubleOfRatio_nearest (n d : Nat) (hn : 0 < n) (hd : 0 < d) (v : ℚ)
    (h : doubleOfRatio n d = Except.ok v) :
    ∃ (m : Nat) (p : Int), v = (m : ℚ) * 2 ^ p
      ∧ 2 * |v - (n : ℚ) / d| ≤ 2 ^ p
      ∧ (2 * |v - (n : ℚ) / d| = 2 ^ p → m % 2 = 0)
      ∧ ((-1074 ≤ p ∧ p ≤ 971 ∧ (2 : ℚ) ^ (p + 52) ≤ (n : ℚ) / d
            ∧ (n : ℚ) / d < (2 : ℚ) ^ (p + 53))
          ∨ (p = -1074 ∧ (n : ℚ) / d < (2 : ℚ) ^ (-1022 : Int) ∧ v = (n : ℚ) / d))
      ∧ v < (2 : ℚ) ^ (1024 : Int) := by
  rw [doubleOfRatio_eq n d (by omega)] at h
  obtain ⟨hlo, hhi⟩ := binaryExponent_spec n d hn hd
  generalize binaryExponent n d = e at h hlo hhi
  split_ifs at h with h1 h2
  injection h with h
  rw [mkRat_units] at h
  obtain ⟨hr1, hr2⟩ := roundToUnit_spec n d hd (max e (-1022) - 52)
  have he : e ≤ 1023 := by
    by_contra hc
    exact h1 (Or.inl (by omega))
  have h2' : (1 : ℚ) < 2 := by norm_num
  have hmono : ∀ a b : Int, a ≤ b → (2 : ℚ) ^ a ≤ (2 : ℚ) ^ b :=
    fun a b hab => zpow_le_zpow_right₀ (le_of_lt h2') hab
  refine ⟨roundToUnit n d (max e (-1022) - 52), max e (-1022) - 52, h.symm, ?_, ?_, ?_, ?_⟩
  · rw [← h]; exact hr1
  · rw [← h]; exact hr2
  · by_cases hsub : e < -1022
    · right
      have hp : max e (-1022) - 52 = -1074 := by rw [max_eq_right (by omega)]; norm_num
      have hex : exactAtUnit n d (max e (-1022) - 52) = true := by
        by_contra hc
        exact h2 ⟨hsub, by simpa using hc⟩
      refine ⟨hp, lt_of_lt_of_le hhi (hmono _ _ (by omega)), ?_⟩
      rw [← h]
      exact roundToUnit_exact n d hd _ hex
    · left
      have hp : max e (-1022) - 52 = e - 52 := by rw [max_eq_left (by omega)]
      rw [hp]
      refine ⟨by omega, by omega, ?_, ?_⟩
      · rw [show e - 52 + 52 = e by ring]; exact hlo
      · rw [show e - 52 + 53 = e + 1 by ring]; exact hhi
  · rw [← h]
    by_cases he2 : e = 1023
    · have hm : roundToUnit n d (max e (-1022) - 52) < 2 ^ 53 := by
        by_contra hc
        exact h1 (Or.inr ⟨he2, by omega⟩)
      have hp : max e (-1022) - 52 = 971 := by rw [he2]; norm_num
      rw [hp] at hm ⊢
      have hmq : ((roundToUnit n d 971 : Nat) : ℚ) < 2 ^ (53 : Int) := by
        rw [zpow_ofNat]
        exact_mod_cast hm
      have h971 : (0 : ℚ) < 2 ^ (971 : Int) := by positivity
      calc ((roundToUnit n d 971 : Nat) : ℚ) * 2 ^ (971 : Int)
          < 2 ^ (53 : Int) * 2 ^ (971 : Int) := mul_lt_mul_of_pos_right hmq h971
        _ = 2 ^ (1024 : Int) := by rw [← zpow_add₀ (by norm_num : (2 : ℚ) ≠ 0)]; norm_num
    · have hx := le_abs_self ((roundToUnit n d (max e (-1022) - 52) : ℚ)
        * 2 ^ (max e (-1022) - 52) - (n : ℚ) / d)
      have hnn := abs_nonneg ((roundToUnit n d (max e (-1022) - 52) : ℚ)
        * 2 ^ (max e (-1022) - 52) - (n : ℚ) / d)
      have hq : (n : ℚ) / d < 2 ^ (1023 : Int) := lt_of_lt_of_le hhi (hmono _ _ (by omega))
      have hu : (2 : ℚ) ^ (max e (-1022) - 52) ≤ 2 ^ (1023 : Int) :=
        hmono _ _ (by rcases max_cases e (-1022) with ⟨hm, _⟩ | ⟨hm, _⟩ <;> omega)
      have h1024 : (2 : ℚ) ^ (1024 : Int) = 2 ^ (1023 : Int) * 2 := by
        rw [show (1024 : Int) = 1023 + 1 by norm_num, zpow_add_one₀ (by norm_num)]
      rw [h1024]
      linarith

/-- Within the range of the normal doubles the conversion returns: a ratio of at least
`2 ^ (-1022)` that is below `2 ^ 1024 - 2 ^ 970`, the midpoint above the largest double. -/
theorem doubleOfRatio_total (n d : Nat) (hn : 0 < n) (hd : 0 < d)
    (hlo : (2 : ℚ) ^ (-1022 : Int) ≤ (n : ℚ) / d)
    (hhi : (n : ℚ) / d < (2 : ℚ) ^ (1024 : Int) - (2 : ℚ) ^ (970 : Int)) :
    ∃ v, doubleOfRatio n d = Except.ok v := by
  rw [doubleOfRatio_eq n d (by omega)]
  obtain ⟨helo, hehi⟩ := binaryExponent_spec n d hn hd
  have h2' : (1 : ℚ) < 2 := by norm_num
  have hmono : ∀ a b : Int, a ≤ b → (2 : ℚ) ^ a ≤ (2 : ℚ) ^ b :=
    fun a b hab => zpow_le_zpow_right₀ (le_of_lt h2') hab
  have h970 : (0 : ℚ) < 2 ^ (970 : Int) := by positivity
  have he1 : -1022 ≤ binaryExponent n d := by
    by_contra hc
    have := hmono (binaryExponent n d + 1) (-1022) (by omega)
    exact lt_irrefl _ (lt_of_lt_of_le hehi (le_trans this hlo))
  have he2 : binaryExponent n d ≤ 1023 := by
    by_contra hc
    have := hmono 1024 (binaryExponent n d) (by omega)
    exact lt_irrefl _ (lt_of_le_of_lt (le_trans this helo) (lt_trans hhi (sub_lt_self _ h970)))
  have hc1 : ¬ (1023 < binaryExponent n d
      ∨ (binaryExponent n d = 1023
        ∧ 2 ^ 53 ≤ roundToUnit n d (max (binaryExponent n d) (-1022) - 52))) := by
    rintro (h | ⟨h, hm⟩)
    · omega
    · have hp : max (binaryExponent n d) (-1022) - 52 = 971 := by rw [h]; norm_num
      rw [hp] at hm
      have hr := (roundToUnit_spec n d hd 971).1
      have hmq : (2 : ℚ) ^ (53 : Int) ≤ ((roundToUnit n d 971 : Nat) : ℚ) := by
        rw [zpow_ofNat]
        exact_mod_cast hm
      have h971 : (0 : ℚ) < 2 ^ (971 : Int) := by positivity
      have hbig : (2 : ℚ) ^ (1024 : Int) ≤ ((roundToUnit n d 971 : Nat) : ℚ) * 2 ^ (971 : Int) := by
        calc (2 : ℚ) ^ (1024 : Int) = 2 ^ (53 : Int) * 2 ^ (971 : Int) := by
              rw [← zpow_add₀ (by norm_num : (2 : ℚ) ≠ 0)]; norm_num
          _ ≤ _ := mul_le_mul_of_nonneg_right hmq (le_of_lt h971)
      have hx := le_abs_self (((roundToUnit n d 971 : Nat) : ℚ) * 2 ^ (971 : Int) - (n : ℚ) / d)
      have h971' : (2 : ℚ) ^ (971 : Int) = 2 ^ (970 : Int) * 2 := by
        rw [show (971 : Int) = 970 + 1 by norm_num, zpow_add_one₀ (by norm_num)]
      linarith
  have hc2 : ¬ (binaryExponent n d < -1022
      ∧ exactAtUnit n d (max (binaryExponent n d) (-1022) - 52) = false) := by
    rintro ⟨h, _⟩
    omega
  rw [if_neg hc1, if_neg hc2]
  exact ⟨_, rfl⟩

/-- The value of a decimal text as a quotient. -/
theorem decimalValue_eq (ds : Line) (fs : Option Line) :
    decimalValue ds fs
      = ((natOfDigits (ds ++ fs.getD []) : Nat) : ℚ) / ((10 ^ (fs.getD []).length : Nat) : ℚ) := by
  unfold decimalValue
  rw [Rat.mkRat_eq_div]
  push_cast
  rfl

/-- On a decimal number in the range of the normal doubles, or zero, the conversion
returns the double nearest to it. -/
theorem decimalDouble_spec (ds : Line) (fs : Option Line)
    (hr : InDoubleRange (decimalValue ds fs)) :
    ∃ t, decimalDouble ds fs = Except.ok t ∧ IsNearestDouble (decimalValue ds fs) t := by
  rw [decimalValue_eq] at hr ⊢
  unfold decimalDouble
  have hd : 0 < 10 ^ (fs.getD []).length := by positivity
  generalize natOfDigits (ds ++ fs.getD []) = n at hr ⊢
  generalize 10 ^ (fs.getD []).length = d at hr hd ⊢
  have hdq : (0 : ℚ) < d := by exact_mod_cast hd
  rcases Nat.eq_zero_or_pos n with hn | hn
  · subst hn
    exact ⟨0, rfl, Or.inl ⟨by simp, rfl⟩⟩
  · have hnq : (0 : ℚ) < n := by exact_mod_cast hn
    have hpos : (0 : ℚ) < (n : ℚ) / d := div_pos hnq hdq
    have hlo : (2 : ℚ) ^ (-1022 : Int) ≤ (n : ℚ) / d := by
      rcases hr.1 with h | h
      · exact absurd h (ne_of_gt hpos)
      · exact h
    obtain ⟨v, hv⟩ := doubleOfRatio_total n d hn hd hlo hr.2
    refine ⟨v, hv, Or.inr ?_⟩
    obtain ⟨m, p, hvm, hhalf, htie, hcase, hfin⟩ := doubleOfRatio_nearest n d hn hd v hv
    rcases hcase with ⟨hp1, hp2, hq1, hq2⟩ | ⟨_, hq, _⟩
    · exact ⟨m, p, hp1, hp2, hq1, hq2, hvm, hhalf, htie, hfin⟩
    · exact absurd hlo (not_le.2 hq)

/-- The values from 1 to 1000000000 are in the range of the normal doubles. -/
theorem inDoubleRange_of_one_le {q : ℚ} (h1 : 1 ≤ q) (h2 : q ≤ 1000000000) :
    InDoubleRange q := by
  have h2' : (1 : ℚ) ≤ 2 := by norm_num
  have hmono : ∀ a b : Int, a ≤ b → (2 : ℚ) ^ a ≤ (2 : ℚ) ^ b :=
    fun a b hab => zpow_le_zpow_right₀ h2' hab
  constructor
  · right
    have := hmono (-1022) 0 (by norm_num)
    rw [zpow_zero] at this
    exact le_trans this h1
  · have ha := hmono 30 970 (by norm_num)
    have hb : (2 : ℚ) ^ (1024 : Int) = 2 ^ (970 : Int) * 2 ^ (54 : Int) := by
      rw [← zpow_add₀ (by norm_num : (2 : ℚ) ≠ 0)]; norm_num
    have hc : (2 : ℚ) ^ (30 : Int) = 1073741824 := by norm_num
    have hd : (2 : ℚ) ^ (54 : Int) = 18014398509481984 := by norm_num
    have h970 : (0 : ℚ) < 2 ^ (970 : Int) := by positivity
    rw [hb, hd]
    rw [hc] at ha
    nlinarith

/-- The conversion `stod` rounds to the nearest `double`: 0.1 becomes
3602879701896397 / 2 ^ 55, a text of more digits that rounds to the same `double` gives the
same value, and a value that a `double` holds is kept. -/
theorem stod_rounds_to_double :
    stod "0.1".toList = Except.ok (mkRat 3602879701896397 (2 ^ 55))
      ∧ stod "0.10000000000000001".toList = stod "0.1".toList
      ∧ stod "6.8709".toList = Except.ok (mkRat 7735945669924985 (2 ^ 50))
      ∧ stod "1.5".toList = Except.ok (mkRat 3 2)
      ∧ stod "9007199254740993".toList = Except.ok 9007199254740992
      ∧ stod ".5".toList = Except.ok (mkRat 1 2)
      ∧ stod "7.".toList = Except.ok 7
      ∧ stod ".".toList = Except.error Exn.invalid_argument := by
  decide

set_option maxRecDepth 16000 in
set_option exponentiation.threshold 4096 in
/-- The conversion `stod` throws `out_of_range` outside of the range of `double`: on
1e309 written out, which overflows, and on 1e-401 written out, which underflows; the
largest `double`, 2 ^ 1024 - 2 ^ 971, written with 17 significant digits, is converted. -/
theorem stod_out_of_range :
    stod ('1' :: List.replicate 309 '0') = Except.error Exn.out_of_range
      ∧ stod ("0.".toList ++ (List.replicate 400 '0' ++ ['1']))
        = Except.error Exn.out_of_range
      ∧ stod ("17976931348623157".toList ++ List.replicate 292 '0')
        = Except.ok (mkRat (Int.ofNat (2 ^ 1024 - 2 ^ 971)) 1) := by
  decide

/-- C13 as stated fails: a data line of the grammar whose rank is 2147483648 makes
`stoi` throw `out_of_range`; `parseEventLine` does not return. -/
theorem parseEventLine_rank_out_of_range :
    " X_POSIX 2147483648 read 9 9437184 1048576 6.8709 6.8747".toList
        = dataLine 1 (libraryText true) "2147483648".toList (directionText true) "9".toList
          "9437184".toList "1048576".toList (decimalText "6".toList (some "8709".toList))
          (decimalText "6".toList (some "8747".toList)) 0 0 0 0 0 0 0 []
      ∧ parseEventLine " X_POSIX 2147483648 read 9 9437184 1048576 6.8709 6.8747".toList
        = ParseResult.thrown Exn.out_of_range := by
  decide

/-- C13 amended: for every data line `<library> <rank> <read|write> <segment> <offset>
<length> <start_time> <end_time>` with optional leading spaces, fields separated by one
or more spaces, library `X_POSIX` or `X_MPIIO`, non-negative decimal numbers, rank at most
2147483647, offset and length at most 9223372036854775807, and times in the range of the
normal doubles (zero, or from `2 ^ (-1022)` to below `2 ^ 1024 - 2 ^ 970`),
`parseEventLine` returns true with api, rank, mode, offset and length set to the values
of the fields and the two times set to the doubles nearest to the values of the fields;
the segment is ignored. -/
theorem parseEventLine_data_line (lead g1 g2 g3 g4 g5 g6 g7 : Nat) (posix read : Bool)
    (rank segment offset length d0 d1 : Line) (f0 f1 : Option Line)
    (hrank : IsNumber rank) (hseg : IsNumber segment) (hoff : IsNumber offset)
    (hlen : IsNumber length) (hd0 : IsNumber d0) (hd1 : IsNumber d1)
    (hf0 : ∀ f, f0 = some f → ∀ c ∈ f, isDigitChar c = true)
    (hf1 : ∀ f, f1 = some f → ∀ c ∈ f, isDigitChar c = true)
    (hrank_max : (natOfDigits rank : Int) ≤ 2 ^ 31 - 1)
    (hoff_max : (natOfDigits offset : Int) ≤ 2 ^ 63 - 1)
    (hlen_max : (natOfDigits length : Int) ≤ 2 ^ 63 - 1)
    (ht0 : InDoubleRange (decimalValue d0 f0)) (ht1 : InDoubleRange (decimalValue d1 f1)) :
    ∃ t0 t1 : ℚ,
      IsNearestDouble (decimalValue d0 f0) t0 ∧ IsNearestDouble (decimalValue d1 f1) t1
        ∧ parseEventLine (dataLine lead (libraryText posix) rank (directionText read) segment
            offset length (decimalText d0 f0) (decimalText d1 f1) g1 g2 g3 g4 g5 g6 g7 [])
          = ParseResult.accepted
            ⟨(natOfDigits rank : Int), if read then Mode.READ else Mode.WRITE,
              if posix then API.POSIX else API.MPI, (natOfDigits offset : Int),
              (natOfDigits length : Int), t0, t1⟩ := by
  obtain ⟨t0, hs0, hn0⟩ := decimalDouble_spec d0 f0 ht0
  obtain ⟨t1, hs1, hn1⟩ := decimalDouble_spec d1 f1 ht1
  refine ⟨t0, t1, hn0, hn1, ?_⟩
  have hm := io_event_re_dataLine lead g1 g2 g3 g4 g5 g6 g7 posix rank (directionText read)
    segment offset length (decimalText d0 f0) (decimalText d1 f1) [] hrank
    (directionText_isLowerChar read) hseg
    ⟨hoff.1, fun c hc => isOffsetChar_of_isDigitChar (hoff.2 c hc)⟩ hlen
    ⟨decimalText_ne_nil d0 f0 hd0, decimalText_isTimeChar d0 f0 hd0 hf0⟩
    ⟨decimalText_ne_nil d1 f1 hd1, decimalText_isTimeChar d1 f1 hd1 hf1⟩ (by simp)
  unfold parseEventLine
  rw [hm]
  simp only [stoi_digits rank hrank hrank_max, stoll_digits offset hoff hoff_max,
    stoll_digits length hlen hlen_max, stod_decimalText d0 f0 hd0 hf0,
    stod_decimalText d1 f1 hd1 hf1, hs0, hs1]
  cases posix <;> cases read <;> simp [libraryText, directionText]

/-- The amended C13 on the line of the claim: rank 1, READ, POSIX, offset 9437184, length
1048576, and the doubles nearest to 6.8709 and 6.8747, which are
7735945669924985 / 2 ^ 50 and 7740224089570987 / 2 ^ 50. -/
theorem parseEventLine_data_line_witness :
    " X_POSIX       1   read        9         9437184         1048576      6.8709      6.8747".toList
        = dataLine 1 (libraryText true) "1".toList (directionText true) "9".toList
          "9437184".toList "1048576".toList (decimalText "6".toList (some "8709".toList))
          (decimalText "6".toList (some "8747".toList)) 6 2 7 8 8 5 5 []
      ∧ (∃ t0 t1 : ℚ,
          IsNearestDouble (decimalValue "6".toList (some "8709".toList)) t0
            ∧ IsNearestDouble (decimalValue "6".toList (some "8747".toList)) t1
            ∧ parseEventLine (dataLine 1 (libraryText true) "1".toList (directionText true)
                "9".toList "9437184".toList "1048576".toList
                (decimalText "6".toList (some "8709".toList))
                (decimalText "6".toList (some "8747".toList)) 6 2 7 8 8 5 5 [])
              = ParseResult.accepted
                ⟨(natOfDigits "1".toList : Int), if true then Mode.READ else Mode.WRITE,
                  if true then API.POSIX else API.MPI, (natOfDigits "9437184".toList : Int),
                  (natOfDigits "1048576".toList : Int), t0, t1⟩)
      ∧ parseEventLine
          " X_POSIX       1   read        9         9437184         1048576      6.8709      6.8747".toList
        = ParseResult.accepted
          ⟨1, Mode.READ, API.POSIX, 9437184, 1048576,
            mkRat 7735945669924985 1125899906842624,
            mkRat 7740224089570987 1125899906842624⟩ :=
  ⟨by decide,
    parseEventLine_data_line 1 6 2 7 8 8 5 5 true true "1".toList "9".toList
      "9437184".toList "1048576".toList "6".toList "6".toList (some "8709".toList)
      (some "8747".toList) (by decide) (by decide) (by decide) (by decide)
      (by decide) (by decide) (by decide) (by decide) (by decide) (by decide) (by decide)
      (inDoubleRange_of_one_le (by decide) (by decide))
      (inDoubleRange_of_one_le (by decide) (by decide)),
    by decide⟩

/-! ## Malformed and degenerate data lines -/

theorem readLoop_nil (ph : Phase) (file_table : FileTableType) :
    readLoop ph file_table [] = ReadResult.done file_table := by
  cases ph <;> rfl

theorem readLoop_seekHeader_cons (file_table : FileTableType) (line : Line)
    (rest : List Line) :
    readLoop Phase.seekHeader file_table (line :: rest) =
      match section_header_re line with
      | none => readLoop Phase.seekHeader file_table rest
      | some (file_id, file_name) =>
        match file_table.find (String.mk file_id) with
        | none =>
          readLoop (Phase.seekRank (String.mk file_id))
            (file_table ++ [⟨String.mk file_id, String.mk file_name, []⟩]) rest
        | some _ => readLoop (Phase.seekRank (String.mk file_id)) file_table rest := by
  rw [readLoop]

theorem readLoop_seekRank_cons (current_file : String) (file_table : FileTableType)
    (line : Line) (rest : List Line) :
    readLoop (Phase.seekRank current_file) file_table (line :: rest) =
      match rank_line_re line with
      | none => readLoop (Phase.seekRank current_file) file_table rest
      | some rank =>
        match stoi rank with
        | Except.error x => ReadResult.thrown x
        | Except.ok _ => readLoop (Phase.body current_file) file_table rest := by
  rw [readLoop]

theorem readLoop_body_cons (current_file : String) (file_table : FileTableType)
    (line : Line) (rest : List Line) :
    readLoop (Phase.body current_file) file_table (line :: rest) =
      if line.length = 0 then readLoop Phase.seekHeader file_table rest
      else if line.head? = some '#' then readLoop (Phase.body current_file) file_table rest
      else
        match parseEventLine line with
        | ParseResult.thrown x => ReadResult.thrown x
        | ParseResult.rejected => readLoop (Phase.body current_file) file_table rest
        | ParseResult.accepted e =>
          readLoop (Phase.body current_file) (file_table.addEvent current_file e) rest := by
  rw [readLoop]

/-- A line that `io_event_re` does not match is refused without an exception. -/
theorem parseEventLine_rejected_of_no_match {line : Line} (h : io_event_re line = none) :
    parseEventLine line = ParseResult.rejected := by
  unfold parseEventLine
  rw [h]

/-- A refused data line is skipped: the reader goes on with the next line of the
section. -/
theorem readLoop_body_rejected (current_file : String) (file_table : FileTableType)
    (line : Line) (rest : List Line) (hne : line ≠ []) (hhash : line.head? ≠ some '#')
    (h : parseEventLine line = ParseResult.rejected) :
    readLoop (Phase.body current_file) file_table (line :: rest)
      = readLoop (Phase.body current_file) file_table rest := by
  have hlen : ¬ (line.length = 0) := by
    intro h0; exact hne (List.length_eq_zero.1 h0)
  rw [readLoop_body_cons, if_neg hlen, if_neg hhash, h]

/-- C14 fails on lines that `io_event_re` matches although a number is malformed: with
an offset of `-` or a time of `.` the conversion throws `invalid_argument`, which nothing
catches, and `readDarshanDxtInput` ends there without ingesting the well-formed line
that follows, which it ingests when the malformed line is absent. -/
theorem malformed_number_is_fatal :
    parseEventLine " X_POSIX 0 write 0 - 100 1.0 2.0".toList
        = ParseResult.thrown Exn.invalid_argument
      ∧ parseEventLine " X_POSIX 0 write 0 0 100 . 2.0".toList
        = ParseResult.thrown Exn.invalid_argument
      ∧ readDarshanDxtInput
          (headerOne ++ [" X_POSIX 0 write 0 - 100 1.0 2.0".toList, goodLine]) []
        = ReadResult.thrown Exn.invalid_argument
      ∧ readDarshanDxtInput (headerOne ++ [goodLine]) []
        = ReadResult.done [⟨"1", "a", [goodEvent]⟩] := by
  decide

/-- When the input ends before a rank line is found, the reader returns the table as it
is. -/
theorem readLoop_seekRank_eof (current_file : String) (file_table : FileTableType)
    (lines : List Line) (h : ∀ line ∈ lines, rank_line_re line = none) :
    readLoop (Phase.seekRank current_file) file_table lines = ReadResult.done file_table := by
  induction lines with
  | nil => exact readLoop_nil _ _
  | cons line rest ih =>
    rw [readLoop_seekRank_cons, h line (List.mem_cons_self _ _)]
    exact ih (fun l hl => h l (List.mem_cons_of_mem _ hl))

/-- C16 fails when the section ends at a blank line: the search for the rank line reads
on through the blank line and the header of the next section, takes the rank line of
that section, and adds its data to the file of the truncated section; the file of the
next section is never created. -/
theorem truncated_section_takes_next_section :
    readDarshanDxtInput
        ["# DXT, file_id: 1, file_name: a".toList,
         [],
         "# DXT, file_id: 2, file_name: b".toList,
         "# DXT, rank: 0, hostname: h".toList,
         goodLine] []
      = ReadResult.done [⟨"1", "a", [goodEvent]⟩] := by
  decide

/-! ## Sections and the file table -/

theorem isDigitChar_comma_false (b : Line) (c : Char)
    (h : (",".toList ++ b).head? = some c) : isDigitChar c = false := by
  have : c = ',' := by simpa using h.symm
  rw [this]; rfl

theorem section_header_re_headerLine (s : TraceSection) (hid : IsNumber s.file_id)
    (hname : ∀ c ∈ s.file_name, isLineTerminator c = false) :
    section_header_re s.headerLine = some (s.file_id, s.file_name) := by
  have h1 : plus isDigitChar (s.file_id ++ (", file_name: ".toList ++ s.file_name))
      = some (s.file_id, ", file_name: ".toList ++ s.file_name) := by
    apply plus_append _ _ _ hid.1 hid.2
    intro c hc
    have : c = ',' := by simpa using hc.symm
    rw [this]; rfl
  have h2 : s.file_name.any isLineTerminator = false := by
    rw [List.any_eq_false]
    intro c hc
    rw [hname c hc]; exact Bool.false_ne_true
  unfold section_header_re TraceSection.headerLine
  rw [stripLit_append]
  simp only [Option.bind_eq_bind, Option.some_bind, h1, stripLit_append, h2]
  rfl

theorem rank_line_re_rankLine (s : TraceSection) (hrank : IsNumber s.rank) :
    rank_line_re s.rankLine = some s.rank := by
  have h1 : plus isDigitChar (s.rank ++ (",".toList ++ s.rank_rest))
      = some (s.rank, ",".toList ++ s.rank_rest) :=
    plus_append _ _ _ hrank.1 hrank.2 (isDigitChar_comma_false _)
  unfold rank_line_re TraceSection.rankLine
  rw [stripLit_append]
  simp only [Option.bind_eq_bind, Option.some_bind, h1, stripLit_append]

/-- The lines before the rank line are passed over. -/
theorem readLoop_seekRank_metadata (current_file : String) (file_table : FileTableType)
    (metadata rest : List Line) (h : ∀ l ∈ metadata, rank_line_re l = none) :
    readLoop (Phase.seekRank current_file) file_table (metadata ++ rest)
      = readLoop (Phase.seekRank current_file) file_table rest := by
  induction metadata with
  | nil => rfl
  | cons l ls ih =>
    rw [List.cons_append, readLoop_seekRank_cons, h l (List.mem_cons_self _ _)]
    exact ih (fun x hx => h x (List.mem_cons_of_mem _ hx))

/-- The body of a section adds its events to the current file, and the blank line leads
back to the search for a header. -/
theorem readLoop_body_section (current_file : String) (body rest : List Line) :
    ∀ file_table : FileTableType,
      (∀ l ∈ body, l ≠ [] ∧
        (l.head? = some '#' ∨ (parseEventLine l).isThrown = false)) →
      readLoop (Phase.body current_file) file_table (body ++ ([] :: rest))
        = readLoop Phase.seekHeader (addEvents file_table current_file (bodyEvents body))
          rest := by
  induction body with
  | nil =>
    intro ft _
    rw [List.nil_append, readLoop_body_cons]
    rfl
  | cons l ls ih =>
    intro ft h
    obtain ⟨hne, hl⟩ := h l (List.mem_cons_self _ _)
    have hrest := fun x hx => h x (List.mem_cons_of_mem _ hx)
    have hlen : ¬ (l.length = 0) := fun h0 => hne (List.length_eq_zero.1 h0)
    rw [List.cons_append, readLoop_body_cons, if_neg hlen]
    by_cases hh : l.head? = some '#'
    · rw [if_pos hh, ih ft hrest]
      simp [bodyEvents, hh]
    · rw [if_neg hh]
      have hnt : (parseEventLine l).isThrown = false := by
        rcases hl with hl | hl
        · exact absurd hl hh
        · exact hl
      cases hp : parseEventLine l with
      | thrown x => rw [hp] at hnt; exact absurd hnt (by simp [ParseResult.isThrown])
      | rejected =>
        simp only []
        rw [ih ft hrest]
        simp [bodyEvents, hh, hp]
      | accepted e =>
        simp only []
        rw [ih _ hrest]
        simp [bodyEvents, hh, hp, addEvents]

/-- One well-formed section takes the reader from the search for a header back to it,
with the effect `applySection` on the file table. -/
theorem readLoop_section (s : TraceSection) (hs : s.WellFormed) (rest : List Line)
    (file_table : FileTableType) :
    readLoop Phase.seekHeader file_table (s.lines ++ rest)
      = readLoop Phase.seekHeader (applySection file_table s) rest := by
  obtain ⟨hid, hname, hmeta, hrank, hrmax, hbody⟩ := hs
  have hsec : ∀ ft : FileTableType,
      readLoop (Phase.seekRank (String.mk s.file_id)) ft
          (s.metadata ++ (s.rankLine :: (s.body ++ [[]])) ++ rest)
        = readLoop Phase.seekHeader (addEvents ft (String.mk s.file_id) (bodyEvents s.body))
          rest := by
    intro ft
    rw [List.append_assoc, readLoop_seekRank_metadata _ _ _ _ (fun l hl => (hmeta l hl).2.2),
      List.cons_append,
      readLoop_seekRank_cons, rank_line_re_rankLine s hrank]
    simp only []
    rw [stoi_digits s.rank hrank hrmax]
    simp only []
    rw [List.append_assoc, List.singleton_append]
    exact readLoop_body_section _ _ _ ft (fun l hl => ⟨(hbody l hl).1, (hbody l hl).2.2⟩)
  unfold TraceSection.lines applySection ensureFile
  rw [List.cons_append, readLoop_seekHeader_cons, section_header_re_headerLine s hid hname]
  simp only []
  cases hfind : FileTableType.find file_table (String.mk s.file_id) with
  | none => simp only []; exact hsec _
  | some f => simp only []; exact hsec _

/-- A trace of well-formed sections is read to the end, section after section. -/
theorem readLoop_traceLines (secs : List TraceSection) :
    ∀ file_table : FileTableType, (∀ s ∈ secs, s.WellFormed) →
      readLoop Phase.seekHeader file_table (traceLines secs)
        = ReadResult.done (secs.foldl applySection file_table) := by
  induction secs with
  | nil => intro ft _; exact readLoop_nil _ _
  | cons s rest ih =>
    intro ft h
    rw [traceLines, readLoop_section s (h s (List.mem_cons_self _ _))]
    exact ih _ (fun x hx => h x (List.mem_cons_of_mem _ hx))

theorem find_some {file_table : FileTableType} {file_id : String} {f : File}
    (h : file_table.find file_id = some f) : f.id = file_id ∧ f ∈ file_table := by
  unfold FileTableType.find at h
  exact ⟨by simpa using List.find?_some h, List.mem_of_find?_eq_some h⟩

theorem find_eq_none {file_table : FileTableType} {file_id : String} :
    file_table.find file_id = none ↔ ∀ f ∈ file_table, f.id ≠ file_id := by
  unfold FileTableType.find
  simp [List.find?_eq_none]

theorem find_cons (f : File) (file_table : FileTableType) (file_id : String) :
    FileTableType.find (f :: file_table) file_id
      = if f.id = file_id then some f else FileTableType.find file_table file_id := by
  unfold FileTableType.find
  by_cases h : f.id = file_id <;> simp [List.find?_cons, h]

theorem find_append_singleton (file_table : FileTableType) (g : File) (file_id : String) :
    FileTableType.find (file_table ++ [g]) file_id
      = match FileTableType.find file_table file_id with
        | some f => some f
        | none => if g.id = file_id then some g else none := by
  induction file_table with
  | nil =>
    rw [List.nil_append, find_cons]
    rfl
  | cons f ft ih =>
    rw [List.cons_append, find_cons, find_cons]
    by_cases h : f.id = file_id
    · simp [h]
    · simp only [h, if_false]; exact ih

/-- The update of one file by `addEvent`. -/
theorem find_addEvent (file_table : FileTableType) (file_id file_id' : String) (e : Event) :
    FileTableType.find (file_table.addEvent file_id e) file_id'
      = (FileTableType.find file_table file_id').map
        (fun f => if f.id = file_id then { f with events := EventSetType.insert e f.events }
          else f) := by
  induction file_table with
  | nil => rfl
  | cons f ft ih =>
    have hcons : FileTableType.addEvent (f :: ft) file_id e
        = (if f.id = file_id then { f with events := EventSetType.insert e f.events } else f)
          :: FileTableType.addEvent ft file_id e := by
      unfold FileTableType.addEvent
      by_cases h : f.id = file_id <;> simp [h]
    have hid : (if f.id = file_id then
        ({ f with events := EventSetType.insert e f.events } : File) else f).id = f.id := by
      split <;> rfl
    rw [hcons, find_cons, find_cons, hid]
    by_cases h : f.id = file_id'
    · rw [if_pos h, if_pos h]; rfl
    · rw [if_neg h, if_neg h]; exact ih

theorem find_addEvents (evs : List Event) (file_id file_id' : String) :
    ∀ file_table : FileTableType,
      FileTableType.find (addEvents file_table file_id evs) file_id'
        = (FileTableType.find file_table file_id').map
          (fun f => if f.id = file_id then
            { f with events := evs.foldl (fun s e => EventSetType.insert e s) f.events }
            else f) := by
  induction evs with
  | nil =>
    intro ft
    rw [show addEvents ft file_id [] = ft from rfl]
    cases h : FileTableType.find ft file_id' with
    | none => rfl
    | some f =>
      simp only [Option.map_some', List.foldl_nil]
      exact congrArg some (by split <;> rfl)
  | cons e evs ih =>
    intro ft
    have : addEvents ft file_id (e :: evs) = addEvents (ft.addEvent file_id e) file_id evs :=
      rfl
    rw [this, ih, find_addEvent]
    cases h : FileTableType.find ft file_id' with
    | none => rfl
    | some f => by_cases h2 : f.id = file_id <;> simp [h2]

theorem find_ensureFile (file_table : FileTableType) (file_id file_name file_id' : String) :
    FileTableType.find (ensureFile file_table file_id file_name) file_id'
      = match FileTableType.find file_table file_id' with
        | some f => some f
        | none => if file_id = file_id' then some ⟨file_id, file_name, []⟩ else none := by
  unfold ensureFile
  cases h : FileTableType.find file_table file_id with
  | none => simp only []; rw [find_append_singleton]
  | some g =>
    simp only []
    cases h' : FileTableType.find file_table file_id' with
    | some f => rfl
    | none =>
      have hne : file_id ≠ file_id' := by
        intro heq
        rw [heq, h'] at h
        exact Option.noConfusion h
      simp [hne]

/-- The lookup of an id after one section. -/
theorem find_applySection (file_table : FileTableType) (s : TraceSection) (file_id : String) :
    FileTableType.find (applySection file_table s) file_id
      = match FileTableType.find file_table file_id with
        | some f =>
          some (if String.mk s.file_id = file_id then
            { f with events :=
                (bodyEvents s.body).foldl (fun t e => EventSetType.insert e t) f.events }
            else f)
        | none =>
          if String.mk s.file_id = file_id then
            some ⟨file_id, String.mk s.file_name,
              (bodyEvents s.body).foldl (fun t e => EventSetType.insert e t) []⟩
          else none := by
  unfold applySection
  rw [find_addEvents, find_ensureFile]
  cases h : FileTableType.find file_table file_id with
  | some f =>
    have hid := (find_some h).1
    by_cases h2 : String.mk s.file_id = file_id
    · simp [h2, hid]
    · have h3 : ¬ (f.id = String.mk s.file_id) := by rw [hid]; exact fun hh => h2 hh.symm
      simp [h2, h3]
  | none =>
    by_cases h2 : String.mk s.file_id = file_id
    · simp [h2]
    · simp [h2]

/-- The lookup of an id after a sequence of sections: the file found before, or the file
created at the first section of the id, with the events of all the sections of the id
inserted in the order of the trace. -/
theorem find_foldl_applySection (secs : List TraceSection) (file_id : String) :
    ∀ file_table : FileTableType,
      FileTableType.find (secs.foldl applySection file_table) file_id
        = match FileTableType.find file_table file_id with
          | some f =>
            some { f with events :=
              (eventsOfId secs file_id).foldl (fun t e => EventSetType.insert e t) f.events }
          | none =>
            (firstName secs file_id).map (fun n =>
              ⟨file_id, n,
                (eventsOfId secs file_id).foldl (fun t e => EventSetType.insert e t) []⟩) := by
  induction secs with
  | nil =>
    intro ft
    cases h : FileTableType.find ft file_id with
    | some f => simp [eventsOfId, h]
    | none => simp [firstName, h]
  | cons s rest ih =>
    intro ft
    rw [List.foldl_cons, ih, find_applySection]
    cases h : FileTableType.find ft file_id with
    | some f =>
      by_cases h2 : String.mk s.file_id = file_id
      · simp [eventsOfId, h2, List.foldl_append]
      · simp [eventsOfId, h2]
    | none =>
      by_cases h2 : String.mk s.file_id = file_id
      · simp [eventsOfId, firstName, h2, List.foldl_append]
      · simp [eventsOfId, firstName, h2]

theorem map_id_addEvent (file_table : FileTableType) (file_id : String) (e : Event) :
    (file_table.addEvent file_id e).map File.id = file_table.map File.id := by
  unfold FileTableType.addEvent
  rw [List.map_map]
  apply List.map_congr_left
  intro f _
  by_cases h : f.id = file_id <;> simp [h]

theorem map_id_addEvents (evs : List Event) (file_id : String) :
    ∀ file_table : FileTableType,
      (addEvents file_table file_id evs).map File.id = file_table.map File.id := by
  induction evs with
  | nil => intro ft; rfl
  | cons e evs ih =>
    intro ft
    have : addEvents ft file_id (e :: evs) = addEvents (ft.addEvent file_id e) file_id evs :=
      rfl
    rw [this, ih, map_id_addEvent]

theorem nodup_applySection (file_table : FileTableType) (s : TraceSection)
    (h : (file_table.map File.id).Nodup) :
    ((applySection file_table s).map File.id).Nodup := by
  unfold applySection
  rw [map_id_addEvents]
  unfold ensureFile
  cases hf : FileTableType.find file_table (String.mk s.file_id) with
  | some g => exact h
  | none =>
    simp only []
    rw [List.map_append, List.map_singleton]
    rw [List.nodup_append]
    refine ⟨h, List.nodup_singleton _, ?_⟩
    intro a ha hb
    rw [List.mem_singleton] at hb
    obtain ⟨f, hfm, hfa⟩ := List.mem_map.1 ha
    exact (find_eq_none.1 hf) f hfm (hfa.trans hb)

theorem nodup_foldl_applySection (secs : List TraceSection) :
    ∀ file_table : FileTableType, (file_table.map File.id).Nodup →
      ((secs.foldl applySection file_table).map File.id).Nodup := by
  induction secs with
  | nil => intro ft h; exact h
  | cons s rest ih => intro ft h; exact ih _ (nodup_applySection ft s h)

/-- In a table without two files of one id, each file is the file found under its id. -/
theorem find_of_mem (file_table : FileTableType) (h : (file_table.map File.id).Nodup)
    (f : File) (hf : f ∈ file_table) : FileTableType.find file_table f.id = some f := by
  induction file_table with
  | nil => simp at hf
  | cons g ft ih =>
    rw [List.map_cons, List.nodup_cons] at h
    rw [find_cons]
    rcases List.mem_cons.1 hf with rfl | hf
    · simp
    · have hne : g.id ≠ f.id := by
        intro heq
        exact h.1 (heq ▸ List.mem_map_of_mem File.id hf)
      simp only [hne, if_false]
      exact ih h.2 hf

theorem mem_insert_of_mem {e y : Event} {evs : EventSetType} (h : y ∈ evs) :
    y ∈ EventSetType.insert e evs := by
  induction evs with
  | nil => simp at h
  | cons x xs ih =>
    unfold EventSetType.insert
    split
    · exact List.mem_cons_of_mem _ h
    · split
      · rcases List.mem_cons.1 h with h | h
        · exact h ▸ List.mem_cons_self _ _
        · exact List.mem_cons_of_mem _ (ih h)
      · exact h

/-- After an insertion the container holds an access with the offset and start time of
the inserted one. -/
theorem key_mem_insert (e : Event) (evs : EventSetType) :
    ∃ a ∈ EventSetType.insert e evs, a.offset = e.offset ∧ a.start_time = e.start_time := by
  induction evs with
  | nil => exact ⟨e, by simp [EventSetType.insert], rfl, rfl⟩
  | cons x xs ih =>
    unfold EventSetType.insert
    by_cases h1 : e.lt x = true
    · rw [if_pos h1]
      exact ⟨e, List.mem_cons_self _ _, rfl, rfl⟩
    · rw [if_neg h1]
      by_cases h2 : x.lt e = true
      · rw [if_pos h2]
        obtain ⟨a, ha, hk⟩ := ih
        exact ⟨a, List.mem_cons_of_mem _ ha, hk⟩
      · rw [if_neg h2]
        refine ⟨x, List.mem_cons_self _ _, ?_⟩
        unfold Event.lt at h1 h2
        by_cases ho : e.offset = x.offset
        · rw [if_pos ho] at h1
          rw [if_pos ho.symm] at h2
          simp only [decide_eq_true_eq, not_lt] at h1 h2
          exact ⟨ho.symm, le_antisymm h1 h2⟩
        · rw [if_neg ho] at h1
          rw [if_neg (fun h => ho h.symm)] at h2
          simp only [decide_eq_true_eq, not_lt] at h1 h2
          exact absurd (le_antisymm h2 h1) ho

theorem key_mem_foldl_insert (l : List Event) :
    ∀ (acc : EventSetType),
      (∀ y ∈ acc, y ∈ l.foldl (fun s e => EventSetType.insert e s) acc)
        ∧ ∀ e ∈ l, ∃ a ∈ l.foldl (fun s e => EventSetType.insert e s) acc,
            a.offset = e.offset ∧ a.start_time = e.start_time := by
  induction l with
  | nil => intro acc; exact ⟨fun y hy => hy, fun e he => by simp at he⟩
  | cons x xs ih =>
    intro acc
    rw [List.foldl_cons]
    obtain ⟨hkeep, hkey⟩ := ih (EventSetType.insert x acc)
    refine ⟨fun y hy => hkeep y (mem_insert_of_mem hy), fun e he => ?_⟩
    rcases List.mem_cons.1 he with rfl | he
    · obtain ⟨a, ha, hk⟩ := key_mem_insert e acc
      exact ⟨a, hkeep a ha, hk⟩
    · exact hkey e he

theorem firstName_isSome_iff (secs : List TraceSection) (file_id : String) :
    (∃ n, firstName secs file_id = some n) ↔ ∃ s ∈ secs, String.mk s.file_id = file_id := by
  induction secs with
  | nil => simp [firstName]
  | cons s rest ih =>
    unfold firstName
    by_cases h : String.mk s.file_id = file_id
    · rw [if_pos h]
      exact ⟨fun _ => ⟨s, List.mem_cons_self _ _, h⟩, fun _ => ⟨_, rfl⟩⟩
    · rw [if_neg h, ih]
      constructor
      · rintro ⟨t, ht, hid⟩
        exact ⟨t, List.mem_cons_of_mem _ ht, hid⟩
      · rintro ⟨t, ht, hid⟩
        rcases List.mem_cons.1 ht with rfl | ht
        · exact absurd hid h
        · exact ⟨t, ht, hid⟩

theorem mem_eventsOfId (secs : List TraceSection) (file_id : String) (e : Event) :
    e ∈ eventsOfId secs file_id
      ↔ ∃ s ∈ secs, String.mk s.file_id = file_id ∧ e ∈ bodyEvents s.body := by
  induction secs with
  | nil => simp [eventsOfId]
  | cons s rest ih =>
    unfold eventsOfId
    by_cases h : String.mk s.file_id = file_id
    · rw [if_pos h, List.mem_append, ih]
      constructor
      · rintro (he | ⟨t, ht, hid, he⟩)
        · exact ⟨s, List.mem_cons_self _ _, h, he⟩
        · exact ⟨t, List.mem_cons_of_mem _ ht, hid, he⟩
      · rintro ⟨t, ht, hid, he⟩
        rcases List.mem_cons.1 ht with rfl | ht
        · exact Or.inl he
        · exact Or.inr ⟨t, ht, hid, he⟩
    · rw [if_neg h, ih]
      constructor
      · rintro ⟨t, ht, hid, he⟩
        exact ⟨t, List.mem_cons_of_mem _ ht, hid, he⟩
      · rintro ⟨t, ht, hid, he⟩
        rcases List.mem_cons.1 ht with rfl | ht
        · exact absurd hid h
        · exact ⟨t, ht, hid, he⟩

theorem section_header_re_nil : section_header_re [] = none := by decide

theorem section_header_re_rankLine (s : TraceSection) : section_header_re s.rankLine = none := by
  unfold section_header_re TraceSection.rankLine
  simp [stripLit]

/-- The section headers among the lines of a trace of well-formed sections are the header
lines of its sections. -/
theorem section_header_re_traceLines (secs : List TraceSection)
    (hwf : ∀ s ∈ secs, s.WellFormed) (id name : Line) :
    (∃ l ∈ traceLines secs, section_header_re l = some (id, name))
      ↔ ∃ s ∈ secs, s.file_id = id ∧ s.file_name = name := by
  induction secs with
  | nil => simp [traceLines]
  | cons s rest ih =>
    have hs := hwf s (List.mem_cons_self _ _)
    have ih2 := ih (fun x hx => hwf x (List.mem_cons_of_mem _ hx))
    have hhead := section_header_re_headerLine s hs.1 hs.2.1
    constructor
    · rintro ⟨l, hl, hre⟩
      rw [traceLines, List.mem_append] at hl
      rcases hl with hl | hl
      · unfold TraceSection.lines at hl
        rcases List.mem_cons.1 hl with rfl | hl
        · rw [hhead] at hre
          simp only [Option.some.injEq, Prod.mk.injEq] at hre
          exact ⟨s, List.mem_cons_self _ _, hre.1, hre.2⟩
        · rcases List.mem_append.1 hl with hl | hl
          · rw [(hs.2.2.1 l hl).2.1] at hre
            exact Option.noConfusion hre
          · rcases List.mem_cons.1 hl with rfl | hl
            · rw [section_header_re_rankLine] at hre
              exact Option.noConfusion hre
            · rcases List.mem_append.1 hl with hl | hl
              · rw [(hs.2.2.2.2.2 l hl).2.1] at hre
                exact Option.noConfusion hre
              · rw [List.mem_singleton] at hl
                rw [hl, section_header_re_nil] at hre
                exact Option.noConfusion hre
      · obtain ⟨t, ht, hid⟩ := ih2.1 ⟨l, hl, hre⟩
        exact ⟨t, List.mem_cons_of_mem _ ht, hid⟩
    · rintro ⟨t, ht, hid, hname⟩
      rcases List.mem_cons.1 ht with rfl | ht
      · refine ⟨t.headerLine, ?_, ?_⟩
        · rw [traceLines, List.mem_append]
          exact Or.inl (List.mem_cons_self _ _)
        · rw [hhead, hid, hname]
      · obtain ⟨l, hl, hre⟩ := ih2.2 ⟨t, ht, hid, hname⟩
        refine ⟨l, ?_, hre⟩
        rw [traceLines, List.mem_append]
        exact Or.inr hl

/-- C12: for a trace of well-formed sections, `readDarshanDxtInput` returns a file table
with no two files of one id, in which a file of an id exists exactly when a section header
of the input has that id, carries the name of the first such section, and holds the events
of all the sections of that id, inserted in trace order into its `std::set`, whatever the
names in their headers: every section has its file, which holds an access with the
offset and start time of each event of the section, and each stored event is an event of
a section of the id of its file; the files of two sections are one file exactly when the
sections have one id, whatever their names. -/
theorem readDarshanDxtInput_file_table (secs : List TraceSection)
    (hwf : ∀ s ∈ secs, s.WellFormed) :
    ∃ table : FileTableType,
      readDarshanDxtInput (traceLines secs) [] = ReadResult.done table
        ∧ (table.map File.id).Nodup
        ∧ (∀ file_id : String,
            (∃ f ∈ table, f.id = file_id)
              ↔ ∃ l ∈ traceLines secs, ∃ id name : Line,
                  section_header_re l = some (id, name) ∧ String.mk id = file_id)
        ∧ (∀ f ∈ table, table.find f.id = some f)
        ∧ (∀ file_id : String,
            table.find file_id
              = (firstName secs file_id).map (fun n =>
                ⟨file_id, n,
                  (eventsOfId secs file_id).foldl (fun t e => EventSetType.insert e t) []⟩))
        ∧ (∀ s ∈ secs, ∃ f ∈ table, f.id = String.mk s.file_id
            ∧ ∀ e ∈ bodyEvents s.body,
                ∃ a ∈ f.events, a.offset = e.offset ∧ a.start_time = e.start_time)
        ∧ (∀ f ∈ table, ∀ a ∈ f.events,
            ∃ s ∈ secs, String.mk s.file_id = f.id ∧ a ∈ bodyEvents s.body)
        ∧ (∀ s1 ∈ secs, ∀ s2 ∈ secs, ∀ f1 ∈ table, ∀ f2 ∈ table,
            f1.id = String.mk s1.file_id → f2.id = String.mk s2.file_id →
              (f1 = f2 ↔ String.mk s1.file_id = String.mk s2.file_id)) := by
  have hnd := nodup_foldl_applySection secs [] List.nodup_nil
  have hfind : ∀ file_id : String,
      FileTableType.find (secs.foldl applySection []) file_id
        = (firstName secs file_id).map (fun n =>
          ⟨file_id, n,
            (eventsOfId secs file_id).foldl (fun t e => EventSetType.insert e t) []⟩) := by
    intro file_id
    rw [find_foldl_applySection]
    rfl
  have hmem := find_of_mem _ hnd
  have hsec : ∀ s ∈ secs, ∃ f ∈ secs.foldl applySection [], f.id = String.mk s.file_id
      ∧ f.events = (eventsOfId secs (String.mk s.file_id)).foldl
          (fun t e => EventSetType.insert e t) [] := by
    intro s hs
    obtain ⟨n, hn⟩ := (firstName_isSome_iff secs (String.mk s.file_id)).2 ⟨s, hs, rfl⟩
    have hf := hfind (String.mk s.file_id)
    rw [hn] at hf
    exact ⟨_, (find_some hf).2, rfl, rfl⟩
  refine ⟨secs.foldl applySection [], readLoop_traceLines secs [] hwf, hnd, ?_, hmem, hfind,
    ?_, ?_, ?_⟩
  · intro file_id
    constructor
    · rintro ⟨f, hf, hid⟩
      have h1 := hmem f hf
      rw [hid, hfind] at h1
      cases hn : firstName secs file_id with
      | none => rw [hn] at h1; exact Option.noConfusion h1
      | some n =>
        obtain ⟨s, hs, hsid⟩ := (firstName_isSome_iff secs file_id).1 ⟨n, hn⟩
        obtain ⟨l, hl, hre⟩ :=
          (section_header_re_traceLines secs hwf s.file_id s.file_name).2 ⟨s, hs, rfl, rfl⟩
        exact ⟨l, hl, s.file_id, s.file_name, hre, hsid⟩
    · rintro ⟨l, hl, id, name, hre, hid⟩
      obtain ⟨s, hs, hsid, _⟩ := (section_header_re_traceLines secs hwf id name).1 ⟨l, hl, hre⟩
      obtain ⟨f, hf, hfid, _⟩ := hsec s hs
      exact ⟨f, hf, by rw [hfid, hsid, hid]⟩
  · intro s hs
    obtain ⟨f, hf, hfid, hev⟩ := hsec s hs
    refine ⟨f, hf, hfid, fun e he => ?_⟩
    rw [hev]
    exact (key_mem_foldl_insert _ []).2 e
      ((mem_eventsOfId secs _ e).2 ⟨s, hs, rfl, he⟩)
  · intro f hf a ha
    have h1 := hmem f hf
    rw [hfind] at h1
    cases hn : firstName secs f.id with
    | none => rw [hn] at h1; exact Option.noConfusion h1
    | some n =>
      rw [hn] at h1
      simp only [Option.map_some', Option.some.injEq] at h1
      rw [← h1] at ha
      rcases mem_foldl_insert _ [] a ha with h | h
      · simp at h
      · obtain ⟨s, hs, hsid, he⟩ := (mem_eventsOfId secs f.id a).1 h
        exact ⟨s, hs, hsid, he⟩
  · intro s1 _ s2 _ f1 hf1 f2 hf2 h1 h2
    constructor
    · intro heq
      rw [← h1, ← h2, heq]
    · intro heq
      have e1 := hmem f1 hf1
      have e2 := hmem f2 hf2
      rw [h1, heq, ← h2, e2] at e1
      exact (Option.some.inj e1).symm

/-- C12 on a trace of three sections: the two sections of id 1, named `a` and `b`, fill
one file named `a`; the section of id 2, also named `a`, fills another file. -/
theorem readDarshanDxtInput_file_table_witness :
    readDarshanDxtInput (traceLines threeSections) []
        = ReadResult.done
          [⟨"1", "a", [⟨0, Mode.WRITE, API.POSIX, 0, 100, 1, 2⟩,
              ⟨1, Mode.WRITE, API.POSIX, 50, 100, mkRat 3 2, mkRat 5 2⟩]⟩,
           ⟨"2", "a", [⟨0, Mode.READ, API.MPI, 0, 10, 3, 4⟩]⟩]
      ∧ ∃ table : FileTableType,
        readDarshanDxtInput (traceLines threeSections) [] = ReadResult.done table
          ∧ (table.map File.id).Nodup
          ∧ (∀ file_id : String,
              (∃ f ∈ table, f.id = file_id)
                ↔ ∃ l ∈ traceLines threeSections, ∃ id name : Line,
                    section_header_re l = some (id, name) ∧ String.mk id = file_id)
          ∧ (∀ f ∈ table, table.find f.id = some f)
          ∧ (∀ file_id : String,
              table.find file_id
                = (firstName threeSections file_id).map (fun n =>
                  ⟨file_id, n,
                    (eventsOfId threeSections file_id).foldl
                      (fun t e => EventSetType.insert e t) []⟩))
          ∧ (∀ s ∈ threeSections, ∃ f ∈ table, f.id = String.mk s.file_id
              ∧ ∀ e ∈ bodyEvents s.body,
                  ∃ a ∈ f.events, a.offset = e.offset ∧ a.start_time = e.start_time)
          ∧ (∀ f ∈ table, ∀ a ∈ f.events,
              ∃ s ∈ threeSections, String.mk s.file_id = f.id ∧ a ∈ bodyEvents s.body)
          ∧ (∀ s1 ∈ threeSections, ∀ s2 ∈ threeSections, ∀ f1 ∈ table, ∀ f2 ∈ table,
              f1.id = String.mk s1.file_id → f2.id = String.mk s2.file_id →
                (f1 = f2 ↔ String.mk s1.file_id = String.mk s2.file_id)) :=
  ⟨by decide, readDarshanDxtInput_file_table threeSections (by decide)⟩

end Dxt
